import Mathlib

/-!
# Racing: the value-tracing instrumentation pass (`llvm_mode/full_trace.cpp`)

A shallow embedding of the `Tracer` pass and a verification of its
specification.  The embedding follows `full_trace.cpp` function by function:

* strings are lists of characters, `std::vector<std::string>` is a list;
* the IR is read through the queries the pass makes (`isa<...>`, `getType`,
  `getOperand`, `isTerminator`, `getDebugLoc`, pointer identity, and `isEHPad`
  inside `getFirstInsertionPt`), so an instruction is a record of the answers
  to those queries;
* the member `inst_id` (a `uint32_t`) is a natural number, reduced modulo
  `2 ^ 32` where the source computes with it;
* the stream `trace_id_steam` is the list of the lines written to it;
* a block after instrumentation is a list of `Item`s: the original
  instructions and the instructions inserted by the `IRBuilder`, in program
  order;
* dereferencing `end()` and a failing `assert` are results of their own
  (`Err`), never silently skipped.
-/

namespace Racing

/-! ## Strings and numbers -/

/-- A `std::string`, as the list of its characters. -/
abbrev Str := List Char

/-- The function `std::to_string` on an unsigned value, also the rendering of an
unsigned value by `raw_ostream::operator<<`: the decimal digits. -/
def to_string (n : Nat) : Str := Nat.toDigits 10 n

/-- The test `isspace` of the C locale. -/
def isspace (c : Char) : Bool :=
  c = ' ' || c = '\t' || c = '\n' || c = '\x0b' || c = '\x0c' || c = '\r'

/-- The digits loop of `strtol` in base 10: the value of the longest prefix of
decimal digits, accumulated from `acc`. -/
def digitsValue : Nat → Str → Nat
  | acc, [] => acc
  | acc, c :: cs =>
    if c.isDigit then digitsValue (acc * 10 + (c.toNat - 48)) cs else acc

/-- The mathematical value that `strtol(s, NULL, 10)` parses: leading white
space is skipped, one optional sign is read, then the digits. -/
def strtolValue (s : Str) : Int :=
  match s.dropWhile isspace with
  | '-' :: cs => - (digitsValue 0 cs : Int)
  | '+' :: cs => (digitsValue 0 cs : Int)
  | cs => (digitsValue 0 cs : Int)

/-- The function `atoi`.  It is `(int) strtol(s, NULL, 10)`: the parsed value is
clamped to the range of `long` and then truncated to 32 bits, two's
complement.  (For a value outside the range of `int` the C standard leaves the
result open; this is what the C library of the platform computes.) -/
def atoi (s : Str) : Int :=
  let v := max (-(2 ^ 63 : Int)) (min (strtolValue s) (2 ^ 63 - 1))
  (v + 2 ^ 31) % 2 ^ 32 - 2 ^ 31

/-- Conversion of an `int` to `uint32_t`, as in `inst_id = atoi(...)`. -/
def toUInt32 (v : Int) : Nat := (v % 2 ^ 32).toNat

/-- The loop `while (std::getline(file, line))`: `cur` holds the characters of
the line being read.  A line ends at a newline, which is dropped; at the end of
the file `getline` succeeds only if it has read at least one character. -/
def getlineLoop : Str → Str → List Str
  | cur, [] => if cur = [] then [] else [cur]
  | cur, c :: cs => if c = '\n' then cur :: getlineLoop [] cs else getlineLoop (cur ++ [c]) cs

/-- All the lines that successive calls of `std::getline` return on a file. -/
def getlines (content : Str) : List Str := getlineLoop [] content

/-- The call `s.find_last_of("/\\")`: the index of the last slash or backslash,
`none` for `std::string::npos`. -/
def find_last_of_sep : Str → Option Nat
  | [] => none
  | c :: cs =>
    match find_last_of_sep cs with
    | some i => some (i + 1)
    | none => if c = '/' || c = '\\' then some 0 else none

/-! ## The IR, as the pass reads it -/

/-- The types the pass tells apart (`isVoidTy`, `isMetadataTy`, `isPointerTy`,
`isFloatingPointTy`, `isLabelTy`, `isVectorTy`); an integer type carries its
bit width, a floating-point type its size in bits, a vector type the width of
its elements. -/
inductive Ty where
  | void
  | integer (bits : Nat)
  | pointer
  | floatingPoint (bits : Nat)
  | metadata
  | label
  | vector (elemBits : Nat)
  | other
  deriving DecidableEq, Repr

/-- The test `isVectorTy`. -/
def Ty.isVectorTy : Ty → Bool
  | .vector _ => true
  | _ => false

/-- The classes of `llvm::Value` the pass tells apart with `dyn_cast`, `isa`
and `getValueID`.  A `Function` is a `Constant` in LLVM. -/
inductive ValueKind where
  | instruction
  | argument
  | constant
  | function
  | basicBlock
  | other
  deriving DecidableEq, Repr

/-- An `llvm::Value *`: its address (pointer identity), its class and its
type. -/
structure Value where
  ptr : Nat
  kind : ValueKind
  ty : Ty
  deriving DecidableEq, Repr

/-- One `DILocation` node: line, column and file name. -/
structure DILocation where
  line : Nat
  column : Nat
  filename : Str
  deriving DecidableEq, Repr

/-- The debug location attached to an instruction, with its `getInlinedAt()`
parent when there is one. -/
structure DebugLoc where
  loc : DILocation
  inlinedAt : Option DILocation
  deriving DecidableEq, Repr

/-- The instruction classes the pass tells apart with `isa` and `dyn_cast`, and
the class of the exception-handling pads (`landingpad`, `catchpad`,
`cleanuppad`, `catchswitch`), which `getFirstInsertionPt` tells apart with
`isEHPad`. -/
inductive Opcode where
  | phi
  | call
  | invoke
  | zext
  | ehPad
  | other
  deriving DecidableEq, Repr

/-- The answer of `getCalledFunction()` when it is not null: whether the
function is an intrinsic and how many formal parameters it declares
(`arg_begin()` to `arg_end()`). -/
structure Callee where
  isIntrinsic : Bool
  numParams : Nat
  deriving DecidableEq, Repr

/-- An `llvm::Instruction`.  For a call the operands are the actual arguments
followed by the callee, as in LLVM; `callee` is `none` for an indirect call. -/
structure Instr where
  ptr : Nat
  opcode : Opcode
  ty : Ty
  operands : List Value
  isTerminator : Bool
  callee : Option Callee
  dbg : Option DebugLoc
  deriving DecidableEq, Repr

/-- An instruction seen as a value (`Value *value = inst`). -/
def Instr.asValue (i : Instr) : Value := ⟨i.ptr, .instruction, i.ty⟩

/-- The test `isa<Constant>(*v)`. -/
def Value.isConstant (v : Value) : Bool :=
  v.kind = .constant || v.kind = .function

/-- The cast instructions the `IRBuilder` is asked for. -/
inductive CastOp where
  | ptrToInt
  | fpExt
  | zext
  | trunc
  deriving DecidableEq, Repr

/-- One instruction of a block after the pass: an original instruction, an
inserted cast of `v` to the 64-bit form, or an inserted call
`trace_value(<64-bit form of v>, id)`. -/
inductive Item where
  | orig (i : Instr)
  | cast (op : CastOp) (v : Value)
  | trace (v : Value) (id : Nat)
  deriving DecidableEq, Repr

/-- A basic block: its instructions in program order. -/
abbrev BasicBlock := List Instr

/-- A function: its basic blocks in program order. -/
abbrev Function := List BasicBlock

/-- The block as it is when the pass has inserted nothing. -/
def untouched (bb : BasicBlock) : List Item := bb.map Item.orig

/-! ## The state of the pass -/

/-- One line written to `trace_id_steam`: a source position
`filename:line` or a bare identifier. -/
inductive LogLine where
  | loc (filename : Str) (line : Nat)
  | id (n : Nat)
  deriving DecidableEq, Repr

/-- The text of a line of the trace-id log. -/
def LogLine.render : LogLine → Str
  | .loc f l => f ++ ':' :: to_string l
  | .id n => to_string n

/-- The members of `Tracer` that change during a run: the counter `inst_id`
and what has been written to `trace_id_steam`. -/
structure Tracer where
  inst_id : Nat
  log : List LogLine
  deriving DecidableEq, Repr

/-- The locals `filename` and `line` that `getDebugLoc` writes through its
reference parameters (`column` is never read). -/
structure LocVars where
  filename : Str
  line : Nat
  deriving DecidableEq, Repr

/-- The ways a run leaves defined behaviour. -/
inductive Err where
  | pastEnd
  | assertion
  | operandRange
  deriving DecidableEq, Repr

/-! ## `getDebugLoc` -/

/-- The function `getDebugLoc` (the branch for the current debug API).  It
assigns the output parameters only when the instruction has a debug location;
otherwise they keep what the caller had in them. -/
def getDebugLoc (I : Instr) (v : LocVars) : LocVars :=
  match I.dbg with
  | none => v
  | some d =>
    if d.loc.filename = [] then
      match d.inlinedAt with
      | some o => ⟨o.filename, o.line⟩
      | none => ⟨d.loc.filename, d.loc.line⟩
    else ⟨d.loc.filename, d.loc.line⟩

/-- The output parameter `Column` of `getDebugLoc`: like `Filename` and `Line`
it is assigned only when the instruction has a debug location. -/
def getDebugLocColumn (I : Instr) (column : Nat) : Nat :=
  match I.dbg with
  | none => column
  | some d =>
    if d.loc.filename = [] then
      match d.inlinedAt with
      | some o => o.column
      | none => d.loc.column
    else d.loc.column

/-! ## Emitting one logging call -/

/-- The counter after one logging call: `inst_id = (inst_id + 1) % INST_SIZE`,
computed in 32-bit unsigned arithmetic.  `INST_SIZE` comes from `config.h`,
which is not part of the sources at hand: it is the parameter `S` of the
embedding. -/
def nextId (S : Nat) (id : Nat) : Nat := (id + 1) % 2 ^ 32 % S

/-- The method `getScalarSizeInBits` on the types that reach
`CreateZExtOrTrunc`. -/
def Ty.scalarBits : Ty → Nat
  | .integer b => b
  | .vector b => b
  | .floatingPoint b => b
  | _ => 0

/-- The cast the builder inserts to bring a value of type `t` to 64 bits:
`CreatePtrToInt` for a pointer, `CreateFPExt` to `double` for a floating-point
value, `CreateZExtOrTrunc` to `i64` otherwise.  The builder inserts nothing
when the value already has the destination type. -/
def coercion (t : Ty) : List CastOp :=
  match t with
  | .pointer => [.ptrToInt]
  | .floatingPoint b => if b = 64 then [] else [.fpExt]
  | t => if t.scalarBits < 64 then [.zext] else if 64 < t.scalarBits then [.trunc] else []

/-- The instructions that logging `v` under the identifier `id` inserts: the
cast, when the builder needs one, and the call `trace_value(v_value, id)`. -/
def loggingCall (v : Value) (id : Nat) : List Item :=
  (coercion v.ty).map (fun op => Item.cast op v) ++ [Item.trace v id]

/-- The block of code every handler runs for a value `v` it has decided to
log (lines 252-267, 303-317, 356-372, 395-411, 441-456): `none` is the
`return` taken for a metadata-typed value; otherwise the cast and the call
`trace_value(v_value, inst_id)` are inserted at the builder's position, the
identifier is written to the trace-id log and the counter advances. -/
def traceValue (S : Nat) (t : Tracer) (v : Value) : Option (Tracer × List Item) :=
  if v.ty = .metadata then none
  else some (⟨nextId S t.inst_id, t.log ++ [.id t.inst_id]⟩, loggingCall v t.inst_id)

/-! ## The handlers -/

/-- The loop of `handleCallInstruction`: `n` formal parameters are left,
`call_id` is the index of the current one.  The result is the state and the
instructions inserted before the call. -/
def callArgsLoop (S : Nat) (inst : Instr) : Nat → Nat → Tracer → Except Err (Tracer × List Item)
  | 0, _, t => .ok (t, [])
  | n + 1, call_id, t =>
    match inst.operands[call_id]? with
    | none => .error .operandRange
    | some curr_operand =>
      if curr_operand.kind ≠ .instruction ∧
          (curr_operand.ty = .label ∨ curr_operand.kind = .function) then
        callArgsLoop S inst n (call_id + 1) t
      else if curr_operand.isConstant then
        callArgsLoop S inst n (call_id + 1) t
      else
        match traceValue S t curr_operand with
        | none => .ok (t, [])
        | some (t1, items) =>
          match callArgsLoop S inst n (call_id + 1) t1 with
          | .error e => .error e
          | .ok (t2, more) => .ok (t2, items ++ more)

/-- The method `Tracer::handleCallInstruction`, for a call whose callee is
`fn`. -/
def handleCallInstruction (S : Nat) (t : Tracer) (inst : Instr) (fn : Callee) :
    Except Err (Tracer × List Item) :=
  callArgsLoop S inst fn.numParams 0 t

/-- The loop of `handleNonPhiNonCallInstruction` over the operands still to
visit, last operand first. -/
def operandsLoop (S : Nat) : List Value → Tracer → Tracer × List Item
  | [], t => (t, [])
  | curr_operand :: rest, t =>
    if curr_operand.kind ≠ .instruction ∧ ¬ curr_operand.ty.isVectorTy ∧
        (curr_operand.ty = .label ∨ curr_operand.kind = .function) then
      operandsLoop S rest t
    else if curr_operand.isConstant then
      operandsLoop S rest t
    else
      match traceValue S t curr_operand with
      | none => (t, [])
      | some (t1, items) =>
        ((operandsLoop S rest t1).1, items ++ (operandsLoop S rest t1).2)

/-- The method `Tracer::handleNonPhiNonCallInstruction`: the operands are
visited from the last to the first. -/
def handleNonPhiNonCallInstruction (S : Nat) (t : Tracer) (inst : Instr) :
    Tracer × List Item :=
  operandsLoop S inst.operands.reverse t

/-- What a part of `handlePhiNodes` leaves behind: the state, the inserted
instructions and whether the method has executed `return`. -/
structure PhiOut where
  tracer : Tracer
  items : List Item
  returned : Bool
  deriving DecidableEq, Repr

/-- The operand loop of `handlePhiNodes` over the operands still to visit. -/
def phiOperandsLoop (S : Nat) : List Value → Tracer → PhiOut
  | [], t => ⟨t, [], false⟩
  | curr_operand :: rest, t =>
    if curr_operand.kind = .instruction then phiOperandsLoop S rest t
    else if curr_operand.isConstant then phiOperandsLoop S rest t
    else
      match traceValue S t curr_operand with
      | none => ⟨t, [], true⟩
      | some (t1, items) =>
        ⟨(phiOperandsLoop S rest t1).tracer, items ++ (phiOperandsLoop S rest t1).items,
          (phiOperandsLoop S rest t1).returned⟩

/-- The part "Print result line" of `handlePhiNodes` for one phi node. -/
def phiResult (S : Nat) (t : Tracer) (currInst : Instr) : Except Err PhiOut :=
  if currInst.ty ≠ .void then
    if currInst.isTerminator then .error .assertion
    else if currInst.asValue.isConstant then .ok ⟨t, [], false⟩
    else
      match traceValue S t currInst.asValue with
      | none => .ok ⟨t, [], true⟩
      | some (t1, items) => .ok ⟨t1, items, false⟩
  else .ok ⟨t, [], false⟩

/-- The outer loop of `handlePhiNodes` over the leading phi nodes still to
visit. -/
def phiLoop (S : Nat) : List Instr → Tracer → Except Err (Tracer × List Item)
  | [], t => .ok (t, [])
  | currInst :: rest, t =>
    if currInst.opcode = .zext then phiLoop S rest t
    else
      let ops := phiOperandsLoop S currInst.operands.reverse t
      if ops.returned then .ok (ops.tracer, ops.items)
      else
        match phiResult S ops.tracer currInst with
        | .error e => .error e
        | .ok res =>
          if res.returned then .ok (res.tracer, ops.items ++ res.items)
          else
            match phiLoop S rest res.tracer with
            | .error e => .error e
            | .ok (t2, more) => .ok (t2, ops.items ++ res.items ++ more)

/-- The test `isa<PHINode>`. -/
def isPhi (i : Instr) : Bool := i.opcode = .phi

/-- The test `isEHPad()`. -/
def isEHPad (i : Instr) : Bool := i.opcode = .ehPad

/-- The leading phi nodes of a block. -/
def leadingPhis (BB : BasicBlock) : List Instr := BB.takeWhile isPhi

/-- The instructions from `BB.getFirstInsertionPt()` on.  LLVM takes the first
instruction that is not a phi node (`getFirstNonPHI`), steps over it when it is
an exception-handling pad (`if (InsertPt->isEHPad()) ++InsertPt;`) and returns
that position; it returns `end()` when the block holds phi nodes only. -/
def fromInsertionPt (BB : BasicBlock) : List Instr :=
  match BB.dropWhile isPhi with
  | [] => []
  | firstNonPHI :: rest => if isEHPad firstNonPHI then rest else firstNonPHI :: rest

/-- The instructions ahead of `BB.getFirstInsertionPt()`: the leading phi nodes
and, when the first instruction after them is an exception-handling pad, that
pad. -/
def beforeInsertionPt (BB : BasicBlock) : List Instr :=
  leadingPhis BB ++
    match BB.dropWhile isPhi with
    | [] => []
    | firstNonPHI :: _ => if isEHPad firstNonPHI then [firstNonPHI] else []

/-- The method `Tracer::handlePhiNodes`.  Everything is inserted before the
instruction at the first insertion point, which must exist. -/
def handlePhiNodes (S : Nat) (t : Tracer) (BB : BasicBlock) : Except Err (Tracer × List Item) :=
  match fromInsertionPt BB with
  | [] => .error .pastEnd
  | _ :: _ => phiLoop S (leadingPhis BB) t

/-- The method `Tracer::handleInstructionResult`: the instructions inserted
before `next_inst`, that is, between `inst` and `next_inst`. -/
def handleInstructionResult (S : Nat) (t : Tracer) (inst next_inst : Instr) :
    Except Err (Tracer × List Item) :=
  if inst.isTerminator then .error .assertion
  else if inst.asValue.isConstant then .ok (t, [])
  else if next_inst.operands.any (fun next_operand => next_operand.ptr = inst.ptr) then .ok (t, [])
  else
    match traceValue S t inst.asValue with
    | none => .ok (t, [])
    | some (t1, items) => .ok (t1, items)

/-! ## `runOnBasicBlock` -/

/-- What one turn of the loop of `runOnBasicBlock` inserts: `before` the
visited instruction and `after` it (before the next one). -/
structure Visit where
  tracer : Tracer
  before : List Item
  after : List Item
  deriving DecidableEq, Repr

/-- The result step of the loop of `runOnBasicBlock` (lines 210-213);
`next` is `none` when `nextitr` is `BB.end()`. -/
def resultStep (S : Nat) (t : Tracer) (currInst : Instr) (next : Option Instr) :
    Except Err (Tracer × List Item) :=
  if currInst.ty ≠ .void then
    match next with
    | none => .error .pastEnd
    | some nextInst => handleInstructionResult S t currInst nextInst
  else .ok (t, [])

/-- The body of the loop of `runOnBasicBlock` for the instruction `currInst`,
after `getDebugLoc` has been called (`v` holds `filename` and `line`). -/
def visitInstruction (S : Nat) (v : LocVars) (t : Tracer) (currInst : Instr)
    (next : Option Instr) : Except Err Visit :=
  if currInst.opcode = .invoke then .ok ⟨t, [], []⟩
  else
    let t0 : Tracer := ⟨t.inst_id, t.log ++ [.loc v.filename v.line]⟩
    if currInst.opcode = .zext then .ok ⟨t0, [], []⟩
    else if currInst.opcode = .call then
      match currInst.callee with
      | none => .ok ⟨t0, [], []⟩
      | some called_func =>
        if called_func.isIntrinsic then .ok ⟨t0, [], []⟩
        else
          match handleCallInstruction S t0 currInst called_func with
          | .error e => .error e
          | .ok (t1, pre) =>
            match resultStep S t1 currInst next with
            | .error e => .error e
            | .ok (t2, post) => .ok ⟨t2, pre, post⟩
    else
      match resultStep S (handleNonPhiNonCallInstruction S t0 currInst).1 currInst next with
      | .error e => .error e
      | .ok (t2, post) => .ok ⟨t2, (handleNonPhiNonCallInstruction S t0 currInst).2, post⟩

/-- The loop of `runOnBasicBlock` from the first insertion point to the end of
the block; the result is the rest of the block as instrumented. -/
def blockLoop (S : Nat) : LocVars → Tracer → List Instr → Except Err (Tracer × List Item)
  | _, t, [] => .ok (t, [])
  | v, t, currInst :: rest =>
    match visitInstruction S (getDebugLoc currInst v) t currInst rest.head? with
    | .error e => .error e
    | .ok r =>
      match blockLoop S (getDebugLoc currInst v) r.tracer rest with
      | .error e => .error e
      | .ok (t2, more) => .ok (t2, r.before ++ Item.orig currInst :: r.after ++ more)

/-- What `runOnBasicBlock` leaves behind: the state, the block as instrumented
and the returned boolean. -/
structure BlockOut where
  tracer : Tracer
  items : List Item
  modified : Bool
  deriving DecidableEq, Repr

/-- The method `Tracer::runOnBasicBlock`.  The local `filename` starts empty;
the local `line` is not initialised, `uninit` is the value it happens to
hold. -/
def runOnBasicBlock (S uninit : Nat) (t : Tracer) (BB : BasicBlock) : Except Err BlockOut :=
  match BB with
  | [] => .error .pastEnd
  | first :: _ =>
    if isPhi first then
      let v := getDebugLoc first ⟨[], uninit⟩
      match handlePhiNodes S ⟨t.inst_id, t.log ++ [.loc v.filename v.line]⟩ BB with
      | .error e => .error e
      | .ok (t1, phiItems) =>
        match blockLoop S v t1 (fromInsertionPt BB) with
        | .error e => .error e
        | .ok (t2, body) => .ok ⟨t2, untouched (beforeInsertionPt BB) ++ phiItems ++ body, true⟩
    else
      match blockLoop S ⟨[], uninit⟩ t (fromInsertionPt BB) with
      | .error e => .error e
      | .ok (t2, body) => .ok ⟨t2, untouched (beforeInsertionPt BB) ++ body, true⟩

/-! ## `runOnFunction` -/

/-- The key `filename + ':' + std::to_string(line)` compared with the target
list. -/
def locKey (v : LocVars) : Str := v.filename ++ ':' :: to_string v.line

/-- The assignment `filename = filename.substr(found + 1)` guarded by
`found != npos`. -/
def stripDir (v : LocVars) : LocVars :=
  match find_last_of_sep v.filename with
  | some found => ⟨v.filename.drop (found + 1), v.line⟩
  | none => v

/-- The inner loop of `runOnFunction` over the instructions of a block still
to scan: the locals as the loop leaves them and, when the block is selected
(`trace_bb`), the key that was found in the target list. -/
def scanBlock (target : List Str) : LocVars → List Instr → LocVars × Option Str
  | v, [] => (v, none)
  | v, I :: rest =>
    if (getDebugLoc I v).filename = [] ∨ (getDebugLoc I v).line = 0 then
      scanBlock target (getDebugLoc I v) rest
    else if locKey (stripDir (getDebugLoc I v)) ∈ target then
      (stripDir (getDebugLoc I v), some (locKey (stripDir (getDebugLoc I v))))
    else scanBlock target (stripDir (getDebugLoc I v)) rest

/-- What `runOnFunction` leaves behind: the returned boolean, the blocks of the
function, the target list, the state of the pass and, for every block in
order, the key it was selected by (`none` for a block that was not
selected). -/
structure FunctionOut where
  func_modified : Bool
  blocks : List (List Item)
  target : List Str
  tracer : Tracer
  matched : List (Option Str)
  deriving DecidableEq, Repr

/-- The outer loop of `runOnFunction` over the blocks still to visit. -/
def functionLoop (S uninit : Nat) :
    LocVars → Tracer → List Str → Bool → List BasicBlock → Except Err FunctionOut
  | _, t, target, func_modified, [] => .ok ⟨func_modified, [], target, t, []⟩
  | v, t, target, func_modified, bb :: rest =>
    match (scanBlock target v bb).2 with
    | none =>
      match functionLoop S uninit (scanBlock target v bb).1 t target func_modified rest with
      | .error e => .error e
      | .ok r => .ok ⟨r.func_modified, untouched bb :: r.blocks, r.target, r.tracer,
          none :: r.matched⟩
    | some key =>
      match runOnBasicBlock S uninit t bb with
      | .error e => .error e
      | .ok b =>
        match functionLoop S uninit (scanBlock target v bb).1 b.tracer (target.erase key)
            b.modified rest with
        | .error e => .error e
        | .ok r => .ok ⟨r.func_modified, b.items :: r.blocks, r.target, r.tracer,
            some key :: r.matched⟩

/-- The method `Tracer::runOnFunction`.  The local `filename` starts empty, the
local `line` is not initialised (`uninit`). -/
def runOnFunction (S uninit : Nat) (t : Tracer) (F : Function) (target : List Str) :
    Except Err FunctionOut :=
  functionLoop S uninit ⟨[], uninit⟩ t target false F

/-! ## The persisted counter -/

/-- The part of `Tracer::doInitialization` that sets `inst_id` (lines 90-101):
`file` is the content of the counter file, `none` when it cannot be opened. -/
def doInitialization (file : Option Str) : Nat :=
  match file with
  | none => 0
  | some content => (getlines content).foldl (fun _ inst_id_str => toUInt32 (atoi inst_id_str)) 0

/-- The method `Tracer::dofinish` on the counter file: the file is opened for
appending (and created when absent) and `inst_id << '\n'` is written. -/
def dofinish (inst_id : Nat) (file : Option Str) : Str :=
  file.getD [] ++ to_string inst_id ++ ['\n']

/-! ## Notions used in the statements -/

/-- What the LLVM verifier guarantees of an instruction, as far as the pass
relies on it: a terminator other than an invoke produces no value and is
neither a phi node nor an exception-handling pad (the one pad that is a
terminator, `catchswitch`, produces a token), and a call has at least as many
operands as its callee has formal parameters. -/
def Instr.WellFormed (i : Instr) : Prop :=
  (i.isTerminator = true →
    i.opcode = .invoke ∨ (i.ty = .void ∧ i.opcode ≠ .phi ∧ i.opcode ≠ .ehPad)) ∧
  (∀ f ∈ i.callee, i.opcode = .call → f.numParams ≤ i.operands.length)

instance (i : Instr) : Decidable i.WellFormed := by
  unfold Instr.WellFormed; infer_instance

/-- What the LLVM verifier guarantees of a block, as far as the pass relies on
it: the block ends with a terminator and its instructions are well formed. -/
def WellFormed (BB : BasicBlock) : Prop :=
  (∃ l ∈ BB.getLast?, l.isTerminator = true) ∧ ∀ i ∈ BB, i.WellFormed

instance (BB : BasicBlock) : Decidable (WellFormed BB) := by
  unfold WellFormed; infer_instance

/-- The keys the scan of a block compares with the target list, in scan order. -/
def scanKeys (target : List Str) : LocVars → List Instr → List Str
  | _, [] => []
  | v, I :: rest =>
    if (getDebugLoc I v).filename = [] ∨ (getDebugLoc I v).line = 0 then
      scanKeys target (getDebugLoc I v) rest
    else if locKey (stripDir (getDebugLoc I v)) ∈ target then
      [locKey (stripDir (getDebugLoc I v))]
    else locKey (stripDir (getDebugLoc I v)) :: scanKeys target (stripDir (getDebugLoc I v)) rest

/-- For every block of a function in order, the keys that its scan compares with
the target list. -/
def scanTrace : LocVars → List Str → List BasicBlock → List (List Str)
  | _, _, [] => []
  | v, target, bb :: rest =>
    scanKeys target v bb ::
      scanTrace (scanBlock target v bb).1
        (match (scanBlock target v bb).2 with
         | none => target
         | some key => target.erase key) rest

/-- The identifier carried by an inserted logging call. -/
def Item.traceId : Item → Option Nat
  | .trace _ id => some id
  | _ => none

/-- The identifiers of the logging calls of an instruction sequence, in program order. -/
def tracedIds (items : List Item) : List Nat := items.filterMap Item.traceId

/-- The identifier on a line of the trace-id log, when it is a bare identifier. -/
def LogLine.traceId : LogLine → Option Nat
  | .id n => some n
  | .loc _ _ => none

/-- The bare identifiers written to the trace-id log, in order. -/
def logIds (log : List LogLine) : List Nat := log.filterMap LogLine.traceId

/-- Started in state `t`, a part of the pass has inserted `items` and left the
state `t2`: the logging calls of `items` carry the identifiers `t.inst_id`,
`nextId t.inst_id`, ... in program order, the counter of `t2` is the one after
the last of them, and the identifiers written to the log are those of the
calls, in the same order. -/
def Consecutive (S : Nat) (t : Tracer) (items : List Item) (t2 : Tracer) : Prop :=
  tracedIds items = List.iterate (nextId S) t.inst_id (tracedIds items).length ∧
  t2.inst_id = (nextId S)^[(tracedIds items).length] t.inst_id ∧
  logIds t2.log = logIds t.log ++ tracedIds items

/-- The instruction reaches the handlers of the loop of `runOnBasicBlock`: it is
neither an invoke nor a zero extension, and if it is a call it is a direct call
of a function that is not an intrinsic. -/
def Dispatched (A : Instr) : Prop :=
  A.opcode ≠ .invoke ∧ A.opcode ≠ .zext ∧
    (A.opcode = .call → ∃ f, A.callee = some f ∧ f.isIntrinsic = false)

instance (A : Instr) : Decidable (Dispatched A) := by
  unfold Dispatched
  cases h : A.callee with
  | none =>
    exact decidable_of_iff (A.opcode ≠ .invoke ∧ A.opcode ≠ .zext ∧ A.opcode ≠ .call) (by simp)
  | some f =>
    exact decidable_of_iff
      (A.opcode ≠ .invoke ∧ A.opcode ≠ .zext ∧ (A.opcode = .call → f.isIntrinsic = false))
      (by simp)

/-- The value reaches a phi node from outside the instructions of the function
and is logged by `handlePhiNodes`: it is not an instruction, not a constant and
not metadata-typed. -/
def PhiLogged (v : Value) : Prop :=
  v.kind ≠ .instruction ∧ v.isConstant = false ∧ v.ty ≠ .metadata

instance (v : Value) : Decidable (PhiLogged v) := by
  unfold PhiLogged; infer_instance

/-- The values that the inserted instructions of a sequence work on: the
operand of every inserted cast and the logged value of every inserted call. -/
def insertedValues (items : List Item) : List Value :=
  items.filterMap (fun i => match i with
    | .orig _ => none
    | .cast _ v => some v
    | .trace v _ => some v)

/-- The values logged by the calls `trace_value` of a sequence, in program
order. -/
def tracedValues (items : List Item) : List Value :=
  items.filterMap (fun i => match i with
    | .trace v _ => some v
    | _ => none)

/-- The original instructions of a sequence, in program order: what is left
when the inserted casts and calls are deleted. -/
def originals (items : List Item) : List Instr :=
  items.filterMap (fun i => match i with
    | .orig x => some x
    | _ => none)

/-- The instruction is one that the loop of `runOnBasicBlock` skips: an invoke,
a zero extension, an indirect call or a call of an intrinsic. -/
def Skipped (I : Instr) : Prop :=
  I.opcode = .invoke ∨ I.opcode = .zext ∨
    (I.opcode = .call ∧ (I.callee = none ∨ ∃ f, I.callee = some f ∧ f.isIntrinsic = true))

/-- The location on a line of the trace-id log, when it is a `filename:line`
line. -/
def LogLine.locOf : LogLine → Option (Str × Nat)
  | .loc f l => some (f, l)
  | .id _ => none

/-- The `filename:line` lines of the trace-id log, in order. -/
def logLocs (log : List LogLine) : List (Str × Nat) := log.filterMap LogLine.locOf

/-- The `filename:line` lines that the loop of `runOnBasicBlock` is to write for
the instructions still to visit: one for every instruction other than an
invoke, with the location `getDebugLoc` leaves in `filename` and `line`. -/
def loopLocs : LocVars → List Instr → List (Str × Nat)
  | _, [] => []
  | v, currInst :: rest =>
    if currInst.opcode = .invoke then loopLocs (getDebugLoc currInst v) rest
    else ((getDebugLoc currInst v).filename, (getDebugLoc currInst v).line) ::
      loopLocs (getDebugLoc currInst v) rest

/-- The `filename:line` lines that `runOnBasicBlock` is to write for a block:
one for its first instruction when that is a phi node, then those of the
loop. -/
def blockLocs (uninit : Nat) (BB : BasicBlock) : List (Str × Nat) :=
  match BB with
  | [] => []
  | first :: _ =>
    if isPhi first then
      ((getDebugLoc first ⟨[], uninit⟩).filename, (getDebugLoc first ⟨[], uninit⟩).line) ::
        loopLocs (getDebugLoc first ⟨[], uninit⟩) (fromInsertionPt BB)
    else loopLocs ⟨[], uninit⟩ (fromInsertionPt BB)

/-- The `filename:line` lines that `runOnFunction` is to write: those of the
selected blocks, in traversal order (`matched` tells which blocks are
selected). -/
def selectedLocs (uninit : Nat) : List BasicBlock → List (Option Str) → List (Str × Nat)
  | bb :: rest, some _ :: m => blockLocs uninit bb ++ selectedLocs uninit rest m
  | _ :: rest, none :: m => selectedLocs uninit rest m
  | _, _ => []

/-- Started in state `t`, a part of the pass has inserted `items` and left the
state `t2`: the log of `t2` is the log of `t` with new lines at its end, the
`filename:line` lines among them are `locs` and the bare identifiers among
them are those of the logging calls of `items`, in program order. -/
def Logged (locs : List (Str × Nat)) (t : Tracer) (items : List Item) (t2 : Tracer) : Prop :=
  ∃ added, t2.log = t.log ++ added ∧ logLocs added = locs ∧ logIds added = tracedIds items

/-- The item is an original instruction, a logging call on a value that
satisfies `P`, or the cast of such a value that `coercion` prescribes for its
type. -/
def Item.InsertedOn (P : Value → Prop) : Item → Prop
  | .orig _ => True
  | .trace v _ => P v
  | .cast op v => P v ∧ coercion v.ty = [op]

/-- The sequence `items` consists of the original instructions `origs`, in
order, and of inserted casts and logging calls on values that satisfy `P`. -/
def Built (P : Value → Prop) (origs : List Instr) (items : List Item) : Prop :=
  originals items = origs ∧ ∀ it ∈ items, it.InsertedOn P

/-- For every instruction of a block in order, the key
`filename + ':' + std::to_string(line)` under which the scan of `runOnFunction`
compares it with the target list, `none` where the guard
`filename.empty() || line == 0` makes the scan pass over the instruction; `v`
holds the locals `filename` and `line` when the scan of the block starts. -/
def instrKeys : LocVars → List Instr → List (Option Str)
  | _, [] => []
  | v, I :: rest =>
    if (getDebugLoc I v).filename = [] ∨ (getDebugLoc I v).line = 0 then
      none :: instrKeys (getDebugLoc I v) rest
    else some (locKey (stripDir (getDebugLoc I v))) :: instrKeys (stripDir (getDebugLoc I v)) rest

/-- For every block of a function in order, the locals `filename` and `line`
and the target list as they are when the scan of that block starts. -/
def scanStates : LocVars → List Str → List BasicBlock → List (LocVars × List Str)
  | _, _, [] => []
  | v, target, bb :: rest =>
    (v, target) ::
      scanStates (scanBlock target v bb).1
        (match (scanBlock target v bb).2 with
         | none => target
         | some key => target.erase key) rest

/-- What one turn of the loop of `runOnBasicBlock` has inserted for the
instruction `I`, before it and after it: casts and logging calls only, those
before `I` on operands of `I` and those after `I` on the result of `I`. -/
def VisitOf (I : Instr) (p : List Item × List Item) : Prop :=
  Built (fun x => x ∈ I.operands) [] p.1 ∧ Built (fun x => x = I.asValue) [] p.2

/-- The instructions `L` with, around each of them, what the loop has inserted
before and after it. -/
def assemble : List Instr → List (List Item × List Item) → List Item
  | currInst :: rest, p :: ps => p.1 ++ Item.orig currInst :: p.2 ++ assemble rest ps
  | _, _ => []

/-- The lines that the loop of `runOnBasicBlock` writes to the trace-id log for
the instructions `L`, given what it inserts around each of them: for every
instruction the `filename:line` line (none for an invoke) and then the
identifiers of the logging calls inserted before and after it. -/
def loopLines : LocVars → List Instr → List (List Item × List Item) → List LogLine
  | v, currInst :: rest, p :: ps =>
    (if currInst.opcode = .invoke then []
      else [LogLine.loc (getDebugLoc currInst v).filename (getDebugLoc currInst v).line]) ++
      (tracedIds (p.1 ++ p.2)).map LogLine.id ++ loopLines (getDebugLoc currInst v) rest ps
  | _, _, _ => []

/-- The block that `runOnBasicBlock` leaves, given what phi handling and the
turns of the loop insert: the instructions ahead of the first insertion point,
the insertions of phi handling, the rest of the block with the insertions of
the loop. -/
def blockItems (BB : BasicBlock) (d : List Item × List (List Item × List Item)) : List Item :=
  untouched (beforeInsertionPt BB) ++ d.1 ++ assemble (fromInsertionPt BB) d.2

/-- The lines that `runOnBasicBlock` writes to the trace-id log, given what phi
handling and the turns of the loop insert: when the first instruction is a phi
node its `filename:line` line and then the identifiers of the logging calls of
phi handling; then the lines of the loop. -/
def blockLines (uninit : Nat) (BB : BasicBlock) (d : List Item × List (List Item × List Item)) :
    List LogLine :=
  match BB with
  | [] => []
  | first :: _ =>
    if isPhi first then
      LogLine.loc (getDebugLoc first ⟨[], uninit⟩).filename (getDebugLoc first ⟨[], uninit⟩).line ::
        (tracedIds d.1).map LogLine.id ++
        loopLines (getDebugLoc first ⟨[], uninit⟩) (fromInsertionPt BB) d.2
    else loopLines ⟨[], uninit⟩ (fromInsertionPt BB) d.2

/-- The insertions `d` are such as `runOnBasicBlock` makes in the block `BB`:
phi handling inserts casts and logging calls on operands and results of the
leading phi nodes, and nothing when the block does not begin with a phi node;
the loop makes one turn for every instruction from the first insertion point
on. -/
def BlockData (BB : BasicBlock) (d : List Item × List (List Item × List Item)) : Prop :=
  Built (fun x => ∃ i ∈ leadingPhis BB, x ∈ i.operands ∨ x = i.asValue) [] d.1 ∧
  ((∀ first ∈ BB.head?, isPhi first = false) → d.1 = []) ∧
  List.Forall₂ VisitOf (fromInsertionPt BB) d.2

/-- The insertions `ds`, one entry for every selected block in order, are such
as `runOnBasicBlock` makes in these blocks. -/
def SelectedData : List BasicBlock → List (Option Str) →
    List (List Item × List (List Item × List Item)) → Prop
  | bb :: rest, some _ :: m, d :: ds => BlockData bb d ∧ SelectedData rest m ds
  | _ :: rest, none :: m, ds => SelectedData rest m ds
  | [], [], [] => True
  | _, _, _ => False

/-- The blocks that `runOnFunction` leaves, given the insertions in the
selected blocks. -/
def functionItems : List BasicBlock → List (Option Str) →
    List (List Item × List (List Item × List Item)) → List (List Item)
  | bb :: rest, some _ :: m, d :: ds => blockItems bb d :: functionItems rest m ds
  | bb :: rest, none :: m, ds => untouched bb :: functionItems rest m ds
  | _, _, _ => []

/-- The lines that `runOnFunction` writes to the trace-id log, given the
insertions in the selected blocks: the lines of the selected blocks, in
traversal order. -/
def functionLines (uninit : Nat) : List BasicBlock → List (Option Str) →
    List (List Item × List (List Item × List Item)) → List LogLine
  | bb :: rest, some _ :: m, d :: ds => blockLines uninit bb d ++ functionLines uninit rest m ds
  | _ :: rest, none :: m, ds => functionLines uninit rest m ds
  | _, _, _ => []

/-! ## Concrete inputs -/

/-- The target entry `foo.c:10`. -/
def exKey : Str := "foo.c:10".toList

/-- The debug location `src/foo.c:10:3`, not inlined. -/
def exLoc : DebugLoc := ⟨⟨10, 3, "src/foo.c".toList⟩, none⟩

/-- The function argument `i32 %a`. -/
def exArgA : Value := ⟨100, .argument, .integer 32⟩

/-- The function argument `i32 %b`. -/
def exArgB : Value := ⟨101, .argument, .integer 32⟩

/-- The block label `%next`. -/
def exLabel : Value := ⟨200, .basicBlock, .label⟩

/-- The instruction `br label %next`, located at `src/foo.c:10`. -/
def exBr : Instr := ⟨1, .other, .void, [exLabel], true, none, some exLoc⟩

/-- The instruction `%s = add i32 %a, %b`, without debug metadata. -/
def exAdd : Instr := ⟨2, .other, .integer 32, [exArgA, exArgB], false, none, none⟩

/-- The instruction `ret void`, without debug metadata. -/
def exRet : Instr := ⟨3, .other, .void, [], true, none, none⟩

/-- The instruction `ret void`, located at `src/foo.c:10`. -/
def exRetAt : Instr := ⟨4, .other, .void, [], true, none, some exLoc⟩

/-- The instruction `%p = phi i32 [ %a, ... ], [ %b, ... ]`. -/
def exPhi : Instr := ⟨5, .phi, .integer 32, [exArgA, exArgB], false, none, none⟩

/-- The instruction `%s = add i32 %a, %b`, located at `src/foo.c:10`. -/
def exAddAt : Instr := ⟨6, .other, .integer 32, [exArgA, exArgB], false, none, some exLoc⟩

/-- A counter file whose only line is `70000`. -/
def exCounterFile : Str := "70000\n".toList

/-- A counter file holding `12` with no newline after it. -/
def exOpenFile : Str := "12".toList

/-- The instruction `%z = zext i32 %s to i64`, whose operand is the result of
`exAdd`. -/
def exZExt : Instr := ⟨8, .zext, .integer 64, [exAdd.asValue], false, none, none⟩

/-- The instruction `%q = phi i32 [ %a, ... ], [ %b, ... ]`, located at
`src/foo.c:10`. -/
def exPhiAt : Instr := ⟨13, .phi, .integer 32, [exArgA, exArgB], false, none, some exLoc⟩

/-- The instruction `invoke void @g() to label %next unwind label %lpad`,
located at `src/foo.c:10`. -/
def exInvoke : Instr :=
  ⟨14, .invoke, .void, [exLabel, ⟨201, .basicBlock, .label⟩, ⟨402, .function, .pointer⟩], true,
    some ⟨false, 0⟩, some exLoc⟩

/-- The instruction `%lp = landingpad { i8*, i32 } cleanup`, an
exception-handling pad. -/
def exLandingPad : Instr := ⟨15, .ehPad, .other, [], false, none, none⟩

/-- The function argument `i32* %q`. -/
def exPtrQ : Value := ⟨102, .argument, .pointer⟩

/-- The instruction `store i32 %a, i32* %q`, which does not use the result of
`exAdd`. -/
def exStoreA : Instr := ⟨16, .other, .void, [exArgA, exPtrQ], false, none, none⟩

/-! ## Lemmas -/

theorem scanBlock_mem (T : List Str) (bb : List Instr) :
    ∀ (v : LocVars) (k : Str), (scanBlock T v bb).2 = some k → k ∈ T := by
  induction bb with
  | nil => intro v k h; simp [scanBlock] at h
  | cons I rest ih =>
    intro v k h
    unfold scanBlock at h
    split_ifs at h with h1 h2
    · exact ih _ _ h
    · simp at h; rw [← h]; exact h2
    · exact ih _ _ h

theorem callArgsLoop_ok (S : Nat) (inst : Instr) :
    ∀ (n call_id : Nat) (t : Tracer), call_id + n ≤ inst.operands.length →
      ∃ r, callArgsLoop S inst n call_id t = .ok r := by
  intro n
  induction n with
  | zero => intro c t _; exact ⟨_, rfl⟩
  | succ n ih =>
    intro c t h
    have hc : c < inst.operands.length := by omega
    unfold callArgsLoop
    rw [List.getElem?_eq_getElem hc]
    simp only
    split_ifs with h1 h2
    · exact ih _ _ (by omega)
    · exact ih _ _ (by omega)
    · cases hv : traceValue S t inst.operands[c] with
      | none => exact ⟨_, rfl⟩
      | some p =>
        obtain ⟨t1, items⟩ := p
        obtain ⟨r, hr⟩ := ih (c + 1) t1 (by omega)
        simp only [hr]
        exact ⟨_, rfl⟩

theorem phiResult_ok (S : Nat) (t : Tracer) (i : Instr) (h : i.WellFormed)
    (hp : isPhi i = true) : ∃ r, phiResult S t i = .ok r := by
  unfold phiResult
  have hop : i.opcode = .phi := by simpa [isPhi] using hp
  have hterm : i.ty ≠ .void → i.isTerminator = false := by
    intro hv
    cases ht : i.isTerminator with
    | false => rfl
    | true =>
      rcases h.1 ht with h1 | h1
      · rw [hop] at h1; cases h1
      · exact absurd h1.1 hv
  split_ifs with h1 h2 h3
  · rw [hterm h1] at h2; cases h2
  · exact ⟨_, rfl⟩
  · cases traceValue S t i.asValue with
    | none => exact ⟨_, rfl⟩
    | some p => exact ⟨_, rfl⟩
  · exact ⟨_, rfl⟩

theorem phiLoop_ok (S : Nat) (L : List Instr) :
    ∀ t : Tracer, (∀ i ∈ L, i.WellFormed ∧ isPhi i = true) →
      ∃ r, phiLoop S L t = .ok r := by
  induction L with
  | nil => intro t _; exact ⟨_, rfl⟩
  | cons i rest ih =>
    intro t h
    have hi := h i (List.mem_cons_self _ _)
    have hrest : ∀ j ∈ rest, j.WellFormed ∧ isPhi j = true :=
      fun j hj => h j (List.mem_cons_of_mem _ hj)
    unfold phiLoop
    split_ifs with h1
    · exact ih _ hrest
    · simp only
      split_ifs with h2
      · exact ⟨_, rfl⟩
      · obtain ⟨res, hres⟩ := phiResult_ok S (phiOperandsLoop S i.operands.reverse t).tracer i hi.1 hi.2
        simp only [hres]
        split_ifs with h3
        · exact ⟨_, rfl⟩
        · obtain ⟨r, hr⟩ := ih res.tracer hrest
          simp only [hr]
          exact ⟨_, rfl⟩

theorem resultStep_ok (S : Nat) (t : Tracer) (i : Instr) (next : Option Instr)
    (h : i.ty ≠ .void → i.isTerminator = false ∧ next.isSome = true) :
    ∃ r, resultStep S t i next = .ok r := by
  unfold resultStep
  split_ifs with h1
  · obtain ⟨ht, hn⟩ := h h1
    cases next with
    | none => simp at hn
    | some n =>
      simp only [handleInstructionResult, ht]
      simp only [Bool.false_eq_true, if_false]
      split_ifs
      · exact ⟨_, rfl⟩
      · exact ⟨_, rfl⟩
      · cases traceValue S t i.asValue with
        | none => exact ⟨_, rfl⟩
        | some p => exact ⟨_, rfl⟩
  · exact ⟨_, rfl⟩

theorem visitInstruction_ok (S : Nat) (v : LocVars) (t : Tracer) (i : Instr) (next : Option Instr)
    (hwf : i.WellFormed) (hnext : i.isTerminator = false → next.isSome = true) :
    ∃ r, visitInstruction S v t i next = .ok r := by
  have hres : i.opcode ≠ .invoke → i.ty ≠ .void → i.isTerminator = false ∧ next.isSome = true := by
    intro hop hv
    have : i.isTerminator = false := by
      cases ht : i.isTerminator with
      | false => rfl
      | true =>
        rcases hwf.1 ht with h1 | h1
        · exact absurd h1 hop
        · exact absurd h1.1 hv
    exact ⟨this, hnext this⟩
  unfold visitInstruction
  split_ifs with h1 h2 h3
  · exact ⟨_, rfl⟩
  · exact ⟨_, rfl⟩
  · cases hc : i.callee with
    | none => exact ⟨_, rfl⟩
    | some f =>
      simp only
      split_ifs with h4
      · exact ⟨_, rfl⟩
      · have hlen : f.numParams ≤ i.operands.length := hwf.2 f hc h3
        obtain ⟨r1, hr1⟩ := callArgsLoop_ok S i f.numParams 0
          ⟨t.inst_id, t.log ++ [.loc v.filename v.line]⟩ (by omega)
        simp only [handleCallInstruction, hr1]
        obtain ⟨r2, hr2⟩ := resultStep_ok S r1.1 i next (hres h1)
        simp only [hr2]
        exact ⟨_, rfl⟩
  · simp only
    obtain ⟨r2, hr2⟩ := resultStep_ok S
      (handleNonPhiNonCallInstruction S ⟨t.inst_id, t.log ++ [.loc v.filename v.line]⟩ i).1 i next (hres h1)
    simp only [hr2]
    exact ⟨_, rfl⟩

theorem blockLoop_ok (S : Nat) (L : List Instr) :
    ∀ (v : LocVars) (t : Tracer), (∀ i ∈ L, i.WellFormed) →
      (∀ l, L.getLast? = some l → l.isTerminator = true) →
      ∃ r, blockLoop S v t L = .ok r := by
  induction L with
  | nil => intro v t _ _; exact ⟨_, rfl⟩
  | cons i rest ih =>
    intro v t hwf hlast
    have hnext : i.isTerminator = false → rest.head?.isSome = true := by
      intro ht
      cases rest with
      | nil =>
        have := hlast i (by simp)
        rw [ht] at this; cases this
      | cons j r => simp
    obtain ⟨r, hr⟩ := visitInstruction_ok S (getDebugLoc i v) t i rest.head?
      (hwf i (List.mem_cons_self _ _)) hnext
    have hlast2 : ∀ l, rest.getLast? = some l → l.isTerminator = true := by
      intro l hl
      apply hlast l
      cases rest with
      | nil => simp at hl
      | cons j r => simpa [List.getLast?_cons_cons] using hl
    obtain ⟨r2, hr2⟩ := ih (getDebugLoc i v) r.tracer
      (fun j hj => hwf j (List.mem_cons_of_mem _ hj)) hlast2
    unfold blockLoop
    simp only [hr, hr2]
    exact ⟨_, rfl⟩

theorem beforeInsertionPt_append (BB : BasicBlock) :
    beforeInsertionPt BB ++ fromInsertionPt BB = BB := by
  have h := List.takeWhile_append_dropWhile isPhi BB
  unfold beforeInsertionPt fromInsertionPt leadingPhis
  cases hd : BB.dropWhile isPhi with
  | nil => rw [hd] at h; simpa using h
  | cons a rest =>
    rw [hd] at h
    by_cases ha : isEHPad a = true
    · simp only [ha, if_true]
      rw [List.append_assoc]
      exact h
    · simp only [ha]
      simpa using h

theorem mem_fromInsertionPt {BB : BasicBlock} {i : Instr} (h : i ∈ fromInsertionPt BB) :
    i ∈ BB := by
  rw [← beforeInsertionPt_append BB]
  exact List.mem_append_right _ h

theorem mem_leadingPhis {BB : BasicBlock} {i : Instr} (h : i ∈ leadingPhis BB) :
    i ∈ BB ∧ isPhi i = true :=
  ⟨(List.takeWhile_sublist isPhi).subset h, List.mem_takeWhile_imp h⟩

theorem mem_beforeInsertionPt {BB : BasicBlock} {i : Instr} (h : i ∈ beforeInsertionPt BB) :
    isPhi i = true ∨ isEHPad i = true := by
  unfold beforeInsertionPt at h
  rcases List.mem_append.mp h with h1 | h1
  · exact Or.inl (mem_leadingPhis h1).2
  · split at h1
    · cases h1
    · rename_i a rest _
      split_ifs at h1 with ha
      · simp only [List.mem_singleton] at h1
        rw [h1]
        exact Or.inr ha
      · cases h1

theorem getLast?_fromInsertionPt (BB : BasicBlock) (l : Instr)
    (h : (fromInsertionPt BB).getLast? = some l) : BB.getLast? = some l := by
  have hne : fromInsertionPt BB ≠ [] := by
    intro h0; rw [h0] at h; simp at h
  have h1 := beforeInsertionPt_append BB
  rw [← h1, List.getLast?_append_of_ne_nil _ hne]
  exact h

theorem fromInsertionPt_ne_nil_of {BB : BasicBlock} {l : Instr} (hl : BB.getLast? = some l)
    (hp : isPhi l = false) (he : isEHPad l = false) : fromInsertionPt BB ≠ [] := by
  intro h0
  have hmem : l ∈ BB := List.mem_of_getLast?_eq_some hl
  have h1 := beforeInsertionPt_append BB
  rw [h0, List.append_nil] at h1
  rw [← h1] at hmem
  rcases mem_beforeInsertionPt hmem with h2 | h2
  · rw [hp] at h2; cases h2
  · rw [he] at h2; cases h2

theorem fromInsertionPt_ne_nil {BB : BasicBlock} (h : WellFormed BB) : fromInsertionPt BB ≠ [] := by
  obtain ⟨⟨l, hl, ht⟩, hall⟩ := h
  have hl1 : BB.getLast? = some l := hl
  have hmem : l ∈ BB := List.mem_of_getLast?_eq_some hl1
  rcases (hall l hmem).1 ht with h1 | h1
  · exact fromInsertionPt_ne_nil_of hl1 (by simp [isPhi, h1]) (by simp [isEHPad, h1])
  · exact fromInsertionPt_ne_nil_of hl1 (by simp [isPhi, h1.2.1]) (by simp [isEHPad, h1.2.2])

theorem runOnBasicBlock_ok (S uninit : Nat) (t : Tracer) (BB : BasicBlock) (h : WellFormed BB) :
    ∃ r, runOnBasicBlock S uninit t BB = .ok r := by
  have hne := fromInsertionPt_ne_nil h
  have hbody : ∀ v t1, ∃ r, blockLoop S v t1 (fromInsertionPt BB) = .ok r := by
    intro v t1
    apply blockLoop_ok
    · intro i hi; exact h.2 i (mem_fromInsertionPt hi)
    · intro l hl
      obtain ⟨l', hl', ht⟩ := h.1
      have := getLast?_fromInsertionPt BB l hl
      rw [this] at hl'
      cases hl'
      exact ht
  cases hBB : BB with
  | nil => rw [hBB] at hne; simp [fromInsertionPt] at hne
  | cons first rest =>
    rw [← hBB]
    unfold runOnBasicBlock
    rw [hBB]
    simp only
    rw [← hBB]
    split_ifs with h1
    · have hphis : ∃ r, handlePhiNodes S
          ⟨t.inst_id, t.log ++ [.loc (getDebugLoc first ⟨[], uninit⟩).filename
            (getDebugLoc first ⟨[], uninit⟩).line]⟩ BB = .ok r := by
        unfold handlePhiNodes
        cases hf : fromInsertionPt BB with
        | nil => exact absurd hf hne
        | cons a b =>
          simp only
          apply phiLoop_ok
          intro i hi
          exact ⟨h.2 i (mem_leadingPhis hi).1, (mem_leadingPhis hi).2⟩
      obtain ⟨r1, hr1⟩ := hphis
      simp only [hr1]
      obtain ⟨r2, hr2⟩ := hbody (getDebugLoc first ⟨[], uninit⟩) r1.1
      simp only [hr2]
      exact ⟨_, rfl⟩
    · obtain ⟨r2, hr2⟩ := hbody ⟨[], uninit⟩ t
      simp only [hr2]
      exact ⟨_, rfl⟩

theorem runOnBasicBlock_modified (S uninit : Nat) (t : Tracer) (BB : BasicBlock) (r : BlockOut)
    (h : runOnBasicBlock S uninit t BB = .ok r) : r.modified = true := by
  unfold runOnBasicBlock at h
  cases BB with
  | nil => simp at h
  | cons first rest =>
    simp only at h
    split_ifs at h with h1
    · split at h
      · cases h
      · split at h
        · cases h
        · cases h; rfl
    · split at h
      · cases h
      · cases h; rfl

theorem functionLoop_ok (S uninit : Nat) (F : List BasicBlock) :
    ∀ (v : LocVars) (t : Tracer) (T : List Str) (fm : Bool), (∀ bb ∈ F, WellFormed bb) →
      ∃ r, functionLoop S uninit v t T fm F = .ok r := by
  induction F with
  | nil => intro v t T fm _; exact ⟨_, rfl⟩
  | cons bb rest ih =>
    intro v t T fm h
    have hrest : ∀ b ∈ rest, WellFormed b := fun b hb => h b (List.mem_cons_of_mem _ hb)
    unfold functionLoop
    cases hs : (scanBlock T v bb).2 with
    | none =>
      obtain ⟨r, hr⟩ := ih (scanBlock T v bb).1 t T fm hrest
      simp only [hr]
      exact ⟨_, rfl⟩
    | some key =>
      obtain ⟨b, hb⟩ := runOnBasicBlock_ok S uninit t bb (h bb (List.mem_cons_self _ _))
      simp only [hb]
      obtain ⟨r, hr⟩ := ih (scanBlock T v bb).1 b.tracer (T.erase key) b.modified hrest
      simp only [hr]
      exact ⟨_, rfl⟩

theorem functionLoop_cons_inv {S uninit : Nat} {v : LocVars} {t : Tracer} {T : List Str}
    {fm : Bool} {bb : BasicBlock} {rest : List BasicBlock} {r : FunctionOut}
    (h : functionLoop S uninit v t T fm (bb :: rest) = .ok r) :
    ((scanBlock T v bb).2 = none ∧
      ∃ r1, functionLoop S uninit (scanBlock T v bb).1 t T fm rest = .ok r1 ∧
        r = ⟨r1.func_modified, untouched bb :: r1.blocks, r1.target, r1.tracer,
              none :: r1.matched⟩) ∨
    (∃ key b r1, (scanBlock T v bb).2 = some key ∧ runOnBasicBlock S uninit t bb = .ok b ∧
        functionLoop S uninit (scanBlock T v bb).1 b.tracer (T.erase key) b.modified rest = .ok r1 ∧
        r = ⟨r1.func_modified, b.items :: r1.blocks, r1.target, r1.tracer,
              some key :: r1.matched⟩) := by
  unfold functionLoop at h
  cases hs : (scanBlock T v bb).2 with
  | none =>
    left
    simp only [hs] at h
    cases hr : functionLoop S uninit (scanBlock T v bb).1 t T fm rest with
    | error e => simp only [hr] at h; cases h
    | ok r1 =>
      simp only [hr] at h
      cases h
      exact ⟨rfl, r1, rfl, rfl⟩
  | some key =>
    right
    simp only [hs] at h
    cases hb : runOnBasicBlock S uninit t bb with
    | error e => simp only [hb] at h; cases h
    | ok b =>
      simp only [hb] at h
      cases hr : functionLoop S uninit (scanBlock T v bb).1 b.tracer (T.erase key) b.modified rest with
      | error e => simp only [hr] at h; cases h
      | ok r1 =>
        simp only [hr] at h
        cases h
        exact ⟨key, b, r1, rfl, rfl, hr, rfl⟩

theorem functionLoop_length (S uninit : Nat) (F : List BasicBlock) :
    ∀ (v : LocVars) (t : Tracer) (T : List Str) (fm : Bool) (r : FunctionOut),
      functionLoop S uninit v t T fm F = .ok r →
      r.matched.length = F.length ∧ r.blocks.length = F.length := by
  induction F with
  | nil => intro v t T fm r h; cases h; exact ⟨rfl, rfl⟩
  | cons bb rest ih =>
    intro v t T fm r h
    rcases functionLoop_cons_inv h with ⟨_, r1, h1, rfl⟩ | ⟨key, b, r1, _, _, h1, rfl⟩
    · have := ih _ _ _ _ _ h1; simp [this.1, this.2]
    · have := ih _ _ _ _ _ h1; simp [this.1, this.2]

theorem functionLoop_target (S uninit : Nat) (F : List BasicBlock) :
    ∀ (v : LocVars) (t : Tracer) (T : List Str) (fm : Bool) (r : FunctionOut),
      functionLoop S uninit v t T fm F = .ok r →
      r.target = r.matched.reduceOption.foldl List.erase T ∧
      r.matched.reduceOption.length + r.target.length = T.length ∧
      ∀ k, r.matched.reduceOption.count k + r.target.count k = T.count k := by
  induction F with
  | nil => intro v t T fm r h; cases h; simp
  | cons bb rest ih =>
    intro v t T fm r h
    rcases functionLoop_cons_inv h with ⟨_, r1, h1, rfl⟩ | ⟨key, b, r1, hs, _, h1, rfl⟩
    · simpa using ih _ _ _ _ _ h1
    · obtain ⟨e1, e2, e3⟩ := ih _ _ _ _ _ h1
      have hmem : key ∈ T := scanBlock_mem T bb v key hs
      refine ⟨?_, ?_, ?_⟩
      · simpa using e1
      · have hl : (T.erase key).length = T.length - 1 := List.length_erase_of_mem hmem
        have hpos : 0 < T.length := List.length_pos_of_mem hmem
        simp only [List.reduceOption_cons_of_some, List.length_cons]
        omega
      · intro k
        have hk := e3 k
        simp only [List.reduceOption_cons_of_some, List.count_cons]
        rw [List.count_erase] at hk
        have hpos : 0 < T.count key := List.count_pos_iff.mpr hmem
        by_cases hkk : key = k
        · subst hkk; simp at hk ⊢; omega
        · simp [hkk] at hk ⊢; omega

theorem functionLoop_modified (S uninit : Nat) (F : List BasicBlock) :
    ∀ (v : LocVars) (t : Tracer) (T : List Str) (fm : Bool) (r : FunctionOut),
      functionLoop S uninit v t T fm F = .ok r →
      (r.func_modified = true ↔ fm = true ∨ ∃ k, some k ∈ r.matched) := by
  induction F with
  | nil => intro v t T fm r h; cases h; simp
  | cons bb rest ih =>
    intro v t T fm r h
    rcases functionLoop_cons_inv h with ⟨_, r1, h1, rfl⟩ | ⟨key, b, r1, hs, hb, h1, rfl⟩
    · simpa using ih _ _ _ _ _ h1
    · have := ih _ _ _ _ _ h1
      have hm := runOnBasicBlock_modified S uninit t bb b hb
      simp only [List.mem_cons]
      rw [this, hm]
      constructor
      · intro _; right; exact ⟨key, Or.inl rfl⟩
      · intro _; left; rfl

theorem functionLoop_unselected (S uninit : Nat) (F : List BasicBlock) :
    ∀ (v : LocVars) (t : Tracer) (T : List Str) (fm : Bool) (r : FunctionOut),
      functionLoop S uninit v t T fm F = .ok r →
      ∀ i : Nat, r.matched[i]? = some none → r.blocks[i]? = F[i]?.map untouched := by
  induction F with
  | nil => intro v t T fm r h; cases h; simp
  | cons bb rest ih =>
    intro v t T fm r h i hi
    rcases functionLoop_cons_inv h with ⟨_, r1, h1, rfl⟩ | ⟨key, b, r1, hs, hb, h1, rfl⟩
    · cases i with
      | zero => simp
      | succ j => simpa using ih _ _ _ _ _ h1 j (by simpa using hi)
    · cases i with
      | zero => simp at hi
      | succ j => simpa using ih _ _ _ _ _ h1 j (by simpa using hi)

theorem scanKeys_mem_target (T : List Str) (bb : List Instr) :
    ∀ (v : LocVars) (k : Str), k ∈ scanKeys T v bb → k ∈ T → (scanBlock T v bb).2 = some k := by
  induction bb with
  | nil => intro v k h; simp [scanKeys] at h
  | cons I rest ih =>
    intro v k h hT
    unfold scanKeys at h
    unfold scanBlock
    split_ifs at h ⊢ with h1 h2
    · exact ih _ _ h hT
    · simp at h; rw [h]
    · rcases List.mem_cons.mp h with h3 | h3
      · rw [h3] at hT; exact absurd hT h2
      · exact ih _ _ h3 hT

theorem scanBlock_mem_scanKeys (T : List Str) (bb : List Instr) :
    ∀ (v : LocVars) (k : Str), (scanBlock T v bb).2 = some k → k ∈ scanKeys T v bb := by
  induction bb with
  | nil => intro v k h; simp [scanBlock] at h
  | cons I rest ih =>
    intro v k h
    unfold scanBlock at h
    unfold scanKeys
    split_ifs at h ⊢ with h1 h2
    · exact ih _ _ h
    · simp at h; simp [h]
    · exact List.mem_cons_of_mem _ (ih _ _ h)

theorem functionLoop_matched_mem (S uninit : Nat) (F : List BasicBlock) :
    ∀ (v : LocVars) (t : Tracer) (T : List Str) (fm : Bool) (r : FunctionOut),
      functionLoop S uninit v t T fm F = .ok r →
      ∀ (j : Nat) (k : Str), r.matched[j]? = some (some k) → k ∈ T := by
  induction F with
  | nil => intro v t T fm r h; cases h; simp
  | cons bb rest ih =>
    intro v t T fm r h j k hj
    rcases functionLoop_cons_inv h with ⟨_, r1, h1, rfl⟩ | ⟨key, b, r1, hs, hb, h1, rfl⟩
    · cases j with
      | zero => simp at hj
      | succ j => exact ih _ _ _ _ _ h1 j k (by simpa using hj)
    · cases j with
      | zero =>
        simp at hj; rw [← hj]; exact scanBlock_mem T bb v key hs
      | succ j =>
        exact List.mem_of_mem_erase (ih _ _ _ _ _ h1 j k (by simpa using hj))

theorem functionLoop_matched_scanTrace (S uninit : Nat) (F : List BasicBlock) :
    ∀ (v : LocVars) (t : Tracer) (T : List Str) (fm : Bool) (r : FunctionOut),
      functionLoop S uninit v t T fm F = .ok r →
      ∀ (j : Nat) (k : Str), r.matched[j]? = some (some k) →
        ∃ ks, (scanTrace v T F)[j]? = some ks ∧ k ∈ ks := by
  induction F with
  | nil => intro v t T fm r h; cases h; simp
  | cons bb rest ih =>
    intro v t T fm r h j k hj
    rcases functionLoop_cons_inv h with ⟨hs, r1, h1, rfl⟩ | ⟨key, b, r1, hs, hb, h1, rfl⟩
    · cases j with
      | zero => simp at hj
      | succ j =>
        have := ih _ _ _ _ _ h1 j k (by simpa using hj)
        simpa [scanTrace, hs] using this
    · cases j with
      | zero =>
        simp at hj
        refine ⟨scanKeys T v bb, by simp [scanTrace], ?_⟩
        rw [← hj]; exact scanBlock_mem_scanKeys T bb v key hs
      | succ j =>
        have := ih _ _ _ _ _ h1 j k (by simpa using hj)
        simpa [scanTrace, hs] using this

theorem functionLoop_first (S uninit : Nat) (F : List BasicBlock) (k : Str) :
    ∀ (v : LocVars) (t : Tracer) (T : List Str) (fm : Bool) (r : FunctionOut),
      functionLoop S uninit v t T fm F = .ok r → T.count k ≤ 1 →
      ∀ j : Nat, r.matched[j]? = some (some k) →
        (∀ j2 : Nat, r.matched[j2]? = some (some k) → j2 = j) ∧
        (∀ (i : Nat) (ks : List Str), i < j → (scanTrace v T F)[i]? = some ks → k ∉ ks) := by
  induction F with
  | nil => intro v t T fm r h; cases h; simp
  | cons bb rest ih =>
    intro v t T fm r h hc j hj
    rcases functionLoop_cons_inv h with ⟨hs, r1, h1, rfl⟩ | ⟨key, b, r1, hs, hb, h1, rfl⟩
    · cases j with
      | zero => simp at hj
      | succ j =>
        have hj1 : r1.matched[j]? = some (some k) := by simpa using hj
        obtain ⟨u1, u2⟩ := ih _ _ _ _ _ h1 hc j hj1
        have hkT : k ∈ T := functionLoop_matched_mem S uninit rest _ _ _ _ _ h1 j k hj1
        refine ⟨?_, ?_⟩
        · intro j2 hj2
          cases j2 with
          | zero => simp at hj2
          | succ j2 => rw [u1 j2 (by simpa using hj2)]
        · intro i ks hi hks
          cases i with
          | zero =>
            simp [scanTrace] at hks
            intro hmem
            rw [← hks] at hmem
            have := scanKeys_mem_target T bb v k hmem hkT
            rw [hs] at this; cases this
          | succ i =>
            simp [scanTrace, hs] at hks
            exact u2 i ks (by omega) hks
    · have herase : ∀ j1 : Nat, r1.matched[j1]? = some (some k) → key ≠ k := by
        intro j1 hj1 hkk
        have h2 : k ∈ T.erase key := functionLoop_matched_mem S uninit rest _ _ _ _ _ h1 j1 k hj1
        have h3 : 0 < (T.erase key).count k := List.count_pos_iff.mpr h2
        have hmem : key ∈ T := scanBlock_mem T bb v key hs
        have h4 : 0 < T.count key := List.count_pos_iff.mpr hmem
        rw [List.count_erase] at h3
        subst hkk
        simp at h3
        omega
      cases j with
      | zero =>
        have hkey : key = k := by simpa using hj
        refine ⟨?_, ?_⟩
        · intro j2 hj2
          cases j2 with
          | zero => rfl
          | succ j2 => exact absurd hkey (herase j2 (by simpa using hj2))
        · intro i ks hi; omega
      | succ j =>
        have hj1 : r1.matched[j]? = some (some k) := by simpa using hj
        have hne : key ≠ k := herase j hj1
        have hc1 : (T.erase key).count k ≤ 1 := by
          rw [List.count_erase]; omega
        obtain ⟨u1, u2⟩ := ih _ _ _ _ _ h1 hc1 j hj1
        have hkT : k ∈ T :=
          List.mem_of_mem_erase (functionLoop_matched_mem S uninit rest _ _ _ _ _ h1 j k hj1)
        refine ⟨?_, ?_⟩
        · intro j2 hj2
          cases j2 with
          | zero => simp at hj2; exact absurd hj2 hne
          | succ j2 => rw [u1 j2 (by simpa using hj2)]
        · intro i ks hi hks
          cases i with
          | zero =>
            simp [scanTrace] at hks
            intro hmem
            rw [← hks] at hmem
            have := scanKeys_mem_target T bb v k hmem hkT
            rw [hs] at this
            simp at this
            exact hne this
          | succ i =>
            simp [scanTrace, hs] at hks
            exact u2 i ks (by omega) hks

theorem tracedIds_append (a b : List Item) : tracedIds (a ++ b) = tracedIds a ++ tracedIds b := by
  simp [tracedIds]

theorem tracedIds_untouched (bb : List Instr) : tracedIds (untouched bb) = [] := by
  induction bb with
  | nil => rfl
  | cons i rest ih =>
    simp only [untouched, List.map_cons, tracedIds] at ih ⊢
    simp [Item.traceId, ih]

theorem consecutive_nil (S : Nat) (t : Tracer) : Consecutive S t [] t := by
  simp [Consecutive, tracedIds]

theorem consecutive_of_tracedIds_nil {S : Nat} {t : Tracer} {items : List Item}
    (h : tracedIds items = []) : Consecutive S t items t := by
  simp [Consecutive, h]

theorem consecutive_append {S : Nat} {t t1 t2 : Tracer} {a b : List Item}
    (ha : Consecutive S t a t1) (hb : Consecutive S t1 b t2) : Consecutive S t (a ++ b) t2 := by
  obtain ⟨a1, a2, a3⟩ := ha
  obtain ⟨b1, b2, b3⟩ := hb
  refine ⟨?_, ?_, ?_⟩
  · rw [tracedIds_append, List.length_append, List.iterate_add, ← a2, ← a1, ← b1]
  · rw [tracedIds_append, List.length_append, Nat.add_comm, Function.iterate_add_apply, ← a2, ← b2]
  · rw [b3, a3, tracedIds_append, List.append_assoc]

theorem consecutive_cons_orig {S : Nat} {t t2 : Tracer} {i : Instr} {b : List Item}
    (hb : Consecutive S t b t2) : Consecutive S t (Item.orig i :: b) t2 := by
  have : tracedIds (Item.orig i :: b) = tracedIds b := by simp [tracedIds, Item.traceId]
  unfold Consecutive
  rw [this]
  exact hb

theorem consecutive_loc {S : Nat} {t t2 : Tracer} {f : Str} {l : Nat} {b : List Item}
    (hb : Consecutive S ⟨t.inst_id, t.log ++ [.loc f l]⟩ b t2) : Consecutive S t b t2 := by
  obtain ⟨b1, b2, b3⟩ := hb
  refine ⟨b1, b2, ?_⟩
  rw [b3]
  simp [logIds, LogLine.traceId]

theorem traceValue_spec {S : Nat} {t t1 : Tracer} {v : Value} {items : List Item}
    (h : traceValue S t v = some (t1, items)) :
    v.ty ≠ .metadata ∧ t1 = ⟨nextId S t.inst_id, t.log ++ [.id t.inst_id]⟩ ∧
      items = loggingCall v t.inst_id := by
  unfold traceValue at h
  split_ifs at h with h1
  simp only [Option.some.injEq, Prod.mk.injEq] at h
  exact ⟨h1, h.1.symm, h.2.symm⟩

theorem tracedIds_traceValue {S : Nat} {t t1 : Tracer} {v : Value} {items : List Item}
    (h : traceValue S t v = some (t1, items)) :
    tracedIds items = [t.inst_id] ∧ t1.inst_id = nextId S t.inst_id := by
  obtain ⟨_, h2, h3⟩ := traceValue_spec h
  subst h2 h3
  refine ⟨?_, rfl⟩
  simp [loggingCall, tracedIds, Item.traceId, List.filterMap_append, List.filterMap_map]

theorem consecutive_traceValue {S : Nat} {t t1 : Tracer} {v : Value} {items : List Item}
    (h : traceValue S t v = some (t1, items)) : Consecutive S t items t1 := by
  obtain ⟨h1, h2⟩ := tracedIds_traceValue h
  obtain ⟨_, h3, _⟩ := traceValue_spec h
  refine ⟨?_, ?_, ?_⟩
  · simp [h1, List.iterate]
  · simp [h1, h2]
  · rw [h1, h3]
    simp [logIds, LogLine.traceId]

theorem callArgsLoop_consecutive (S : Nat) (inst : Instr) :
    ∀ (n call_id : Nat) (t : Tracer) (r : Tracer × List Item),
      callArgsLoop S inst n call_id t = .ok r → Consecutive S t r.2 r.1 := by
  intro n
  induction n with
  | zero => intro c t r h; cases h; exact consecutive_nil _ _
  | succ n ih =>
    intro c t r h
    unfold callArgsLoop at h
    split at h
    · cases h
    · split_ifs at h with h1 h2
      · exact ih _ _ _ h
      · exact ih _ _ _ h
      · split at h
        · cases h; exact consecutive_nil _ _
        · rename_i t1 items hv
          split at h
          · cases h
          · rename_i t2 more hr
            cases h
            exact consecutive_append (consecutive_traceValue hv) (ih _ _ _ hr)

theorem operandsLoop_consecutive (S : Nat) (ops : List Value) :
    ∀ t : Tracer, Consecutive S t (operandsLoop S ops t).2 (operandsLoop S ops t).1 := by
  induction ops with
  | nil => intro t; exact consecutive_nil _ _
  | cons v rest ih =>
    intro t
    unfold operandsLoop
    split_ifs with h1 h2
    · exact ih t
    · exact ih t
    · split
      · exact consecutive_nil _ _
      · rename_i t1 items hv
        exact consecutive_append (consecutive_traceValue hv) (ih t1)

theorem phiOperandsLoop_consecutive (S : Nat) (ops : List Value) :
    ∀ t : Tracer, Consecutive S t (phiOperandsLoop S ops t).items
      (phiOperandsLoop S ops t).tracer := by
  induction ops with
  | nil => intro t; exact consecutive_nil _ _
  | cons v rest ih =>
    intro t
    unfold phiOperandsLoop
    split_ifs with h1 h2
    · exact ih t
    · exact ih t
    · split
      · exact consecutive_nil _ _
      · rename_i t1 items hv
        exact consecutive_append (consecutive_traceValue hv) (ih t1)

theorem phiResult_consecutive {S : Nat} {t : Tracer} {i : Instr} {r : PhiOut}
    (h : phiResult S t i = .ok r) : Consecutive S t r.items r.tracer := by
  unfold phiResult at h
  split_ifs at h with h1 h2 h3
  · cases h; exact consecutive_nil _ _
  · split at h
    · cases h; exact consecutive_nil _ _
    · rename_i t1 items hv
      cases h
      exact consecutive_traceValue hv
  · cases h; exact consecutive_nil _ _

theorem phiLoop_consecutive (S : Nat) (L : List Instr) :
    ∀ (t : Tracer) (r : Tracer × List Item), phiLoop S L t = .ok r →
      Consecutive S t r.2 r.1 := by
  induction L with
  | nil => intro t r h; cases h; exact consecutive_nil _ _
  | cons i rest ih =>
    intro t r h
    unfold phiLoop at h
    split_ifs at h with h1
    · exact ih _ _ h
    · simp only at h
      have hops := phiOperandsLoop_consecutive S i.operands.reverse t
      split_ifs at h with h2
      · cases h; exact hops
      · split at h
        · cases h
        · rename_i res hres
          have hr := phiResult_consecutive hres
          split_ifs at h with h3
          · cases h; exact consecutive_append hops hr
          · split at h
            · cases h
            · rename_i t2 more hm
              cases h
              have := ih _ _ hm
              rw [List.append_assoc]
              exact consecutive_append hops (consecutive_append hr this)

theorem handleInstructionResult_consecutive {S : Nat} {t : Tracer} {i n : Instr}
    {r : Tracer × List Item} (h : handleInstructionResult S t i n = .ok r) :
    Consecutive S t r.2 r.1 := by
  unfold handleInstructionResult at h
  split_ifs at h with h1 h2 h3
  · cases h; exact consecutive_nil _ _
  · cases h; exact consecutive_nil _ _
  · split at h
    · cases h; exact consecutive_nil _ _
    · rename_i t1 items hv
      cases h
      exact consecutive_traceValue hv

theorem resultStep_consecutive {S : Nat} {t : Tracer} {i : Instr} {n : Option Instr}
    {r : Tracer × List Item} (h : resultStep S t i n = .ok r) :
    Consecutive S t r.2 r.1 := by
  unfold resultStep at h
  split_ifs at h with h1
  · split at h
    · cases h
    · exact handleInstructionResult_consecutive h
  · cases h; exact consecutive_nil _ _

theorem visitInstruction_consecutive {S : Nat} {v : LocVars} {t : Tracer} {i : Instr}
    {n : Option Instr} {r : Visit} (h : visitInstruction S v t i n = .ok r) :
    Consecutive S t (r.before ++ Item.orig i :: r.after) r.tracer := by
  unfold visitInstruction at h
  simp only at h
  split_ifs at h with h1 h2 h3
  · cases h; exact consecutive_cons_orig (consecutive_nil _ _)
  · cases h; exact consecutive_loc (consecutive_cons_orig (consecutive_nil _ _))
  · split at h
    · cases h; exact consecutive_loc (consecutive_cons_orig (consecutive_nil _ _))
    · split_ifs at h with h4
      · cases h; exact consecutive_loc (consecutive_cons_orig (consecutive_nil _ _))
      · split at h
        · cases h
        · rename_i t1 pre hc
          split at h
          · cases h
          · rename_i t2 post hr
            cases h
            have h5 := callArgsLoop_consecutive S i _ _ _ _ hc
            exact consecutive_loc
              (consecutive_append h5 (consecutive_cons_orig (resultStep_consecutive hr)))
  · split at h
    · cases h
    · rename_i t2 post hr
      cases h
      have h5 := operandsLoop_consecutive S i.operands.reverse
        ⟨t.inst_id, t.log ++ [.loc v.filename v.line]⟩
      exact consecutive_loc
        (consecutive_append h5 (consecutive_cons_orig (resultStep_consecutive hr)))

theorem blockLoop_consecutive (S : Nat) (L : List Instr) :
    ∀ (v : LocVars) (t : Tracer) (r : Tracer × List Item), blockLoop S v t L = .ok r →
      Consecutive S t r.2 r.1 := by
  induction L with
  | nil => intro v t r h; cases h; exact consecutive_nil _ _
  | cons i rest ih =>
    intro v t r h
    unfold blockLoop at h
    split at h
    · cases h
    · rename_i r1 hv
      split at h
      · cases h
      · rename_i t2 more hm
        cases h
        have h1 := visitInstruction_consecutive hv
        have h2 := ih _ _ _ hm
        have := consecutive_append h1 h2
        simpa [List.append_assoc] using this

theorem runOnBasicBlock_consecutive {S uninit : Nat} {t : Tracer} {BB : BasicBlock} {r : BlockOut}
    (h : runOnBasicBlock S uninit t BB = .ok r) :
    Consecutive S t r.items r.tracer := by
  unfold runOnBasicBlock at h
  cases BB with
  | nil => cases h
  | cons first rest =>
    simp only at h
    split_ifs at h with h1
    · split at h
      · cases h
      · rename_i t1 phiItems hp
        split at h
        · cases h
        · rename_i t2 body hb
          cases h
          have h2 : Consecutive S ⟨t.inst_id, t.log ++ [.loc (getDebugLoc first ⟨[], uninit⟩).filename (getDebugLoc first ⟨[], uninit⟩).line]⟩ phiItems t1 := by
            unfold handlePhiNodes at hp
            split at hp
            · cases hp
            · exact phiLoop_consecutive S _ _ _ hp
          have h3 := blockLoop_consecutive S _ _ _ _ hb
          rw [List.append_assoc]
          exact consecutive_append (consecutive_of_tracedIds_nil (tracedIds_untouched _))
            (consecutive_loc (consecutive_append h2 h3))
    · split at h
      · cases h
      · rename_i t2 body hb
        cases h
        exact consecutive_append (consecutive_of_tracedIds_nil (tracedIds_untouched _))
          (blockLoop_consecutive S _ _ _ _ hb)

theorem functionLoop_consecutive (S uninit : Nat) (F : List BasicBlock) :
    ∀ (v : LocVars) (t : Tracer) (T : List Str) (fm : Bool) (r : FunctionOut),
      functionLoop S uninit v t T fm F = .ok r →
      Consecutive S t r.blocks.flatten r.tracer := by
  induction F with
  | nil => intro v t T fm r h; cases h; exact consecutive_nil _ _
  | cons bb rest ih =>
    intro v t T fm r h
    rcases functionLoop_cons_inv h with ⟨_, r1, h1, rfl⟩ | ⟨key, b, r1, hs, hb, h1, rfl⟩
    · simp only [List.flatten_cons]
      exact consecutive_append (consecutive_of_tracedIds_nil (tracedIds_untouched _))
        (ih _ _ _ _ _ h1)
    · simp only [List.flatten_cons]
      exact consecutive_append (runOnBasicBlock_consecutive hb) (ih _ _ _ _ _ h1)

theorem digitChar_spec (k : Nat) (h : k < 10) :
    (Nat.digitChar k).isDigit = true ∧ (Nat.digitChar k).toNat - 48 = k := by
  interval_cases k <;> decide

theorem isDigit_not_special (c : Char) (h : c.isDigit = true) :
    isspace c = false ∧ c ≠ '-' ∧ c ≠ '+' ∧ c ≠ '\n' := by
  refine ⟨?_, ?_, ?_, ?_⟩
  · cases hs : isspace c with
    | false => rfl
    | true =>
      simp only [isspace, Bool.or_eq_true, decide_eq_true_eq] at hs
      rcases hs with ((((h1 | h1) | h1) | h1) | h1) | h1 <;> (subst h1; exact absurd h (by decide))
  · intro h1; subst h1; exact absurd h (by decide)
  · intro h1; subst h1; exact absurd h (by decide)
  · intro h1; subst h1; exact absurd h (by decide)

theorem toDigitsCore_digitsValue (fuel : Nat) :
    ∀ (n : Nat) (ds : List Char), n < fuel →
      digitsValue 0 (Nat.toDigitsCore 10 fuel n ds) = digitsValue n ds := by
  induction fuel with
  | zero => intro n ds h; omega
  | succ fuel ih =>
    intro n ds h
    obtain ⟨hd, hv⟩ := digitChar_spec (n % 10) (Nat.mod_lt _ (by decide))
    unfold Nat.toDigitsCore
    simp only
    split_ifs with h0
    · simp only [digitsValue, hd, if_true, hv]
      have : n % 10 = n := by omega
      simp [this]
    · rw [ih (n / 10) _ (by omega)]
      simp only [digitsValue, hd, if_true, hv]
      have : n / 10 * 10 + n % 10 = n := by omega
      rw [this]

theorem toDigitsCore_all_digits (fuel : Nat) :
    ∀ (n : Nat) (ds : List Char), (∀ c ∈ ds, c.isDigit = true) →
      ∀ c ∈ Nat.toDigitsCore 10 fuel n ds, c.isDigit = true := by
  induction fuel with
  | zero => intro n ds h; simpa [Nat.toDigitsCore] using h
  | succ fuel ih =>
    intro n ds h
    obtain ⟨hd, _⟩ := digitChar_spec (n % 10) (Nat.mod_lt _ (by decide))
    have hcons : ∀ c ∈ Nat.digitChar (n % 10) :: ds, c.isDigit = true := by
      intro c hc
      rcases List.mem_cons.mp hc with h1 | h1
      · rw [h1]; exact hd
      · exact h c h1
    unfold Nat.toDigitsCore
    simp only
    split_ifs with h0
    · exact hcons
    · exact ih _ _ hcons

theorem toDigitsCore_ne_nil (fuel : Nat) :
    ∀ (n : Nat) (ds : List Char), n < fuel → Nat.toDigitsCore 10 fuel n ds ≠ [] := by
  induction fuel with
  | zero => intro n ds h; omega
  | succ fuel ih =>
    intro n ds h
    unfold Nat.toDigitsCore
    simp only
    split_ifs with h0
    · simp
    · exact ih _ _ (by omega)

theorem to_string_digits (n : Nat) : ∀ c ∈ to_string n, c.isDigit = true :=
  toDigitsCore_all_digits _ _ _ (by simp)

theorem to_string_ne_nil (n : Nat) : to_string n ≠ [] :=
  toDigitsCore_ne_nil _ _ _ (Nat.lt_succ_self n)

theorem strtolValue_to_string (n : Nat) : strtolValue (to_string n) = (n : Int) := by
  have hv : digitsValue 0 (to_string n) = n := by
    have := toDigitsCore_digitsValue (n + 1) n [] (Nat.lt_succ_self n)
    simpa [to_string, Nat.toDigits, digitsValue] using this
  cases hs : to_string n with
  | nil => exact absurd hs (to_string_ne_nil n)
  | cons d ds =>
    have hd : d.isDigit = true := to_string_digits n d (by rw [hs]; exact List.mem_cons_self _ _)
    obtain ⟨h1, h2, h3, _⟩ := isDigit_not_special d hd
    rw [hs] at hv
    unfold strtolValue
    simp only [List.dropWhile, h1]
    split
    · rename_i cs heq; simp at heq; exact absurd heq.1 h2
    · rename_i cs heq; simp at heq; exact absurd heq.1 h3
    · rw [hv]

theorem toUInt32_atoi_to_string (n : Nat) (h : n < 2 ^ 32) : toUInt32 (atoi (to_string n)) = n := by
  unfold toUInt32 atoi
  rw [strtolValue_to_string]
  simp only
  have h1 : max (-(2 ^ 63 : Int)) (min (n : Int) (2 ^ 63 - 1)) = (n : Int) := by
    rw [min_eq_left (by omega), max_eq_right (by omega)]
  rw [h1]
  omega

theorem getlineLoop_append_newline (q : Str) :
    ∀ (cur rest : Str), getlineLoop cur (q ++ '\n' :: rest) =
      getlineLoop cur (q ++ ['\n']) ++ getlineLoop [] rest := by
  induction q with
  | nil => intro cur rest; simp [getlineLoop]
  | cons c q ih =>
    intro cur rest
    simp only [List.cons_append, getlineLoop, List.append_eq]
    split_ifs with h
    · rw [ih]; simp
    · rw [ih]

theorem getlineLoop_line (l : Str) (hl : ∀ c ∈ l, c ≠ '\n') :
    ∀ cur : Str, getlineLoop cur (l ++ ['\n']) = [cur ++ l] := by
  induction l with
  | nil => intro cur; simp [getlineLoop]
  | cons c l ih =>
    intro cur
    have hc : c ≠ '\n' := hl c (List.mem_cons_self _ _)
    simp only [List.cons_append, getlineLoop, hc, if_false, List.append_eq]
    rw [ih (fun d hd => hl d (List.mem_cons_of_mem _ hd))]
    simp

theorem getlines_append_line (q l : Str) (hq : q = [] ∨ q.getLast? = some '\n')
    (hl : ∀ c ∈ l, c ≠ '\n') : getlines (q ++ l ++ ['\n']) = getlines q ++ [l] := by
  unfold getlines
  rcases hq with h | h
  · subst h
    simp [getlineLoop_line l hl, getlineLoop]
  · have hq2 : q.dropLast ++ ['\n'] = q := List.dropLast_append_getLast? '\n' h
    have e1 := getlineLoop_append_newline q.dropLast [] (l ++ ['\n'])
    rw [getlineLoop_line l hl, hq2] at e1
    have e2 : q ++ l ++ ['\n'] = q.dropLast ++ '\n' :: (l ++ ['\n']) := by
      conv_lhs => rw [← hq2]
      simp
    rw [e2, e1]
    simp

theorem doInitialization_eq (content : Str) :
    doInitialization (some content) =
      match (getlines content).getLast? with
      | none => 0
      | some l => toUInt32 (atoi l) := by
  unfold doInitialization
  simp only
  generalize getlines content = lines
  induction lines using List.reverseRecOn with
  | nil => rfl
  | append_singleton ls l _ => simp [List.foldl_append]

theorem toUInt32_lt (v : Int) : toUInt32 v < 2 ^ 32 := by
  unfold toUInt32
  omega

theorem doInitialization_lt (file : Option Str) : doInitialization file < 2 ^ 32 := by
  cases file with
  | none => simp [doInitialization]
  | some content =>
    rw [doInitialization_eq]
    split
    · simp
    · exact toUInt32_lt _

theorem getlines_dofinish (c : Nat) (file : Option Str)
    (h : ∀ q ∈ file, q = [] ∨ q.getLast? = some '\n') :
    getlines (dofinish c file) = getlines (file.getD []) ++ [to_string c] := by
  unfold dofinish
  apply getlines_append_line
  · cases file with
    | none => left; rfl
    | some q => exact h q rfl
  · intro ch hch
    exact (isDigit_not_special ch (to_string_digits c ch hch)).2.2.2

theorem doInitialization_dofinish (c : Nat) (hc : c < 2 ^ 32) (file : Option Str)
    (h : ∀ q ∈ file, q = [] ∨ q.getLast? = some '\n') :
    doInitialization (some (dofinish c file)) = c := by
  rw [doInitialization_eq, getlines_dofinish c file h]
  simp [toUInt32_atoi_to_string c hc]

theorem doInitialization_to_string (S : Nat) (h : S < 2 ^ 32) :
    doInitialization (some (to_string S ++ ['\n'])) = S := by
  have := doInitialization_dofinish S h none (by simp)
  simpa [dofinish] using this

theorem nextId_lt (S c : Nat) (hS : 0 < S) : nextId S c < S :=
  Nat.mod_lt _ hS

theorem nextId_eq_of_lt (S c : Nat) (h : c + 1 < 2 ^ 32) : nextId S c = (c + 1) % S := by
  unfold nextId
  rw [Nat.mod_eq_of_lt h]

theorem nextId_eq_of_lt_size (S c : Nat) (hS : S ≤ 2 ^ 32) (h : c < S) :
    nextId S c = (c + 1) % S := by
  by_cases h1 : c + 1 < 2 ^ 32
  · exact nextId_eq_of_lt S c h1
  · have h2 : c + 1 = 2 ^ 32 := by omega
    have h3 : S = 2 ^ 32 := by omega
    unfold nextId
    rw [h2, h3]
    norm_num

theorem nextId_wrap (S : Nat) (hS : 0 < S) (hS2 : S ≤ 2 ^ 32) : nextId S (S - 1) = 0 := by
  rw [nextId_eq_of_lt_size S (S - 1) hS2 (by omega)]
  have : S - 1 + 1 = S := by omega
  rw [this, Nat.mod_self]

theorem iterate_nextId_of_lt_size (S c : Nat) (hS : 0 < S) (hS2 : S ≤ 2 ^ 32) (h : c < S) :
    ∀ n : Nat, (nextId S)^[n] c = (c + n) % S := by
  intro n
  induction n with
  | zero => simp [Nat.mod_eq_of_lt h]
  | succ n ih =>
    rw [Function.iterate_succ_apply', ih,
      nextId_eq_of_lt_size S _ hS2 (Nat.mod_lt _ hS), Nat.mod_add_mod]
    rfl

theorem iterate_nextId (S c : Nat) (hS : 0 < S) (hS2 : S ≤ 2 ^ 32) (h : c + 1 < 2 ^ 32)
    (n : Nat) (hn : 1 ≤ n) : (nextId S)^[n] c = (c + n) % S := by
  obtain ⟨m, rfl⟩ : ∃ m, n = m + 1 := ⟨n - 1, by omega⟩
  rw [Function.iterate_succ_apply, nextId_eq_of_lt S c h,
    iterate_nextId_of_lt_size S _ hS hS2 (Nat.mod_lt _ hS), Nat.mod_add_mod]
  congr 1
  omega

theorem mem_iterate_nextId_lt (S c : Nat) (hS : 0 < S) (n : Nat) :
    ∀ id ∈ (List.iterate (nextId S) c n).tail, id < S := by
  intro id hid
  cases n with
  | zero => simp [List.iterate] at hid
  | succ n =>
    simp only [List.iterate, List.tail_cons] at hid
    rw [List.mem_iterate] at hid
    obtain ⟨m, _, hm⟩ := hid
    rw [hm]
    cases m with
    | zero => exact nextId_lt S c hS
    | succ m =>
      rw [Function.iterate_succ_apply']
      exact nextId_lt S _ hS

theorem functionLoop_sublist (S uninit : Nat) (F : List BasicBlock) :
    ∀ (v : LocVars) (t : Tracer) (T : List Str) (fm : Bool) (r : FunctionOut),
      functionLoop S uninit v t T fm F = .ok r → r.target.Sublist T := by
  induction F with
  | nil => intro v t T fm r h; cases h; exact List.Sublist.refl _
  | cons bb rest ih =>
    intro v t T fm r h
    rcases functionLoop_cons_inv h with ⟨_, r1, h1, rfl⟩ | ⟨key, b, r1, hs, _, h1, rfl⟩
    · exact ih _ _ _ _ r1 h1
    · exact (ih _ _ _ _ r1 h1).trans (List.erase_sublist _ _)

theorem functionLoop_none_selected (S uninit : Nat) (F : List BasicBlock) :
    ∀ (v : LocVars) (t : Tracer) (T : List Str) (fm : Bool) (r : FunctionOut),
      functionLoop S uninit v t T fm F = .ok r → (∀ k, some k ∉ r.matched) →
      r.blocks = F.map untouched ∧ r.target = T ∧ r.tracer = t := by
  induction F with
  | nil => intro v t T fm r h _; cases h; exact ⟨rfl, rfl, rfl⟩
  | cons bb rest ih =>
    intro v t T fm r h hno
    rcases functionLoop_cons_inv h with ⟨_, r1, h1, rfl⟩ | ⟨key, b, r1, hs, _, h1, rfl⟩
    · have := ih _ _ _ _ r1 h1 (fun k hk => hno k (List.mem_cons_of_mem _ hk))
      simp [this.1, this.2.1, this.2.2]
    · exact absurd (List.mem_cons_self _ _) (hno key)

theorem handleInstructionResult_eq (S : Nat) (t : Tracer) (A B : Instr)
    (hm : A.ty ≠ .metadata) (ht : A.isTerminator = false) :
    handleInstructionResult S t A B =
      if ∃ op ∈ B.operands, op.ptr = A.ptr then .ok (t, [])
      else .ok (⟨nextId S t.inst_id, t.log ++ [.id t.inst_id]⟩, loggingCall A.asValue t.inst_id) := by
  unfold handleInstructionResult
  have hc : A.asValue.isConstant = false := by simp [Instr.asValue, Value.isConstant]
  have hty : A.asValue.ty ≠ .metadata := hm
  simp only [ht, hc, Bool.false_eq_true, if_false, List.any_eq_true, decide_eq_true_eq,
    traceValue, hty]

theorem blockLoop_cons {S : Nat} {v : LocVars} {t : Tracer} {A : Instr} {rest : List Instr}
    {r : Tracer × List Item} (h : blockLoop S v t (A :: rest) = .ok r) :
    ∃ vis more, visitInstruction S (getDebugLoc A v) t A rest.head? = .ok vis ∧
      blockLoop S (getDebugLoc A v) vis.tracer rest = .ok (r.1, more) ∧
      r.2 = vis.before ++ Item.orig A :: vis.after ++ more := by
  rw [blockLoop] at h
  split at h
  · cases h
  · rename_i vis hv
    split at h
    · cases h
    · rename_i t2 more hm
      cases h
      exact ⟨vis, more, hv, hm, rfl⟩

theorem visitInstruction_after {S : Nat} {v : LocVars} {t : Tracer} {A : Instr}
    {next : Option Instr} {vis : Visit} (h : visitInstruction S v t A next = .ok vis)
    (hd : Dispatched A) (hv : A.ty ≠ .void) :
    ∃ B t1, next = some B ∧ handleInstructionResult S t1 A B = .ok (vis.tracer, vis.after) ∧
      Consecutive S t vis.before t1 := by
  obtain ⟨d1, d2, d3⟩ := hd
  unfold visitInstruction at h
  simp only [d1, d2, if_false] at h
  split_ifs at h with h3
  · obtain ⟨f, hf, hi⟩ := d3 h3
    simp only [hf, hi, Bool.false_eq_true, if_false] at h
    split at h
    · cases h
    · rename_i t1 pre hc
      split at h
      · cases h
      · rename_i t2 post hr
        cases h
        unfold resultStep at hr
        simp only [hv, ne_eq, not_false_eq_true, if_true] at hr
        cases next with
        | none => cases hr
        | some B =>
          exact ⟨B, t1, rfl, hr, consecutive_loc (callArgsLoop_consecutive S A _ _ _ _ hc)⟩
  · split at h
    · cases h
    · rename_i t2 post hr
      cases h
      unfold resultStep at hr
      simp only [hv, ne_eq, not_false_eq_true, if_true] at hr
      cases next with
      | none => cases hr
      | some B =>
        exact ⟨B, _, rfl, hr, consecutive_loc (operandsLoop_consecutive S _ _)⟩

theorem tracedIds_loggingCall (v : Value) (id : Nat) : tracedIds (loggingCall v id) = [id] := by
  have h : ∀ l : List CastOp, List.filterMap Item.traceId (l.map (fun op => Item.cast op v)) = [] := by
    intro l
    induction l with
    | nil => rfl
    | cons a l ih => simp [Item.traceId]
  simp [loggingCall, tracedIds, List.filterMap_append, h, Item.traceId]

theorem phiLoop_two_operands (S : Nat) (t : Tracer) (phi : Instr) (op0 op1 : Value)
    (hop : phi.opcode = .phi) (hops : phi.operands = [op0, op1])
    (h0 : PhiLogged op0) (h1 : PhiLogged op1)
    (hv : phi.ty ≠ .void) (hm : phi.ty ≠ .metadata) (ht : phi.isTerminator = false) :
    phiLoop S [phi] t =
      .ok (⟨nextId S (nextId S (nextId S t.inst_id)),
            t.log ++ [.id t.inst_id, .id (nextId S t.inst_id), .id (nextId S (nextId S t.inst_id))]⟩,
           loggingCall op1 t.inst_id ++ loggingCall op0 (nextId S t.inst_id) ++
             loggingCall phi.asValue (nextId S (nextId S t.inst_id))) := by
  obtain ⟨a1, a2, a3⟩ := h0
  obtain ⟨b1, b2, b3⟩ := h1
  have hc : phi.asValue.isConstant = false := by simp [Instr.asValue, Value.isConstant]
  have hty : phi.asValue.ty ≠ .metadata := hm
  simp [phiLoop, hop, hops, phiOperandsLoop, a1, a2, a3, b1, b2, b3, traceValue, phiResult, hv, ht,
    hc, hty]

theorem leadingPhis_phi_head (phi n : Instr) (tail : List Instr) (hop : phi.opcode = .phi)
    (hn : isPhi n = false) : leadingPhis (phi :: n :: tail) = [phi] := by
  have hp : isPhi phi = true := by simp [isPhi, hop]
  simp [leadingPhis, List.takeWhile, hp, hn]

theorem fromInsertionPt_phi_head (phi n : Instr) (tail : List Instr) (hop : phi.opcode = .phi)
    (hn : isPhi n = false) :
    fromInsertionPt (phi :: n :: tail) = if isEHPad n then tail else n :: tail := by
  have hp : isPhi phi = true := by simp [isPhi, hop]
  simp [fromInsertionPt, List.dropWhile, hp, hn]

theorem beforeInsertionPt_phi_head (phi n : Instr) (tail : List Instr) (hop : phi.opcode = .phi)
    (hn : isPhi n = false) :
    beforeInsertionPt (phi :: n :: tail) = if isEHPad n then [phi, n] else [phi] := by
  have hp : isPhi phi = true := by simp [isPhi, hop]
  unfold beforeInsertionPt
  rw [leadingPhis_phi_head phi n tail hop hn]
  simp only [List.dropWhile, hp, hn]
  split_ifs <;> rfl

theorem handlePhiNodes_two_operands (S : Nat) (t : Tracer) (phi n : Instr) (tail : List Instr)
    (op0 op1 : Value) (hop : phi.opcode = .phi) (hn : isPhi n = false)
    (hne : fromInsertionPt (phi :: n :: tail) ≠ [])
    (hops : phi.operands = [op0, op1]) (h0 : PhiLogged op0) (h1 : PhiLogged op1)
    (hv : phi.ty ≠ .void) (hm : phi.ty ≠ .metadata) (ht : phi.isTerminator = false) :
    handlePhiNodes S t (phi :: n :: tail) =
      .ok (⟨nextId S (nextId S (nextId S t.inst_id)),
            t.log ++ [.id t.inst_id, .id (nextId S t.inst_id), .id (nextId S (nextId S t.inst_id))]⟩,
           loggingCall op1 t.inst_id ++ loggingCall op0 (nextId S t.inst_id) ++
             loggingCall phi.asValue (nextId S (nextId S t.inst_id))) := by
  unfold handlePhiNodes
  rw [leadingPhis_phi_head phi n tail hop hn]
  cases hf : fromInsertionPt (phi :: n :: tail) with
  | nil => exact absurd hf hne
  | cons a b =>
    simp only
    exact phiLoop_two_operands S t phi op0 op1 hop hops h0 h1 hv hm ht

theorem runOnBasicBlock_phi_head (S uninit : Nat) (t : Tracer) (phi : Instr) (rest : List Instr)
    (hop : phi.opcode = .phi) :
    runOnBasicBlock S uninit t (phi :: rest) =
      match handlePhiNodes S ⟨t.inst_id, t.log ++
          [.loc (getDebugLoc phi ⟨[], uninit⟩).filename (getDebugLoc phi ⟨[], uninit⟩).line]⟩
          (phi :: rest) with
      | .error e => .error e
      | .ok (t1, phiItems) =>
        match blockLoop S (getDebugLoc phi ⟨[], uninit⟩) t1 (fromInsertionPt (phi :: rest)) with
        | .error e => .error e
        | .ok (t2, body) =>
          .ok ⟨t2, untouched (beforeInsertionPt (phi :: rest)) ++ phiItems ++ body, true⟩ := by
  have hp : isPhi phi = true := by simp [isPhi, hop]
  unfold runOnBasicBlock
  simp only [hp, if_true]

theorem functionLoop_ids_range (S uninit : Nat) (F : List BasicBlock) (v : LocVars) (t : Tracer)
    (T : List Str) (fm : Bool) (r : FunctionOut) (hS : 0 < S)
    (h : functionLoop S uninit v t T fm F = .ok r) :
    (∀ id ∈ (tracedIds r.blocks.flatten).head?, id = t.inst_id) ∧
    (∀ id ∈ (tracedIds r.blocks.flatten).tail, id < S) ∧
    (t.inst_id < S → ∀ id ∈ tracedIds r.blocks.flatten, id < S) ∧
    (t.inst_id < S ∨ tracedIds r.blocks.flatten ≠ [] → r.tracer.inst_id < S) := by
  obtain ⟨h1, h2, _⟩ := functionLoop_consecutive S uninit F _ _ _ _ r h
  have htail : ∀ id ∈ (tracedIds r.blocks.flatten).tail, id < S := by
    rw [h1]
    exact mem_iterate_nextId_lt S _ hS _
  have hhead : ∀ id ∈ (tracedIds r.blocks.flatten).head?, id = t.inst_id := by
    rw [h1]
    intro id hid
    cases hn : (tracedIds r.blocks.flatten).length with
    | zero => rw [hn] at hid; simp [List.iterate] at hid
    | succ n => rw [hn] at hid; simp [List.iterate] at hid; exact hid.symm
  have hall : t.inst_id < S → ∀ id ∈ tracedIds r.blocks.flatten, id < S := by
    intro hlt id hid
    cases hl : tracedIds r.blocks.flatten with
    | nil => rw [hl] at hid; simp at hid
    | cons a rest =>
      rw [hl] at hid htail hhead
      rcases List.mem_cons.mp hid with h | h
      · rw [h, hhead a (by simp)]; exact hlt
      · exact htail id (by simpa using h)
  refine ⟨hhead, htail, hall, ?_⟩
  intro hor
  rw [h2]
  cases hn : (tracedIds r.blocks.flatten).length with
  | zero =>
    rcases hor with hlt | hne
    · exact hlt
    · exact absurd (List.length_eq_zero.mp hn) hne
  | succ n =>
    rw [Function.iterate_succ_apply']
    exact nextId_lt S _ hS

theorem tracedIds_length (items : List Item) :
    (tracedIds items).length = (tracedValues items).length := by
  induction items with
  | nil => rfl
  | cons i rest ih =>
    unfold tracedIds tracedValues at ih ⊢
    cases i <;> simp [List.filterMap_cons, Item.traceId, ih]

theorem visitInstruction_skipped (S : Nat) (v : LocVars) (t : Tracer) (I : Instr)
    (next : Option Instr) (h : Skipped I) :
    ∃ r, visitInstruction S v t I next = .ok r ∧ r.before = [] ∧ r.after = [] ∧
      r.tracer.inst_id = t.inst_id ∧ logIds r.tracer.log = logIds t.log := by
  unfold visitInstruction
  rcases h with h | h | ⟨h, h2⟩
  · simp [h]
  · have h1 : I.opcode ≠ .invoke := by rw [h]; decide
    simp [h, logIds, LogLine.traceId]
  · have h1 : I.opcode ≠ .invoke := by rw [h]; decide
    have h3 : I.opcode ≠ .zext := by rw [h]; decide
    rcases h2 with h2 | ⟨f, h2, h4⟩
    · simp [h, h2, logIds, LogLine.traceId]
    · simp [h, h2, h4, logIds, LogLine.traceId]

theorem callArgsLoop_error (S : Nat) (inst : Instr) :
    ∀ (n call_id : Nat) (t : Tracer) (e : Err),
      callArgsLoop S inst n call_id t = .error e → e = .operandRange := by
  intro n
  induction n with
  | zero => intro c t e h; cases h
  | succ n ih =>
    intro c t e h
    unfold callArgsLoop at h
    split at h
    · cases h; rfl
    · split_ifs at h with h1 h2
      · exact ih _ _ _ h
      · exact ih _ _ _ h
      · split at h
        · cases h
        · split at h
          · rename_i e2 he
            cases h
            exact ih _ _ _ he
          · cases h

theorem resultStep_error {S : Nat} {t : Tracer} {I : Instr} {next : Option Instr} {e : Err}
    (hsafe : I.ty ≠ .void → I.isTerminator = false ∧ next.isSome = true)
    (h : resultStep S t I next = .error e) : False := by
  obtain ⟨r, hr⟩ := resultStep_ok S t I next hsafe
  rw [hr] at h
  cases h

theorem visitInstruction_error {S : Nat} {v : LocVars} {t : Tracer} {I : Instr}
    {next : Option Instr} {e : Err}
    (hsafe : I.opcode ≠ .invoke → I.ty ≠ .void → I.isTerminator = false ∧ next.isSome = true)
    (h : visitInstruction S v t I next = .error e) : e = .operandRange := by
  unfold visitInstruction at h
  simp only at h
  split_ifs at h with h1 h2 h3
  · split at h
    · cases h
    · split_ifs at h with h4
      split at h
      · rename_i e2 he
        cases h
        exact callArgsLoop_error S I _ _ _ _ he
      · split at h
        · rename_i e2 he
          exact (resultStep_error (hsafe h1) he).elim
        · cases h
  · split at h
    · rename_i e2 he
      exact (resultStep_error (hsafe h1) he).elim
    · cases h

theorem blockLoop_error (S : Nat) (L : List Instr) :
    ∀ (v : LocVars) (t : Tracer) (e : Err),
      (∀ l, L.getLast? = some l → l.isTerminator = true) →
      (∀ i ∈ L, i.isTerminator = true → i.opcode ≠ .invoke → i.ty = .void) →
      blockLoop S v t L = .error e → e = .operandRange := by
  induction L with
  | nil => intro v t e _ _ h; cases h
  | cons i rest ih =>
    intro v t e hlast hterm h
    have hsafe : i.opcode ≠ .invoke → i.ty ≠ .void →
        i.isTerminator = false ∧ rest.head?.isSome = true := by
      intro hop hv
      have hnt : i.isTerminator = false := by
        cases ht : i.isTerminator with
        | false => rfl
        | true => exact absurd (hterm i (List.mem_cons_self _ _) ht hop) hv
      refine ⟨hnt, ?_⟩
      cases rest with
      | nil =>
        have := hlast i (by simp)
        rw [hnt] at this
        cases this
      | cons j r => simp
    have hlast2 : ∀ l, rest.getLast? = some l → l.isTerminator = true := by
      intro l hl
      apply hlast l
      cases rest with
      | nil => simp at hl
      | cons j r => simpa [List.getLast?_cons_cons] using hl
    unfold blockLoop at h
    split at h
    · rename_i e2 he
      cases h
      exact visitInstruction_error hsafe he
    · split at h
      · rename_i e2 he
        cases h
        exact ih _ _ _ hlast2 (fun j hj => hterm j (List.mem_cons_of_mem _ hj)) he
      · cases h

theorem result_handling_safe (L : List Instr)
    (hlast : ∀ l, L.getLast? = some l → l.isTerminator = true)
    (hterm : ∀ i ∈ L, i.isTerminator = true → i.opcode ≠ .invoke → i.ty = .void)
    (pre : List Instr) (I : Instr) (rest : List Instr) (hL : L = pre ++ I :: rest)
    (hop : I.opcode ≠ .invoke) (hv : I.ty ≠ .void) :
    I.isTerminator = false ∧ ∃ nextInst, rest.head? = some nextInst := by
  have hmem : I ∈ L := by rw [hL]; simp
  have hnt : I.isTerminator = false := by
    cases ht : I.isTerminator with
    | false => rfl
    | true => exact absurd (hterm I hmem ht hop) hv
  refine ⟨hnt, ?_⟩
  cases rest with
  | nil =>
    have := hlast I (by rw [hL]; simp)
    rw [hnt] at this
    cases this
  | cons j r => exact ⟨j, rfl⟩

theorem phiLoop_error (S : Nat) (L : List Instr) :
    ∀ (t : Tracer) (e : Err), (∀ i ∈ L, i.ty ≠ .void → i.isTerminator = false) →
      phiLoop S L t = .error e → False := by
  induction L with
  | nil => intro t e _ h; cases h
  | cons i rest ih =>
    intro t e hsafe h
    have hrest := fun j hj => hsafe j (List.mem_cons_of_mem _ hj)
    have hi := hsafe i (List.mem_cons_self _ _)
    unfold phiLoop at h
    split_ifs at h with h1
    · exact ih _ _ hrest h
    · simp only at h
      split_ifs at h with h2
      split at h
      · rename_i e2 he
        unfold phiResult at he
        split_ifs at he with h3 h4 h5
        · rw [hi h3] at h4; cases h4
        · split at he <;> cases he
      · split_ifs at h with h3
        split at h
        · rename_i e2 he
          exact ih _ _ hrest he
        · cases h

theorem terminator_not_phi {BB : BasicBlock} {l : Instr} (hl : BB.getLast? = some l)
    (hlt : l.isTerminator = true) (hphi : ∀ i ∈ BB, isPhi i = true → i.isTerminator = false) :
    isPhi l = false := by
  have hmem : l ∈ BB := List.mem_of_getLast?_eq_some hl
  cases hp : isPhi l with
  | false => rfl
  | true =>
    have := hphi l hmem hp
    rw [hlt] at this
    cases this

theorem terminator_not_ehPad {BB : BasicBlock} {l : Instr} (hl : BB.getLast? = some l)
    (hlt : l.isTerminator = true)
    (hterm : ∀ i ∈ BB, i.isTerminator = true → i.opcode ≠ .invoke → i.ty = .void)
    (hpad : ∀ i ∈ BB, isEHPad i = true → i.isTerminator = true → i.ty ≠ .void) :
    isEHPad l = false := by
  have hmem : l ∈ BB := List.mem_of_getLast?_eq_some hl
  cases hp : isEHPad l with
  | false => rfl
  | true =>
    have hop : l.opcode = .ehPad := by simpa [isEHPad] using hp
    exact absurd (hterm l hmem hlt (by rw [hop]; decide)) (hpad l hmem hp hlt)

theorem runOnBasicBlock_error (S uninit : Nat) (t : Tracer) (BB : BasicBlock) (e : Err)
    (hlast : ∃ l ∈ BB.getLast?, l.isTerminator = true)
    (hterm : ∀ i ∈ BB, i.isTerminator = true → i.opcode ≠ .invoke → i.ty = .void)
    (hphi : ∀ i ∈ BB, isPhi i = true → i.isTerminator = false)
    (hpad : ∀ i ∈ BB, isEHPad i = true → i.isTerminator = true → i.ty ≠ .void)
    (h : runOnBasicBlock S uninit t BB = .error e) : e = .operandRange := by
  obtain ⟨l, hl, hlt⟩ := hlast
  have hl1 : BB.getLast? = some l := hl
  have hne : fromInsertionPt BB ≠ [] :=
    fromInsertionPt_ne_nil_of hl1 (terminator_not_phi hl1 hlt hphi)
      (terminator_not_ehPad hl1 hlt hterm hpad)
  have hbody : ∀ v t1 e1, blockLoop S v t1 (fromInsertionPt BB) = .error e1 →
      e1 = .operandRange := by
    intro v t1 e1 he
    apply blockLoop_error S _ v t1 e1 _ _ he
    · intro l2 hl2
      have := getLast?_fromInsertionPt BB l2 hl2
      rw [hl1] at this
      cases this
      exact hlt
    · intro i hi
      exact hterm i (mem_fromInsertionPt hi)
  unfold runOnBasicBlock at h
  cases BB with
  | nil => simp at hl1
  | cons first rest =>
    simp only at h
    split_ifs at h with h1
    · split at h
      · rename_i e2 he
        cases h
        unfold handlePhiNodes at he
        split at he
        · rename_i h0; exact absurd h0 hne
        · exfalso
          apply phiLoop_error S _ _ _ _ he
          intro i hi _
          exact hphi i (mem_leadingPhis hi).1 (mem_leadingPhis hi).2
      · split at h
        · rename_i e2 he
          cases h
          exact hbody _ _ _ he
        · cases h
    · split at h
      · rename_i e2 he
        cases h
        exact hbody _ _ _ he
      · cases h

theorem logLocs_append (a b : List LogLine) : logLocs (a ++ b) = logLocs a ++ logLocs b := by
  simp [logLocs]

theorem logIds_append (a b : List LogLine) : logIds (a ++ b) = logIds a ++ logIds b := by
  simp [logIds]

theorem logged_nil (t : Tracer) : Logged [] t [] t :=
  ⟨[], by simp, rfl, rfl⟩

theorem logged_of_tracedIds_nil {t : Tracer} {items : List Item} (h : tracedIds items = []) :
    Logged [] t items t :=
  ⟨[], by simp, rfl, by rw [h]; rfl⟩

theorem logged_append {l1 l2 : List (Str × Nat)} {t t1 t2 : Tracer} {a b : List Item}
    (ha : Logged l1 t a t1) (hb : Logged l2 t1 b t2) : Logged (l1 ++ l2) t (a ++ b) t2 := by
  obtain ⟨x, hx, hx1, hx2⟩ := ha
  obtain ⟨y, hy, hy1, hy2⟩ := hb
  refine ⟨x ++ y, ?_, ?_, ?_⟩
  · rw [hy, hx, List.append_assoc]
  · rw [logLocs_append, hx1, hy1]
  · rw [logIds_append, hx2, hy2, tracedIds_append]

theorem logged_cons_orig {l : List (Str × Nat)} {t t2 : Tracer} {i : Instr} {b : List Item}
    (hb : Logged l t b t2) : Logged l t (Item.orig i :: b) t2 := by
  have : tracedIds (Item.orig i :: b) = tracedIds b := by simp [tracedIds, Item.traceId]
  unfold Logged
  rw [this]
  exact hb

theorem logged_loc {l : List (Str × Nat)} {t t2 : Tracer} {f : Str} {n : Nat} {b : List Item}
    (hb : Logged l ⟨t.inst_id, t.log ++ [.loc f n]⟩ b t2) : Logged ((f, n) :: l) t b t2 := by
  obtain ⟨y, hy, hy1, hy2⟩ := hb
  refine ⟨LogLine.loc f n :: y, ?_, ?_, ?_⟩
  · rw [hy]; simp
  · simp [logLocs, LogLine.locOf] at hy1 ⊢
    exact hy1
  · simp [logIds, LogLine.traceId] at hy2 ⊢
    exact hy2

theorem logged_traceValue {S : Nat} {t t1 : Tracer} {v : Value} {items : List Item}
    (h : traceValue S t v = some (t1, items)) : Logged [] t items t1 := by
  obtain ⟨h1, _⟩ := tracedIds_traceValue h
  obtain ⟨_, h3, _⟩ := traceValue_spec h
  refine ⟨[.id t.inst_id], ?_, rfl, ?_⟩
  · rw [h3]
  · rw [h1]; rfl

theorem callArgsLoop_logged (S : Nat) (inst : Instr) :
    ∀ (n call_id : Nat) (t : Tracer) (r : Tracer × List Item),
      callArgsLoop S inst n call_id t = .ok r → Logged [] t r.2 r.1 := by
  intro n
  induction n with
  | zero => intro c t r h; cases h; exact logged_nil _
  | succ n ih =>
    intro c t r h
    unfold callArgsLoop at h
    split at h
    · cases h
    · split_ifs at h with h1 h2
      · exact ih _ _ _ h
      · exact ih _ _ _ h
      · split at h
        · cases h; exact logged_nil _
        · rename_i t1 items hv
          split at h
          · cases h
          · rename_i t2 more hr
            cases h
            exact logged_append (logged_traceValue hv) (ih _ _ _ hr)

theorem operandsLoop_logged (S : Nat) (ops : List Value) :
    ∀ t : Tracer, Logged [] t (operandsLoop S ops t).2 (operandsLoop S ops t).1 := by
  induction ops with
  | nil => intro t; exact logged_nil _
  | cons v rest ih =>
    intro t
    unfold operandsLoop
    split_ifs with h1 h2
    · exact ih t
    · exact ih t
    · split
      · exact logged_nil _
      · rename_i t1 items hv
        exact logged_append (logged_traceValue hv) (ih t1)

theorem phiOperandsLoop_logged (S : Nat) (ops : List Value) :
    ∀ t : Tracer, Logged [] t (phiOperandsLoop S ops t).items
      (phiOperandsLoop S ops t).tracer := by
  induction ops with
  | nil => intro t; exact logged_nil _
  | cons v rest ih =>
    intro t
    unfold phiOperandsLoop
    split_ifs with h1 h2
    · exact ih t
    · exact ih t
    · split
      · exact logged_nil _
      · rename_i t1 items hv
        exact logged_append (logged_traceValue hv) (ih t1)

theorem phiResult_logged {S : Nat} {t : Tracer} {i : Instr} {r : PhiOut}
    (h : phiResult S t i = .ok r) : Logged [] t r.items r.tracer := by
  unfold phiResult at h
  split_ifs at h with h1 h2 h3
  · cases h; exact logged_nil _
  · split at h
    · cases h; exact logged_nil _
    · rename_i t1 items hv
      cases h
      exact logged_traceValue hv
  · cases h; exact logged_nil _

theorem phiLoop_logged (S : Nat) (L : List Instr) :
    ∀ (t : Tracer) (r : Tracer × List Item), phiLoop S L t = .ok r →
      Logged [] t r.2 r.1 := by
  induction L with
  | nil => intro t r h; cases h; exact logged_nil _
  | cons i rest ih =>
    intro t r h
    unfold phiLoop at h
    split_ifs at h with h1
    · exact ih _ _ h
    · simp only at h
      have hops := phiOperandsLoop_logged S i.operands.reverse t
      split_ifs at h with h2
      · cases h; exact hops
      · split at h
        · cases h
        · rename_i res hres
          have hr := phiResult_logged hres
          split_ifs at h with h3
          · cases h; exact logged_append hops hr
          · split at h
            · cases h
            · rename_i t2 more hm
              cases h
              have := ih _ _ hm
              rw [List.append_assoc]
              exact logged_append hops (logged_append hr this)

theorem handlePhiNodes_logged {S : Nat} {t : Tracer} {BB : BasicBlock} {r : Tracer × List Item}
    (h : handlePhiNodes S t BB = .ok r) : Logged [] t r.2 r.1 := by
  unfold handlePhiNodes at h
  split at h
  · cases h
  · exact phiLoop_logged S _ _ _ h

theorem handleInstructionResult_logged {S : Nat} {t : Tracer} {i n : Instr}
    {r : Tracer × List Item} (h : handleInstructionResult S t i n = .ok r) :
    Logged [] t r.2 r.1 := by
  unfold handleInstructionResult at h
  split_ifs at h with h1 h2 h3
  · cases h; exact logged_nil _
  · cases h; exact logged_nil _
  · split at h
    · cases h; exact logged_nil _
    · rename_i t1 items hv
      cases h
      exact logged_traceValue hv

theorem resultStep_logged {S : Nat} {t : Tracer} {i : Instr} {n : Option Instr}
    {r : Tracer × List Item} (h : resultStep S t i n = .ok r) :
    Logged [] t r.2 r.1 := by
  unfold resultStep at h
  split_ifs at h with h1
  · split at h
    · cases h
    · exact handleInstructionResult_logged h
  · cases h; exact logged_nil _

theorem visitInstruction_logged {S : Nat} {v : LocVars} {t : Tracer} {i : Instr}
    {n : Option Instr} {r : Visit} (h : visitInstruction S v t i n = .ok r) :
    Logged (if i.opcode = .invoke then [] else [(v.filename, v.line)]) t
      (r.before ++ Item.orig i :: r.after) r.tracer := by
  unfold visitInstruction at h
  simp only at h
  split_ifs at h ⊢ with h1 h2 h3
  · cases h; exact logged_cons_orig (logged_nil _)
  · cases h; exact logged_loc (logged_cons_orig (logged_nil _))
  · split at h
    · cases h; exact logged_loc (logged_cons_orig (logged_nil _))
    · split_ifs at h with h4
      · cases h; exact logged_loc (logged_cons_orig (logged_nil _))
      · split at h
        · cases h
        · rename_i t1 pre hc
          split at h
          · cases h
          · rename_i t2 post hr
            cases h
            have h5 := callArgsLoop_logged S i _ _ _ _ hc
            have h6 : Logged ([] ++ []) ⟨t.inst_id, t.log ++ [.loc v.filename v.line]⟩
                (pre ++ Item.orig i :: post) t2 :=
              logged_append h5 (logged_cons_orig (resultStep_logged hr))
            exact logged_loc h6
  · split at h
    · cases h
    · rename_i t2 post hr
      cases h
      have h5 := operandsLoop_logged S i.operands.reverse
        ⟨t.inst_id, t.log ++ [.loc v.filename v.line]⟩
      have h6 : Logged ([] ++ []) ⟨t.inst_id, t.log ++ [.loc v.filename v.line]⟩
          ((operandsLoop S i.operands.reverse
            ⟨t.inst_id, t.log ++ [.loc v.filename v.line]⟩).2 ++ Item.orig i :: post) t2 :=
        logged_append h5 (logged_cons_orig (resultStep_logged hr))
      exact logged_loc h6

theorem logged_no_locs {t t2 : Tracer} {items : List Item} (h : Logged [] t items t2) :
    t2.log = t.log ++ (tracedIds items).map LogLine.id := by
  obtain ⟨added, h1, h2, h3⟩ := h
  rw [h1, ← h3]
  congr 1
  clear h1 h3
  induction added with
  | nil => rfl
  | cons a rest ih =>
    cases a with
    | loc f l => simp [logLocs, LogLine.locOf] at h2
    | id n =>
      have h4 : logLocs rest = [] := by simpa [logLocs, LogLine.locOf] using h2
      have := ih h4
      simp only [logIds, List.filterMap_cons, LogLine.traceId, List.map_cons] at this ⊢
      rw [← this]

theorem visitInstruction_log {S : Nat} {v : LocVars} {t : Tracer} {i : Instr}
    {n : Option Instr} {r : Visit} (h : visitInstruction S v t i n = .ok r) :
    r.tracer.log = t.log ++ (if i.opcode = .invoke then [] else [LogLine.loc v.filename v.line]) ++
      (tracedIds (r.before ++ r.after)).map LogLine.id := by
  unfold visitInstruction at h
  simp only at h
  split_ifs at h with h1 h2 h3
  · cases h; simp [tracedIds, h1]
  · cases h; simp [tracedIds, h1]
  · split at h
    · cases h; simp [tracedIds, h1]
    · split_ifs at h with h4
      · cases h; simp [tracedIds, h1]
      · split at h
        · cases h
        · rename_i t1 pre hc
          split at h
          · cases h
          · rename_i t2 post hr
            cases h
            have h5 := callArgsLoop_logged S i _ _ _ _ hc
            have h6 := logged_no_locs (logged_append h5 (resultStep_logged hr))
            simpa [h1] using h6
  · split at h
    · cases h
    · rename_i t2 post hr
      cases h
      have h5 := operandsLoop_logged S i.operands.reverse
        ⟨t.inst_id, t.log ++ [.loc v.filename v.line]⟩
      have h6 := logged_no_locs (logged_append h5 (resultStep_logged hr))
      simpa [h1, handleNonPhiNonCallInstruction] using h6

theorem blockLoop_logged (S : Nat) (L : List Instr) :
    ∀ (v : LocVars) (t : Tracer) (r : Tracer × List Item), blockLoop S v t L = .ok r →
      Logged (loopLocs v L) t r.2 r.1 := by
  induction L with
  | nil => intro v t r h; cases h; exact logged_nil _
  | cons i rest ih =>
    intro v t r h
    unfold blockLoop at h
    split at h
    · cases h
    · rename_i r1 hv
      split at h
      · cases h
      · rename_i t2 more hm
        cases h
        have h1 := visitInstruction_logged hv
        have h2 := ih _ _ _ hm
        have := logged_append h1 h2
        unfold loopLocs
        split_ifs with hinv
        · simpa [List.append_assoc, hinv] using this
        · simpa [List.append_assoc, hinv] using this

theorem runOnBasicBlock_logged {S uninit : Nat} {t : Tracer} {BB : BasicBlock} {r : BlockOut}
    (h : runOnBasicBlock S uninit t BB = .ok r) :
    Logged (blockLocs uninit BB) t r.items r.tracer := by
  unfold runOnBasicBlock at h
  cases BB with
  | nil => cases h
  | cons first rest =>
    simp only at h
    unfold blockLocs
    simp only
    split_ifs at h ⊢ with h1
    · split at h
      · cases h
      · rename_i t1 phiItems hp
        split at h
        · cases h
        · rename_i t2 body hb
          cases h
          have h2 := handlePhiNodes_logged hp
          have h3 := blockLoop_logged S _ _ _ _ hb
          rw [List.append_assoc]
          exact logged_append (logged_of_tracedIds_nil (tracedIds_untouched _))
            (logged_loc (logged_append h2 h3))
    · split at h
      · cases h
      · rename_i t2 body hb
        cases h
        exact logged_append (logged_of_tracedIds_nil (tracedIds_untouched _))
          (blockLoop_logged S _ _ _ _ hb)

theorem functionLoop_logged (S uninit : Nat) (F : List BasicBlock) :
    ∀ (v : LocVars) (t : Tracer) (T : List Str) (fm : Bool) (r : FunctionOut),
      functionLoop S uninit v t T fm F = .ok r →
      Logged (selectedLocs uninit F r.matched) t r.blocks.flatten r.tracer := by
  induction F with
  | nil => intro v t T fm r h; cases h; exact logged_nil _
  | cons bb rest ih =>
    intro v t T fm r h
    rcases functionLoop_cons_inv h with ⟨_, r1, h1, rfl⟩ | ⟨key, b, r1, hs, hb, h1, rfl⟩
    · simp only [List.flatten_cons, selectedLocs]
      exact logged_append (logged_of_tracedIds_nil (tracedIds_untouched _))
        (ih _ _ _ _ _ h1)
    · simp only [List.flatten_cons, selectedLocs]
      exact logged_append (runOnBasicBlock_logged hb) (ih _ _ _ _ _ h1)

theorem logged_length {l : List (Str × Nat)} {t t2 : Tracer} {items : List Item}
    (h : Logged l t items t2) :
    t2.log.length = t.log.length + l.length + (tracedIds items).length := by
  obtain ⟨added, h1, h2, h3⟩ := h
  rw [h1, ← h2, ← h3, List.length_append, Nat.add_assoc]
  congr 1
  clear h1 h2 h3
  induction added with
  | nil => rfl
  | cons a rest ih =>
    cases a with
    | loc f n =>
      simp only [logLocs, logIds, List.filterMap_cons, LogLine.locOf, LogLine.traceId,
        List.length_cons] at ih ⊢
      omega
    | id n =>
      simp only [logLocs, logIds, List.filterMap_cons, LogLine.locOf, LogLine.traceId,
        List.length_cons] at ih ⊢
      omega

theorem coercion_mem {ty : Ty} {op : CastOp} (h : op ∈ coercion ty) : coercion ty = [op] := by
  unfold coercion at h ⊢
  split at h
  · simp only [List.mem_singleton] at h; rw [h]
  · split_ifs at h with h1
    · simp at h
    · rw [if_neg h1]
      simp only [List.mem_singleton] at h; rw [h]
  · split_ifs at h with h1 h2
    · rw [if_pos h1]
      simp only [List.mem_singleton] at h; rw [h]
    · rw [if_neg h1, if_pos h2]
      simp only [List.mem_singleton] at h; rw [h]
    · simp at h

theorem originals_append (a b : List Item) : originals (a ++ b) = originals a ++ originals b := by
  simp [originals]

theorem originals_untouched (bb : List Instr) : originals (untouched bb) = bb := by
  induction bb with
  | nil => rfl
  | cons i rest ih =>
    simp only [untouched, List.map_cons, originals, List.filterMap_cons] at ih ⊢
    rw [ih]

theorem built_nil (P : Value → Prop) : Built P [] [] :=
  ⟨rfl, fun _ h => by cases h⟩

theorem built_append {P : Value → Prop} {o1 o2 : List Instr} {a b : List Item}
    (ha : Built P o1 a) (hb : Built P o2 b) : Built P (o1 ++ o2) (a ++ b) := by
  refine ⟨by rw [originals_append, ha.1, hb.1], ?_⟩
  intro it hit
  rcases List.mem_append.mp hit with h | h
  · exact ha.2 it h
  · exact hb.2 it h

theorem built_mono {P Q : Value → Prop} {o : List Instr} {a : List Item}
    (hPQ : ∀ v, P v → Q v) (ha : Built P o a) : Built Q o a := by
  refine ⟨ha.1, ?_⟩
  intro it hit
  have := ha.2 it hit
  cases it with
  | orig i => trivial
  | trace v id => exact hPQ v this
  | cast op v => exact ⟨hPQ v this.1, this.2⟩

theorem built_orig (P : Value → Prop) (i : Instr) : Built P [i] [Item.orig i] := by
  refine ⟨rfl, ?_⟩
  intro it hit
  simp only [List.mem_singleton] at hit
  subst hit
  trivial

theorem built_untouched (P : Value → Prop) (bb : List Instr) : Built P bb (untouched bb) := by
  refine ⟨originals_untouched bb, ?_⟩
  intro it hit
  simp only [untouched, List.mem_map] at hit
  obtain ⟨i, _, rfl⟩ := hit
  trivial

theorem built_loggingCall {P : Value → Prop} {v : Value} (hv : P v) (id : Nat) :
    Built P [] (loggingCall v id) := by
  constructor
  · simp [loggingCall, originals, List.filterMap_append, List.filterMap_map]
  · intro it hit
    simp only [loggingCall, List.mem_append, List.mem_map, List.mem_singleton] at hit
    rcases hit with ⟨op, hop, rfl⟩ | rfl
    · exact ⟨hv, coercion_mem hop⟩
    · exact hv

theorem built_traceValue {P : Value → Prop} {S : Nat} {t t1 : Tracer} {v : Value}
    {items : List Item} (h : traceValue S t v = some (t1, items)) (hv : P v) :
    Built P [] items := by
  obtain ⟨_, _, h3⟩ := traceValue_spec h
  rw [h3]
  exact built_loggingCall hv _

theorem callArgsLoop_built (S : Nat) (inst : Instr) :
    ∀ (n call_id : Nat) (t : Tracer) (r : Tracer × List Item),
      callArgsLoop S inst n call_id t = .ok r → Built (fun v => v ∈ inst.operands) [] r.2 := by
  intro n
  induction n with
  | zero => intro c t r h; cases h; exact built_nil _
  | succ n ih =>
    intro c t r h
    unfold callArgsLoop at h
    split at h
    · cases h
    · rename_i curr hcurr
      split_ifs at h with h1 h2
      · exact ih _ _ _ h
      · exact ih _ _ _ h
      · split at h
        · cases h; exact built_nil _
        · rename_i t1 items hv
          split at h
          · cases h
          · rename_i t2 more hr
            cases h
            have hmem : curr ∈ inst.operands := by
              rw [List.getElem?_eq_some_iff] at hcurr
              obtain ⟨hc, rfl⟩ := hcurr
              exact List.getElem_mem _
            exact built_append (built_traceValue hv hmem) (ih _ _ _ hr)

theorem operandsLoop_built (S : Nat) (ops : List Value) :
    ∀ t : Tracer, Built (fun v => v ∈ ops) [] (operandsLoop S ops t).2 := by
  induction ops with
  | nil => intro t; exact built_nil _
  | cons v rest ih =>
    intro t
    have hrest : ∀ t1, Built (fun x => x ∈ v :: rest) [] (operandsLoop S rest t1).2 :=
      fun t1 => built_mono (fun x hx => List.mem_cons_of_mem _ hx) (ih t1)
    unfold operandsLoop
    split_ifs with h1 h2
    · exact hrest t
    · exact hrest t
    · split
      · exact built_nil _
      · rename_i t1 items hv
        exact built_append (built_traceValue hv (List.mem_cons_self _ _)) (hrest t1)

theorem phiOperandsLoop_built (S : Nat) (ops : List Value) :
    ∀ t : Tracer, Built (fun v => v ∈ ops) [] (phiOperandsLoop S ops t).items := by
  induction ops with
  | nil => intro t; exact built_nil _
  | cons v rest ih =>
    intro t
    have hrest : ∀ t1, Built (fun x => x ∈ v :: rest) [] (phiOperandsLoop S rest t1).items :=
      fun t1 => built_mono (fun x hx => List.mem_cons_of_mem _ hx) (ih t1)
    unfold phiOperandsLoop
    split_ifs with h1 h2
    · exact hrest t
    · exact hrest t
    · split
      · exact built_nil _
      · rename_i t1 items hv
        exact built_append (built_traceValue hv (List.mem_cons_self _ _)) (hrest t1)

theorem phiResult_built {S : Nat} {t : Tracer} {i : Instr} {r : PhiOut}
    (h : phiResult S t i = .ok r) : Built (fun v => v = i.asValue) [] r.items := by
  unfold phiResult at h
  split_ifs at h with h1 h2 h3
  · cases h; exact built_nil _
  · split at h
    · cases h; exact built_nil _
    · rename_i t1 items hv
      cases h
      exact built_traceValue hv rfl
  · cases h; exact built_nil _

theorem phiLoop_built (S : Nat) (L : List Instr) :
    ∀ (t : Tracer) (r : Tracer × List Item), phiLoop S L t = .ok r →
      Built (fun v => ∃ i ∈ L, v ∈ i.operands ∨ v = i.asValue) [] r.2 := by
  induction L with
  | nil => intro t r h; cases h; exact built_nil _
  | cons i rest ih =>
    intro t r h
    have hrest : ∀ t1 r1, phiLoop S rest t1 = .ok r1 →
        Built (fun v => ∃ j ∈ i :: rest, v ∈ j.operands ∨ v = j.asValue) [] r1.2 :=
      fun t1 r1 h1 => built_mono
        (fun x ⟨j, hj, hx⟩ => ⟨j, List.mem_cons_of_mem _ hj, hx⟩) (ih t1 r1 h1)
    unfold phiLoop at h
    split_ifs at h with h1
    · exact hrest _ _ h
    · simp only at h
      have hops : Built (fun v => ∃ j ∈ i :: rest, v ∈ j.operands ∨ v = j.asValue) []
          (phiOperandsLoop S i.operands.reverse t).items :=
        built_mono (fun x hx => ⟨i, List.mem_cons_self _ _, Or.inl (List.mem_reverse.mp hx)⟩)
          (phiOperandsLoop_built S i.operands.reverse t)
      split_ifs at h with h2
      · cases h; exact hops
      · split at h
        · cases h
        · rename_i res hres
          have hr : Built (fun v => ∃ j ∈ i :: rest, v ∈ j.operands ∨ v = j.asValue) []
              res.items :=
            built_mono (fun x hx => ⟨i, List.mem_cons_self _ _, Or.inr hx⟩)
              (phiResult_built hres)
          split_ifs at h with h3
          · cases h; exact built_append hops hr
          · split at h
            · cases h
            · rename_i t2 more hm
              cases h
              exact built_append (built_append hops hr) (hrest _ _ hm)

theorem handlePhiNodes_built {S : Nat} {t : Tracer} {BB : BasicBlock} {r : Tracer × List Item}
    (h : handlePhiNodes S t BB = .ok r) :
    Built (fun v => ∃ i ∈ leadingPhis BB, v ∈ i.operands ∨ v = i.asValue) [] r.2 := by
  unfold handlePhiNodes at h
  split at h
  · cases h
  · exact phiLoop_built S _ _ _ h

theorem handleInstructionResult_built {S : Nat} {t : Tracer} {i n : Instr}
    {r : Tracer × List Item} (h : handleInstructionResult S t i n = .ok r) :
    Built (fun v => v = i.asValue) [] r.2 := by
  unfold handleInstructionResult at h
  split_ifs at h with h1 h2 h3
  · cases h; exact built_nil _
  · cases h; exact built_nil _
  · split at h
    · cases h; exact built_nil _
    · rename_i t1 items hv
      cases h
      exact built_traceValue hv rfl

theorem resultStep_built {S : Nat} {t : Tracer} {i : Instr} {n : Option Instr}
    {r : Tracer × List Item} (h : resultStep S t i n = .ok r) :
    Built (fun v => v = i.asValue) [] r.2 := by
  unfold resultStep at h
  split_ifs at h with h1
  · split at h
    · cases h
    · exact handleInstructionResult_built h
  · cases h; exact built_nil _

theorem visitInstruction_built {S : Nat} {v : LocVars} {t : Tracer} {i : Instr}
    {n : Option Instr} {r : Visit} (h : visitInstruction S v t i n = .ok r) :
    Built (fun x => x ∈ i.operands) [] r.before ∧ Built (fun x => x = i.asValue) [] r.after := by
  unfold visitInstruction at h
  simp only at h
  split_ifs at h with h1 h2 h3
  · cases h; exact ⟨built_nil _, built_nil _⟩
  · cases h; exact ⟨built_nil _, built_nil _⟩
  · split at h
    · cases h; exact ⟨built_nil _, built_nil _⟩
    · split_ifs at h with h4
      · cases h; exact ⟨built_nil _, built_nil _⟩
      · split at h
        · cases h
        · rename_i t1 pre hc
          split at h
          · cases h
          · rename_i t2 post hr
            cases h
            exact ⟨callArgsLoop_built S i _ _ _ _ hc, resultStep_built hr⟩
  · split at h
    · cases h
    · rename_i t2 post hr
      cases h
      refine ⟨?_, resultStep_built hr⟩
      exact built_mono (fun x hx => List.mem_reverse.mp hx)
        (operandsLoop_built S i.operands.reverse _)

theorem blockLoop_built (S : Nat) (L : List Instr) :
    ∀ (v : LocVars) (t : Tracer) (r : Tracer × List Item), blockLoop S v t L = .ok r →
      Built (fun x => ∃ i ∈ L, x ∈ i.operands ∨ x = i.asValue) L r.2 := by
  induction L with
  | nil => intro v t r h; cases h; exact built_nil _
  | cons i rest ih =>
    intro v t r h
    unfold blockLoop at h
    split at h
    · cases h
    · rename_i r1 hv
      split at h
      · cases h
      · rename_i t2 more hm
        cases h
        obtain ⟨hb, ha⟩ := visitInstruction_built hv
        have h1 : Built (fun x => ∃ j ∈ i :: rest, x ∈ j.operands ∨ x = j.asValue) [] r1.before :=
          built_mono (fun x hx => ⟨i, List.mem_cons_self _ _, Or.inl hx⟩) hb
        have h2 : Built (fun x => ∃ j ∈ i :: rest, x ∈ j.operands ∨ x = j.asValue) [] r1.after :=
          built_mono (fun x hx => ⟨i, List.mem_cons_self _ _, Or.inr hx⟩) ha
        have h3 : Built (fun x => ∃ j ∈ i :: rest, x ∈ j.operands ∨ x = j.asValue) rest more :=
          built_mono (fun x ⟨j, hj, hx⟩ => ⟨j, List.mem_cons_of_mem _ hj, hx⟩) (ih _ _ _ hm)
        have := built_append h1 (built_append (built_append (built_orig _ i) h2) h3)
        simpa [List.append_assoc] using this

theorem built_insertedValues {P : Value → Prop} {o : List Instr} {items : List Item}
    (h : Built P o items) : ∀ x ∈ insertedValues items, P x := by
  intro x hx
  simp only [insertedValues, List.mem_filterMap] at hx
  obtain ⟨it, hit, hx⟩ := hx
  have := h.2 it hit
  cases it with
  | orig i => simp at hx
  | trace v id =>
    simp only [Option.some.injEq] at hx
    subst hx
    exact this
  | cast op v =>
    simp only [Option.some.injEq] at hx
    subst hx
    exact this.1

theorem originals_head {items : List Item} {i : Instr}
    (h : items.head? = some (Item.orig i)) : (originals items).head? = some i := by
  cases items with
  | nil => cases h
  | cons a rest =>
    simp only [List.head?_cons, Option.some.injEq] at h
    subst h
    simp [originals]

theorem dropWhile_isPhi_head {BB : BasicBlock} {i : Instr}
    (h : (BB.dropWhile isPhi).head? = some i) : isPhi i = false := by
  have := List.head_dropWhile_not isPhi BB
  cases hd : List.dropWhile isPhi BB with
  | nil => rw [hd] at h; cases h
  | cons a rest =>
    rw [hd] at h
    simp only [List.head?_cons, Option.some.injEq] at h
    subst h
    have h2 := this (by rw [hd]; simp)
    simp only [hd, List.head_cons] at h2
    simpa using h2

theorem runOnBasicBlock_shape {S uninit : Nat} {t : Tracer} {BB : BasicBlock} {r : BlockOut}
    (h : runOnBasicBlock S uninit t BB = .ok r) :
    ∃ (phiItems body : List Item) (v : LocVars) (t1 : Tracer),
      r.items = untouched (beforeInsertionPt BB) ++ phiItems ++ body ∧
      blockLoop S v t1 (fromInsertionPt BB) = .ok (r.tracer, body) ∧
      (∀ first ∈ BB.head?,
        if isPhi first then
          v = getDebugLoc first ⟨[], uninit⟩ ∧
          handlePhiNodes S ⟨t.inst_id, t.log ++
            [.loc (getDebugLoc first ⟨[], uninit⟩).filename
              (getDebugLoc first ⟨[], uninit⟩).line]⟩ BB = .ok (t1, phiItems)
        else v = ⟨[], uninit⟩ ∧ phiItems = [] ∧ t1 = t) ∧
      Built (fun x => ∃ i ∈ leadingPhis BB, x ∈ i.operands ∨ x = i.asValue) [] phiItems := by
  unfold runOnBasicBlock at h
  cases BB with
  | nil => cases h
  | cons first rest =>
    simp only at h
    split_ifs at h with h1
    · split at h
      · cases h
      · rename_i t1 phiItems hp
        split at h
        · cases h
        · rename_i t2 body hb
          cases h
          refine ⟨phiItems, body, _, t1, rfl, hb, ?_, handlePhiNodes_built hp⟩
          intro f hf
          simp only [List.head?_cons, Option.mem_def, Option.some.injEq] at hf
          subst hf
          rw [if_pos h1]
          exact ⟨rfl, hp⟩
    · split at h
      · cases h
      · rename_i t2 body hb
        cases h
        refine ⟨[], body, _, t, by simp, hb, ?_, built_nil _⟩
        intro f hf
        simp only [List.head?_cons, Option.mem_def, Option.some.injEq] at hf
        subst hf
        rw [if_neg h1]
        exact ⟨rfl, rfl, rfl⟩

theorem scanBlock_find (target : List Str) (bb : List Instr) :
    ∀ v : LocVars, (scanBlock target v bb).2 =
      (instrKeys v bb).reduceOption.find? (fun k => decide (k ∈ target)) := by
  induction bb with
  | nil => intro v; rfl
  | cons I rest ih =>
    intro v
    unfold scanBlock instrKeys
    split_ifs with h1 h2
    · rw [List.reduceOption_cons_of_none]; exact ih _
    · rw [List.reduceOption_cons_of_some, List.find?_cons_of_pos _ (by simpa using h2)]
    · rw [List.reduceOption_cons_of_some, List.find?_cons_of_neg _ (by simpa using h2)]
      exact ih _

theorem instrKeys_length (bb : List Instr) : ∀ v : LocVars, (instrKeys v bb).length = bb.length := by
  induction bb with
  | nil => intro v; rfl
  | cons I rest ih =>
    intro v
    unfold instrKeys
    split_ifs <;> simp [ih]

theorem functionLoop_scan (S uninit : Nat) (F : List BasicBlock) :
    ∀ (v : LocVars) (t : Tracer) (T : List Str) (fm : Bool) (r : FunctionOut),
      functionLoop S uninit v t T fm F = .ok r →
      ∀ (j : Nat) (bb : BasicBlock), F[j]? = some bb →
        ∃ vj, (scanStates v T F)[j]? =
            some (vj, (r.matched.take j).reduceOption.foldl List.erase T) ∧
          r.matched[j]? = some (scanBlock
            ((r.matched.take j).reduceOption.foldl List.erase T) vj bb).2 := by
  induction F with
  | nil => intro v t T fm r h j bb hj; simp at hj
  | cons bb0 rest ih =>
    intro v t T fm r h j bb hj
    rcases functionLoop_cons_inv h with ⟨hs, r1, h1, rfl⟩ | ⟨key, b, r1, hs, hb, h1, rfl⟩
    · cases j with
      | zero =>
        simp only [List.getElem?_cons_zero, Option.some.injEq] at hj
        subst hj
        exact ⟨v, by simp [scanStates], by simp [hs]⟩
      | succ j =>
        simp only [List.getElem?_cons_succ] at hj
        obtain ⟨vj, e1, e2⟩ := ih _ _ _ _ _ h1 j bb hj
        refine ⟨vj, ?_, ?_⟩
        · simpa [scanStates, hs] using e1
        · simpa using e2
    · cases j with
      | zero =>
        simp only [List.getElem?_cons_zero, Option.some.injEq] at hj
        subst hj
        exact ⟨v, by simp [scanStates], by simp [hs]⟩
      | succ j =>
        simp only [List.getElem?_cons_succ] at hj
        obtain ⟨vj, e1, e2⟩ := ih _ _ _ _ _ h1 j bb hj
        refine ⟨vj, ?_, ?_⟩
        · simpa [scanStates, hs] using e1
        · simpa using e2

theorem blockLoop_lines (S : Nat) (L : List Instr) :
    ∀ (v : LocVars) (t : Tracer) (r : Tracer × List Item), blockLoop S v t L = .ok r →
      ∃ ps, List.Forall₂ VisitOf L ps ∧ r.2 = assemble L ps ∧
        r.1.log = t.log ++ loopLines v L ps := by
  induction L with
  | nil =>
    intro v t r h
    cases h
    exact ⟨[], List.Forall₂.nil, rfl, by simp [loopLines]⟩
  | cons i rest ih =>
    intro v t r h
    unfold blockLoop at h
    split at h
    · cases h
    · rename_i r1 hv
      split at h
      · cases h
      · rename_i t2 more hm
        cases h
        obtain ⟨ps, hf, hitems, hlog⟩ := ih _ _ _ hm
        refine ⟨(r1.before, r1.after) :: ps, List.Forall₂.cons (visitInstruction_built hv) hf,
          ?_, ?_⟩
        · simp only [assemble]
          simp only at hitems
          rw [hitems]
        · simp only [loopLines]
          simp only at hlog
          rw [hlog, visitInstruction_log hv]
          simp only [List.append_assoc]

theorem runOnBasicBlock_lines {S uninit : Nat} {t : Tracer} {BB : BasicBlock} {r : BlockOut}
    (h : runOnBasicBlock S uninit t BB = .ok r) :
    ∃ d, BlockData BB d ∧ r.items = blockItems BB d ∧
      r.tracer.log = t.log ++ blockLines uninit BB d := by
  obtain ⟨phiItems, body, v, t1, h1, h2, h3, h4⟩ := runOnBasicBlock_shape h
  obtain ⟨ps, hf, hitems, hlog⟩ := blockLoop_lines S _ _ _ _ h2
  cases BB with
  | nil => simp [runOnBasicBlock] at h
  | cons first rest =>
    have h5 := h3 first rfl
    refine ⟨(phiItems, ps), ⟨h4, ?_, hf⟩, ?_, ?_⟩
    · intro hnp
      have hp : isPhi first = false := hnp first rfl
      rw [if_neg (by simp [hp])] at h5
      exact h5.2.1
    · simp only [blockItems]
      simp only at hitems
      rw [h1, hitems]
    · simp only at hlog
      simp only [blockLines]
      split_ifs at h5 ⊢ with hp
      · obtain ⟨hv, hphi⟩ := h5
        have := logged_no_locs (handlePhiNodes_logged hphi)
        simp only at this
        rw [hlog, this, hv]
        simp
      · obtain ⟨hv, _, ht⟩ := h5
        rw [hlog, hv, ht]

theorem functionLoop_lines (S uninit : Nat) (F : List BasicBlock) :
    ∀ (v : LocVars) (t : Tracer) (T : List Str) (fm : Bool) (r : FunctionOut),
      functionLoop S uninit v t T fm F = .ok r →
      ∃ ds, SelectedData F r.matched ds ∧ r.blocks = functionItems F r.matched ds ∧
        r.tracer.log = t.log ++ functionLines uninit F r.matched ds := by
  induction F with
  | nil =>
    intro v t T fm r h
    cases h
    exact ⟨[], trivial, rfl, by simp [functionLines]⟩
  | cons bb rest ih =>
    intro v t T fm r h
    rcases functionLoop_cons_inv h with ⟨_, r1, h1, rfl⟩ | ⟨key, b, r1, hs, hb, h1, rfl⟩
    · obtain ⟨ds, e1, e2, e3⟩ := ih _ _ _ _ _ h1
      refine ⟨ds, ?_, ?_, ?_⟩
      · simpa [SelectedData] using e1
      · simp only [functionItems]; rw [e2]
      · simp only [functionLines]; exact e3
    · obtain ⟨ds, e1, e2, e3⟩ := ih _ _ _ _ _ h1
      obtain ⟨d, d1, d2, d3⟩ := runOnBasicBlock_lines hb
      refine ⟨d :: ds, ?_, ?_, ?_⟩
      · exact ⟨d1, e1⟩
      · simp only [functionItems]; rw [e2, d2]
      · simp only [functionLines]
        rw [e3, d3, List.append_assoc]

/-! ## The claims -/

/-- C1 (code defect). `runOnFunction` instruments a block none of whose
instructions has a debug location: `getDebugLoc` leaves `filename` and `line` as
the previous instruction set them, so the first instruction of the second block
is compared with the target list under the key `foo.c:10` of the branch in the
first block, and the second entry `foo.c:10` of the list selects the block. -/
theorem C1_stale_location_selects_block :
    (∀ i ∈ [exAdd, exRet], i.dbg = none) ∧
    ∃ r, runOnFunction 65536 0 ⟨0, []⟩ [[exBr], [exAdd, exRet]] [exKey, exKey] = .ok r ∧
      r.matched = [some exKey, some exKey] ∧
      r.blocks[1]? ≠ some (untouched [exAdd, exRet]) ∧
      (r.blocks[1]?.map tracedIds) = some [0, 1, 2] :=
  ⟨by decide, _, rfl, by decide, by decide, by decide⟩

/-- C2. Whenever `runOnFunction` returns: when the scan of a block starts, the
target list is the initial one from which the keys of the blocks selected
before it have been erased (one occurrence, the first, for each of them), and
the block is selected exactly when one of its instructions has a key in that
list, the key it is selected by being the key of the first such instruction in
block order; a block that is not selected is left untouched.  The final target
list is the initial one with, for each selected block in traversal order, the
first occurrence of its key erased; it is a sublist of the initial list (the
remaining entries keep their order); the number of selected blocks is the
initial length minus the final length; and for every key the blocks selected
by it and its remaining occurrences add up to its occurrences in the initial
list, so no entry accounts for two blocks.  On a function whose blocks are
well formed `runOnFunction` does return. -/
theorem C2_one_entry_per_selected_block (S uninit : Nat) (t : Tracer) (F : Function)
    (T : List Str) :
    (∀ r, runOnFunction S uninit t F T = .ok r →
      r.matched.length = F.length ∧
      (∀ (j : Nat) (bb : BasicBlock), F[j]? = some bb →
        ∃ vj, (scanStates ⟨[], uninit⟩ T F)[j]? =
            some (vj, (r.matched.take j).reduceOption.foldl List.erase T) ∧
          (instrKeys vj bb).length = bb.length ∧
          r.matched[j]? = some ((instrKeys vj bb).reduceOption.find?
            (fun k => decide (k ∈ (r.matched.take j).reduceOption.foldl List.erase T)))) ∧
      (∀ j : Nat, r.matched[j]? = some none → r.blocks[j]? = F[j]?.map untouched) ∧
      r.target = r.matched.reduceOption.foldl List.erase T ∧
      r.target.Sublist T ∧
      r.matched.reduceOption.length + r.target.length = T.length ∧
      ∀ k, r.matched.reduceOption.count k + r.target.count k = T.count k) ∧
    ((∀ bb ∈ F, WellFormed bb) → ∃ r, runOnFunction S uninit t F T = .ok r) := by
  refine ⟨?_, fun hwf => functionLoop_ok S uninit F ⟨[], uninit⟩ t T false hwf⟩
  intro r hr
  obtain ⟨h1, h2, h3⟩ := functionLoop_target S uninit F _ _ _ _ r hr
  refine ⟨(functionLoop_length S uninit F _ _ _ _ r hr).1, ?_,
    functionLoop_unselected S uninit F _ _ _ _ r hr, h1,
    functionLoop_sublist S uninit F _ _ _ _ r hr, h2, h3⟩
  intro j bb hj
  obtain ⟨vj, e1, e2⟩ := functionLoop_scan S uninit F _ _ _ _ r hr j bb hj
  refine ⟨vj, e1, instrKeys_length bb vj, ?_⟩
  rw [e2, scanBlock_find]

/-- C2, at a function of three blocks the second of which holds the instruction
at `foo.c:10`, with the target list `[foo.c:10]`: the run returns, the second
block is selected by the key of its addition and instrumented, the target list
becomes empty and the other two blocks are untouched. -/
theorem C2_one_entry_per_selected_block_witness :
    (∀ bb ∈ [[exRet], [exAddAt, exRet], [exRet]], WellFormed bb) ∧
    instrKeys ⟨[], 0⟩ [exAddAt, exRet] = [some exKey, some exKey] ∧
    ∃ r, runOnFunction 65536 0 ⟨0, []⟩ [[exRet], [exAddAt, exRet], [exRet]] [exKey] = .ok r ∧
      r.matched = [none, some exKey, none] ∧ r.target = [] ∧
      r.blocks[0]? = some (untouched [exRet]) ∧ r.blocks[2]? = some (untouched [exRet]) ∧
      (r.blocks[1]?.map tracedIds) = some [0, 1, 2] ∧
      r.matched.length = [[exRet], [exAddAt, exRet], [exRet]].length ∧
      (∀ (j : Nat) (bb : BasicBlock), [[exRet], [exAddAt, exRet], [exRet]][j]? = some bb →
        ∃ vj, (scanStates ⟨[], 0⟩ [exKey] [[exRet], [exAddAt, exRet], [exRet]])[j]? =
            some (vj, (r.matched.take j).reduceOption.foldl List.erase [exKey]) ∧
          (instrKeys vj bb).length = bb.length ∧
          r.matched[j]? = some ((instrKeys vj bb).reduceOption.find?
            (fun k => decide (k ∈ (r.matched.take j).reduceOption.foldl List.erase [exKey])))) ∧
      (∀ j : Nat, r.matched[j]? = some none →
        r.blocks[j]? = [[exRet], [exAddAt, exRet], [exRet]][j]?.map untouched) ∧
      r.target = r.matched.reduceOption.foldl List.erase [exKey] ∧
      r.target.Sublist [exKey] ∧
      r.matched.reduceOption.length + r.target.length = [exKey].length ∧
      ∀ k, r.matched.reduceOption.count k + r.target.count k = [exKey].count k :=
  ⟨by decide, by decide, _, rfl, by decide, by decide, by decide, by decide, by decide,
    (C2_one_entry_per_selected_block 65536 0 ⟨0, []⟩ [[exRet], [exAddAt, exRet], [exRet]]
      [exKey]).1 _ rfl⟩

/-- C3 as stated fails: with the target list `[foo.c:10, foo.c:10]` the two
blocks of the function, each holding an instruction at `foo.c:10`, are both
selected by the key `foo.c:10`. -/
theorem C3_counterexample :
    ∃ r, runOnFunction 65536 0 ⟨0, []⟩ [[exBr], [exRetAt]] [exKey, exKey] = .ok r ∧
      r.matched[0]? = some (some exKey) ∧ r.matched[1]? = some (some exKey) :=
  ⟨_, rfl, by decide, by decide⟩

/-- C3, amended. A key that occurs at most once in the target list selects at
most one block, and the block it selects is the first block in traversal order
whose scan compares an instruction under that key with the target list: the
key is among the keys compared in the selected block and among those of no
earlier block.  This holds whenever `runOnFunction` returns, and it returns on
a function whose blocks are well formed. -/
theorem C3_first_block_per_key (S uninit : Nat) (t : Tracer) (F : Function) (T : List Str)
    (k : Str) (hk : T.count k ≤ 1) :
    (∀ r, runOnFunction S uninit t F T = .ok r →
      ∀ j : Nat, r.matched[j]? = some (some k) →
        (∀ j2 : Nat, r.matched[j2]? = some (some k) → j2 = j) ∧
        (∃ ks, (scanTrace ⟨[], uninit⟩ T F)[j]? = some ks ∧ k ∈ ks) ∧
        (∀ (i : Nat) (ks : List Str), i < j →
          (scanTrace ⟨[], uninit⟩ T F)[i]? = some ks → k ∉ ks)) ∧
    ((∀ bb ∈ F, WellFormed bb) → ∃ r, runOnFunction S uninit t F T = .ok r) := by
  refine ⟨?_, fun hwf => functionLoop_ok S uninit F ⟨[], uninit⟩ t T false hwf⟩
  intro r hr j hj
  obtain ⟨h1, h2⟩ := functionLoop_first S uninit F k _ _ _ _ r hr hk j hj
  exact ⟨h1, functionLoop_matched_scanTrace S uninit F _ _ _ _ r hr j k hj, h2⟩

/-- C3 amended, at a function whose two blocks both hold an instruction at
`foo.c:10` and a target list holding that key once: the run returns, the first
block is selected by the key and the second is not. -/
theorem C3_first_block_per_key_witness :
    ([exKey].count exKey ≤ 1 ∧ ∀ bb ∈ [[exBr], [exRetAt]], WellFormed bb) ∧
    ∃ r, runOnFunction 65536 0 ⟨0, []⟩ [[exBr], [exRetAt]] [exKey] = .ok r ∧
      r.matched = [some exKey, none] ∧
      ∀ j : Nat, r.matched[j]? = some (some exKey) →
        (∀ j2 : Nat, r.matched[j2]? = some (some exKey) → j2 = j) ∧
        (∃ ks, (scanTrace ⟨[], 0⟩ [exKey] [[exBr], [exRetAt]])[j]? = some ks ∧ exKey ∈ ks) ∧
        (∀ (i : Nat) (ks : List Str), i < j →
          (scanTrace ⟨[], 0⟩ [exKey] [[exBr], [exRetAt]])[i]? = some ks → exKey ∉ ks) :=
  ⟨⟨by decide, by decide⟩, _, rfl, by decide,
    (C3_first_block_per_key 65536 0 ⟨0, []⟩ [[exBr], [exRetAt]] [exKey] exKey (by decide)).1 _ rfl⟩

/-- C4 as stated fails: the counter loaded from a counter file whose last line
is `70000` is 70000; after a run that emits no logging call it is still 70000,
not `(70000 + 0) mod 65536`. -/
theorem C4_counterexample :
    doInitialization (some exCounterFile) = 70000 ∧
    ∃ r, runOnFunction 65536 0 ⟨doInitialization (some exCounterFile), []⟩
        [[exBr], [exAdd, exRet]] [] = .ok r ∧
      tracedIds r.blocks.flatten = [] ∧ r.tracer.inst_id = 70000 ∧
      r.tracer.inst_id ≠ (70000 + 0) % 65536 :=
  ⟨by decide, _, rfl, by decide, by decide, by decide⟩

/-- C4, amended. For `0 < INST_SIZE ≤ 2 ^ 32`, whenever `runOnFunction`
returns: whichever handler emits them, the logging calls of the run carry, in
program order, the identifiers `start`, `nextId start`, ... where
`nextId k = ((k + 1) mod 2 ^ 32) mod INST_SIZE`; every emission (`traceValue`)
uses the current counter and advances it by one such step; the identifiers
written to the log are the same; `nextId k` is `(k + 1) mod INST_SIZE` for every
`k < 2 ^ 32 - 1`, and the identifier after `INST_SIZE - 1` is 0; after `n`
emissions the counter is `(start + n) mod INST_SIZE` when `start < INST_SIZE`,
and also when `1 ≤ n` and `start < 2 ^ 32 - 1`; after no emission it is
`start`.  On a function whose blocks are well formed `runOnFunction` does
return. -/
theorem C4_identifier_sequence (S uninit : Nat) (t : Tracer) (F : Function) (T : List Str)
    (hS : 0 < S) (hS2 : S ≤ 2 ^ 32) :
    (∀ r, runOnFunction S uninit t F T = .ok r →
      tracedIds r.blocks.flatten =
        List.iterate (nextId S) t.inst_id (tracedIds r.blocks.flatten).length ∧
      r.tracer.inst_id = (nextId S)^[(tracedIds r.blocks.flatten).length] t.inst_id ∧
      logIds r.tracer.log = logIds t.log ++ tracedIds r.blocks.flatten ∧
      (t.inst_id < S →
        r.tracer.inst_id = (t.inst_id + (tracedIds r.blocks.flatten).length) % S) ∧
      (t.inst_id + 1 < 2 ^ 32 → 1 ≤ (tracedIds r.blocks.flatten).length →
        r.tracer.inst_id = (t.inst_id + (tracedIds r.blocks.flatten).length) % S) ∧
      ((tracedIds r.blocks.flatten).length = 0 → r.tracer.inst_id = t.inst_id)) ∧
    (∀ (t0 t1 : Tracer) (v : Value) (items : List Item),
      traceValue S t0 v = some (t1, items) →
        tracedIds items = [t0.inst_id] ∧ t1.inst_id = nextId S t0.inst_id) ∧
    (∀ k, k + 1 < 2 ^ 32 → nextId S k = (k + 1) % S) ∧
    nextId S (S - 1) = 0 ∧
    ((∀ bb ∈ F, WellFormed bb) → ∃ r, runOnFunction S uninit t F T = .ok r) := by
  refine ⟨?_, ?_, ?_, nextId_wrap S hS hS2,
    fun hwf => functionLoop_ok S uninit F ⟨[], uninit⟩ t T false hwf⟩
  · intro r hr
    obtain ⟨h1, h2, h3⟩ := functionLoop_consecutive S uninit F _ _ _ _ r hr
    refine ⟨h1, h2, h3, ?_, ?_, ?_⟩
    · intro hlt
      rw [h2]
      exact iterate_nextId_of_lt_size S _ hS hS2 hlt _
    · intro hlt hn
      rw [h2]
      exact iterate_nextId S _ hS hS2 hlt _ hn
    · intro h0
      rw [h2, h0]
      rfl
  · intro t0 t1 v items h
    exact tracedIds_traceValue h
  · intro k hk
    exact nextId_eq_of_lt S k hk

/-- C4 amended, at a run that starts from the counter 65535 and emits three
logging calls: their identifiers are 65535, 0 and 1 and the counter ends at
`(65535 + 3) mod 65536 = 2`. -/
theorem C4_identifier_sequence_witness :
    (0 < 65536 ∧ 65536 ≤ 2 ^ 32 ∧ ∀ bb ∈ [[exAddAt, exRet]], WellFormed bb) ∧
    ∃ r, runOnFunction 65536 0 ⟨65535, []⟩ [[exAddAt, exRet]] [exKey] = .ok r ∧
      tracedIds r.blocks.flatten = [65535, 0, 1] ∧ r.tracer.inst_id = 2 ∧
      tracedIds r.blocks.flatten =
        List.iterate (nextId 65536) 65535 (tracedIds r.blocks.flatten).length ∧
      r.tracer.inst_id = (nextId 65536)^[(tracedIds r.blocks.flatten).length] 65535 ∧
      logIds r.tracer.log = logIds [] ++ tracedIds r.blocks.flatten ∧
      (65535 < 65536 →
        r.tracer.inst_id = (65535 + (tracedIds r.blocks.flatten).length) % 65536) ∧
      (65535 + 1 < 2 ^ 32 → 1 ≤ (tracedIds r.blocks.flatten).length →
        r.tracer.inst_id = (65535 + (tracedIds r.blocks.flatten).length) % 65536) ∧
      ((tracedIds r.blocks.flatten).length = 0 → r.tracer.inst_id = 65535) :=
  ⟨⟨by decide, by decide, by decide⟩, _, rfl, by decide, by decide,
    (C4_identifier_sequence 65536 0 ⟨65535, []⟩ [[exAddAt, exRet]] [exKey]
      (by decide) (by decide)).1 _ rfl⟩

/-- C5 as stated fails: with a counter file whose last line is `70000` and
`INST_SIZE = 65536`, the first identifier passed to `trace_value` is 70000,
outside `[0, INST_SIZE)`. -/
theorem C5_counterexample :
    ∃ r, runOnFunction 65536 0 ⟨doInitialization (some exCounterFile), []⟩
        [[exAddAt, exRet]] [exKey] = .ok r ∧
      tracedIds r.blocks.flatten = [70000, 4465, 4466] ∧
      logIds r.tracer.log = [70000, 4465, 4466] ∧ ¬ (70000 < 65536) :=
  ⟨_, rfl, by decide, by decide, by decide⟩

/-- C5, amended. For `0 < INST_SIZE`, whatever the counter file holds, whenever
the first run of `runOnFunction` after `doInitialization` returns: the first
identifier it passes to `trace_value` is the counter loaded from the file,
every later identifier lies in `[0, INST_SIZE)`, and all of them do when the
loaded counter is below `INST_SIZE`, as it is when the file is absent; the
identifiers written to the trace-id log are the same ones.  Once a call has
been emitted, or when the loaded counter is below `INST_SIZE`, the counter left
behind is below `INST_SIZE`, and every run that starts with a counter below
`INST_SIZE` uses identifiers in `[0, INST_SIZE)` only and leaves such a
counter.  On a function whose blocks are well formed `runOnFunction` does
return. -/
theorem C5_identifier_range (S uninit : Nat) (file : Option Str) (log : List LogLine)
    (F : Function) (T : List Str) (hS : 0 < S) :
    (∀ r, runOnFunction S uninit ⟨doInitialization file, log⟩ F T = .ok r →
      logIds r.tracer.log = logIds log ++ tracedIds r.blocks.flatten ∧
      (∀ id ∈ (tracedIds r.blocks.flatten).head?, id = doInitialization file) ∧
      (∀ id ∈ (tracedIds r.blocks.flatten).tail, id < S) ∧
      (doInitialization file < S → ∀ id ∈ tracedIds r.blocks.flatten, id < S) ∧
      (file = none → ∀ id ∈ tracedIds r.blocks.flatten, id < S) ∧
      (doInitialization file < S ∨ tracedIds r.blocks.flatten ≠ [] → r.tracer.inst_id < S)) ∧
    (∀ (t2 : Tracer) (F2 : Function) (T2 : List Str) (r2 : FunctionOut), t2.inst_id < S →
      runOnFunction S uninit t2 F2 T2 = .ok r2 →
        (∀ id ∈ tracedIds r2.blocks.flatten, id < S) ∧ r2.tracer.inst_id < S) ∧
    ((∀ bb ∈ F, WellFormed bb) →
      ∃ r, runOnFunction S uninit ⟨doInitialization file, log⟩ F T = .ok r) := by
  refine ⟨?_, ?_, fun hwf => functionLoop_ok S uninit F ⟨[], uninit⟩ _ T false hwf⟩
  · intro r hr
    obtain ⟨_, _, h3⟩ := functionLoop_consecutive S uninit F _ _ _ _ r hr
    obtain ⟨hhead, htail, hall, hfin⟩ := functionLoop_ids_range S uninit F _ _ _ _ r hS hr
    refine ⟨h3, hhead, htail, hall, ?_, hfin⟩
    intro hnone
    apply hall
    rw [hnone]
    exact hS
  · intro t2 F2 T2 r2 hlt h2
    obtain ⟨_, _, hall2, hfin2⟩ := functionLoop_ids_range S uninit F2 _ _ _ _ r2 hS h2
    exact ⟨hall2 hlt, hfin2 (Or.inl hlt)⟩

/-- C5 amended, at a run without a counter file: the run returns and its three
identifiers are 0, 1 and 2. -/
theorem C5_identifier_range_witness :
    (0 < 65536 ∧ ∀ bb ∈ [[exAddAt, exRet]], WellFormed bb) ∧
    ∃ r, runOnFunction 65536 0 ⟨doInitialization none, []⟩ [[exAddAt, exRet]] [exKey] = .ok r ∧
      tracedIds r.blocks.flatten = [0, 1, 2] ∧
      logIds r.tracer.log = logIds [] ++ tracedIds r.blocks.flatten ∧
      (∀ id ∈ (tracedIds r.blocks.flatten).head?, id = doInitialization none) ∧
      (∀ id ∈ (tracedIds r.blocks.flatten).tail, id < 65536) ∧
      (doInitialization none < 65536 → ∀ id ∈ tracedIds r.blocks.flatten, id < 65536) ∧
      ((none : Option Str) = none → ∀ id ∈ tracedIds r.blocks.flatten, id < 65536) ∧
      (doInitialization none < 65536 ∨ tracedIds r.blocks.flatten ≠ [] →
        r.tracer.inst_id < 65536) :=
  ⟨⟨by decide, by decide⟩, _, rfl, by decide,
    (C5_identifier_range 65536 0 none [] [[exAddAt, exRet]] [exKey] (by decide)).1 _ rfl⟩

/-- C6 as stated fails: when the counter file holds `12` with no newline after
it, `dofinish` with the counter 7 produces the file `127` and
`doInitialization` loads 127 from it, not 7. -/
theorem C6_counterexample :
    dofinish 7 (some exOpenFile) = "127\n".toList ∧
    doInitialization (some (dofinish 7 (some exOpenFile))) = 127 := by
  decide

/-- C6, amended. For every counter value `c` (a 32-bit unsigned value) and
every prior state of the counter file that is absent, empty or ends with a
newline: `dofinish` adds the decimal rendering of `c` as a new last line and
`doInitialization` loads `c` from the resulting file.  `doInitialization` yields
0 when the file is absent and otherwise the value of the last line that
`getline` returns (0 when there is none). -/
theorem C6_counter_round_trip (c : Nat) (file : Option Str) (hc : c < 2 ^ 32)
    (hfile : ∀ q ∈ file, q = [] ∨ q.getLast? = some '\n') :
    getlines (dofinish c file) = getlines (file.getD []) ++ [to_string c] ∧
    doInitialization (some (dofinish c file)) = c ∧
    doInitialization none = 0 ∧
    ∀ content, doInitialization (some content) =
      match (getlines content).getLast? with
      | none => 0
      | some l => toUInt32 (atoi l) :=
  ⟨getlines_dofinish c file hfile, doInitialization_dofinish c hc file hfile, rfl,
    doInitialization_eq⟩

/-- C6 amended, at the counter 7 and a counter file holding the line `70000`. -/
theorem C6_counter_round_trip_witness :
    (7 < 2 ^ 32 ∧ ∀ q ∈ some exCounterFile, q = [] ∨ q.getLast? = some '\n') ∧
    getlines (dofinish 7 (some exCounterFile)) =
      getlines ((some exCounterFile).getD []) ++ [to_string 7] ∧
    doInitialization (some (dofinish 7 (some exCounterFile))) = 7 ∧
    doInitialization none = 0 ∧
    ∀ content, doInitialization (some content) =
      match (getlines content).getLast? with
      | none => 0
      | some l => toUInt32 (atoi l) :=
  ⟨⟨by decide, by decide⟩,
    C6_counter_round_trip 7 (some exCounterFile) (by decide) (by decide)⟩

/-- C7 as stated fails: on an existing counter file holding `12` with no
newline after it, `doInitialization` followed by `dofinish` leaves a file whose
only line is `1212`; no line is added and the value of the last line changes
from 12 to 1212. -/
theorem C7_counterexample :
    doInitialization (some exOpenFile) = 12 ∧
    getlines exOpenFile = ["12".toList] ∧
    getlines (dofinish (doInitialization (some exOpenFile)) (some exOpenFile)) =
      ["1212".toList] ∧
    doInitialization
      (some (dofinish (doInitialization (some exOpenFile)) (some exOpenFile))) = 1212 := by
  decide

/-- C7, amended. For every existing counter file that is empty or ends with a
newline, `doInitialization` followed at once by `dofinish` adds one line, the
decimal rendering of the loaded counter, and the counter that
`doInitialization` loads from the new file is the one it loaded from the old
file. -/
theorem C7_idempotent_persistence (content : Str)
    (hfile : content = [] ∨ content.getLast? = some '\n') :
    getlines (dofinish (doInitialization (some content)) (some content)) =
      getlines content ++ [to_string (doInitialization (some content))] ∧
    doInitialization (some (dofinish (doInitialization (some content)) (some content))) =
      doInitialization (some content) := by
  have h : ∀ q ∈ some content, q = [] ∨ q.getLast? = some '\n' := by
    intro q hq
    cases hq
    exact hfile
  exact ⟨getlines_dofinish _ _ h,
    doInitialization_dofinish _ (doInitialization_lt _) _ h⟩

/-- C7 amended, at a counter file holding the line `70000`. -/
theorem C7_idempotent_persistence_witness :
    (exCounterFile = [] ∨ exCounterFile.getLast? = some '\n') ∧
    getlines (dofinish (doInitialization (some exCounterFile)) (some exCounterFile)) =
      getlines exCounterFile ++ [to_string (doInitialization (some exCounterFile))] ∧
    doInitialization
        (some (dofinish (doInitialization (some exCounterFile)) (some exCounterFile))) =
      doInitialization (some exCounterFile) :=
  ⟨by decide, C7_idempotent_persistence exCounterFile (by decide)⟩

/-- C8 as stated fails: the block `ret void` at `foo.c:10` is selected, nothing
is inserted into it, and `runOnFunction` returns true for a function it has
left unchanged. -/
theorem C8_counterexample :
    ∃ r, runOnFunction 65536 0 ⟨0, []⟩ [[exRetAt]] [exKey] = .ok r ∧
      r.func_modified = true ∧ r.blocks = [untouched [exRetAt]] :=
  ⟨_, rfl, by decide, by decide⟩

/-- C8, amended. Whenever `runOnFunction` returns, the boolean it returns is
true exactly when at least one block was selected (`runOnBasicBlock` returns
true for every block it is given); when it is false every block is unchanged,
so a function that was changed is always reported, while true may be returned
for an unchanged function.  On a function whose blocks are well formed
`runOnFunction` does return. -/
theorem C8_modified_flag (S uninit : Nat) (t : Tracer) (F : Function) (T : List Str) :
    (∀ r, runOnFunction S uninit t F T = .ok r →
      (r.func_modified = true ↔ ∃ k, some k ∈ r.matched) ∧
      (r.func_modified = false → r.blocks = F.map untouched) ∧
      (r.blocks ≠ F.map untouched → r.func_modified = true)) ∧
    ((∀ bb ∈ F, WellFormed bb) → ∃ r, runOnFunction S uninit t F T = .ok r) := by
  refine ⟨?_, fun hwf => functionLoop_ok S uninit F ⟨[], uninit⟩ t T false hwf⟩
  intro r hr
  have h1 : r.func_modified = true ↔ ∃ k, some k ∈ r.matched := by
    have := functionLoop_modified S uninit F _ _ _ _ r hr
    simpa using this
  have h2 : r.func_modified = false → r.blocks = F.map untouched := by
    intro hf
    have hno : ∀ k, some k ∉ r.matched := by
      intro k hk
      have := h1.mpr ⟨k, hk⟩
      rw [hf] at this
      cases this
    exact (functionLoop_none_selected S uninit F _ _ _ _ r hr hno).1
  refine ⟨h1, h2, ?_⟩
  intro hne
  cases hf : r.func_modified with
  | true => rfl
  | false => exact absurd (h2 hf) hne

/-- C8 amended, at a function of two blocks the second of which is
instrumented: the run returns true. -/
theorem C8_modified_flag_witness :
    (∀ bb ∈ [[exBr], [exAdd, exRet]], WellFormed bb) ∧
    ∃ r, runOnFunction 65536 0 ⟨0, []⟩ [[exBr], [exAdd, exRet]] [exKey, exKey] = .ok r ∧
      r.func_modified = true ∧
      (r.func_modified = true ↔ ∃ k, some k ∈ r.matched) ∧
      (r.func_modified = false → r.blocks = [[exBr], [exAdd, exRet]].map untouched) ∧
      (r.blocks ≠ [[exBr], [exAdd, exRet]].map untouched → r.func_modified = true) :=
  ⟨by decide, _, rfl, by decide,
    (C8_modified_flag 65536 0 ⟨0, []⟩ [[exBr], [exAdd, exRet]] [exKey, exKey]).1 _ rfl⟩

/-- C9 as stated fails: in the block `%s = add i32 %a, %b; store i32 %a, i32* %q;
ret void` the store does not use `%s`, so the result of the addition is logged
(identifier 2); the call stands directly after the addition, and the four
instructions that log the operands of the store stand between it and the
store, so it is not immediately before the store. -/
theorem C9_counterexample :
    Dispatched exAdd ∧ (∀ op ∈ exStoreA.operands, op.ptr ≠ exAdd.ptr) ∧
    ∃ r, runOnBasicBlock 65536 0 ⟨0, []⟩ [exAdd, exStoreA, exRet] = .ok r ∧
      r.items =
        [.cast .zext exArgB, .trace exArgB 0, .cast .zext exArgA, .trace exArgA 1,
          .orig exAdd,
          .cast .zext exAdd.asValue, .trace exAdd.asValue 2,
          .cast .ptrToInt exPtrQ, .trace exPtrQ 3, .cast .zext exArgA, .trace exArgA 4,
          .orig exStoreA,
          .orig exRet] :=
  ⟨by decide, by decide, _, rfl, by decide⟩

/-- C9, amended. For an instruction `A` that is not a terminator, with a result
that is neither void nor metadata-typed, and the next instruction `B`:
`handleInstructionResult` inserts nothing and leaves the state unchanged when
one of the operands of `B` is `A`, and otherwise inserts exactly the cast and
one call `trace_value` for the result of `A`, carrying the current counter, and
advances the counter once.  In the loop of `runOnBasicBlock`, for a dispatched
`A` followed by `B`, the handler is called with `A` and `B` after the operands
of `A` are handled, and what it inserts stands right after `A`; between it and
`B` there is exactly what the later visit of `B` itself inserts before `B`:
casts and logging calls on operands of `B`, no original instruction.  Only `A`
and `B` enter the decision, whatever instructions follow. -/
theorem C9_adjacent_result_suppression (S : Nat) (t : Tracer) (A B : Instr) (rest : List Instr)
    (hv : A.ty ≠ .void) (hm : A.ty ≠ .metadata) (ht : A.isTerminator = false) :
    (handleInstructionResult S t A B =
      if ∃ op ∈ B.operands, op.ptr = A.ptr then .ok (t, [])
      else .ok (⟨nextId S t.inst_id, t.log ++ [.id t.inst_id]⟩,
        loggingCall A.asValue t.inst_id)) ∧
    tracedIds (loggingCall A.asValue t.inst_id) = [t.inst_id] ∧
    (∀ (v : LocVars) (t0 : Tracer) (r : Tracer × List Item), Dispatched A →
      blockLoop S v t0 (A :: B :: rest) = .ok r →
      ∃ pre t1 t2 post visB more, Consecutive S t0 pre t1 ∧
        handleInstructionResult S t1 A B = .ok (t2, post) ∧
        visitInstruction S (getDebugLoc B (getDebugLoc A v)) t2 B rest.head? = .ok visB ∧
        r.2 = pre ++ Item.orig A :: post ++ (visB.before ++ Item.orig B :: visB.after ++ more) ∧
        originals visB.before = [] ∧
        (∀ x ∈ insertedValues visB.before, x ∈ B.operands) ∧
        (tracedIds visB.before).length = (tracedValues visB.before).length) := by
  refine ⟨handleInstructionResult_eq S t A B hm ht, tracedIds_loggingCall _ _, ?_⟩
  intro v t0 r hd h
  obtain ⟨vis, more, h1, h2, h3⟩ := blockLoop_cons h
  obtain ⟨B2, t1, hB, h4, h5⟩ := visitInstruction_after h1 hd hv
  cases hB
  obtain ⟨visB, more2, h6, _, h8⟩ := blockLoop_cons h2
  have hb := (visitInstruction_built h6).1
  refine ⟨vis.before, t1, vis.tracer, vis.after, visB, more2, h5, h4, h6, ?_, hb.1,
    built_insertedValues hb, tracedIds_length _⟩
  rw [h3]
  simp only at h8
  rw [h8]

/-- C9 amended, at the addition `%s = add i32 %a, %b` followed by `ret void`. -/
theorem C9_adjacent_result_suppression_witness :
    (exAdd.ty ≠ .void ∧ exAdd.ty ≠ .metadata ∧ exAdd.isTerminator = false) ∧
    (handleInstructionResult 65536 ⟨0, []⟩ exAdd exRet =
      if ∃ op ∈ exRet.operands, op.ptr = exAdd.ptr then .ok (⟨0, []⟩, [])
      else .ok (⟨nextId 65536 0, [] ++ [.id 0]⟩, loggingCall exAdd.asValue 0)) :=
  ⟨by decide,
    (C9_adjacent_result_suppression 65536 ⟨0, []⟩ exAdd exRet []
      (by decide) (by decide) (by decide)).1⟩

/-- C10 as stated fails: for the block `%p = phi i32 [%a], [%b]; ret void`, whose
phi node has two incoming operands that are neither instructions nor
constants, `handlePhiNodes` inserts three logging calls, the third for the
result of the phi node, and the counter advances by three. -/
theorem C10_counterexample :
    exPhi.opcode = .phi ∧ exPhi.operands = [exArgA, exArgB] ∧
    exArgA.kind = .argument ∧ exArgB.kind = .argument ∧
    ∃ r, handlePhiNodes 65536 ⟨0, []⟩ [exPhi, exRet] = .ok r ∧
      r.2.filterMap (fun i => match i with
        | .trace v id => some (v, id)
        | _ => none) = [(exArgB, 0), (exArgA, 1), (exPhi.asValue, 2)] ∧
      r.1.inst_id = 3 :=
  ⟨by decide, by decide, by decide, by decide, _, rfl, by decide, by decide⟩

/-- C10, amended. For a block whose only phi node is its head, with exactly two
incoming operands, both neither instructions nor constants nor
metadata-typed, the phi node being of a type other than void and metadata, and
with an instruction at the first insertion point: `handlePhiNodes` inserts
exactly three logging calls, for operand 1, for operand 0 and for the result
of the phi node, in that order, with three consecutive identifiers; the
counter advances by three steps; and in the block that `runOnBasicBlock`
leaves they stand at the first insertion point: right after the phi node and
before everything that the instruction `n` after the phi node gives rise to
when `n` is not an exception-handling pad, and right after `n`, which the loop
does not visit, when it is one. -/
theorem C10_phi_two_operands (S uninit : Nat) (t : Tracer) (phi n : Instr) (tail : List Instr)
    (op0 op1 : Value) (hop : phi.opcode = .phi) (hn : isPhi n = false)
    (hne : isEHPad n = true → tail ≠ [])
    (hops : phi.operands = [op0, op1]) (h0 : PhiLogged op0) (h1 : PhiLogged op1)
    (hv : phi.ty ≠ .void) (hm : phi.ty ≠ .metadata) (ht : phi.isTerminator = false) :
    handlePhiNodes S t (phi :: n :: tail) =
      .ok (⟨nextId S (nextId S (nextId S t.inst_id)),
            t.log ++ [.id t.inst_id, .id (nextId S t.inst_id),
              .id (nextId S (nextId S t.inst_id))]⟩,
           loggingCall op1 t.inst_id ++ loggingCall op0 (nextId S t.inst_id) ++
             loggingCall phi.asValue (nextId S (nextId S t.inst_id))) ∧
    tracedIds (loggingCall op1 t.inst_id ++ loggingCall op0 (nextId S t.inst_id) ++
        loggingCall phi.asValue (nextId S (nextId S t.inst_id))) =
      [t.inst_id, nextId S t.inst_id, nextId S (nextId S t.inst_id)] ∧
    runOnBasicBlock S uninit t (phi :: n :: tail) =
      (match blockLoop S (getDebugLoc phi ⟨[], uninit⟩)
          ⟨nextId S (nextId S (nextId S t.inst_id)),
            t.log ++ [.loc (getDebugLoc phi ⟨[], uninit⟩).filename
                (getDebugLoc phi ⟨[], uninit⟩).line] ++
              [.id t.inst_id, .id (nextId S t.inst_id),
                .id (nextId S (nextId S t.inst_id))]⟩
          (if isEHPad n then tail else n :: tail) with
      | .error e => .error e
      | .ok (t2, body) =>
        .ok ⟨t2, (if isEHPad n then [Item.orig phi, Item.orig n] else [Item.orig phi]) ++
          (loggingCall op1 t.inst_id ++ loggingCall op0 (nextId S t.inst_id) ++
            loggingCall phi.asValue (nextId S (nextId S t.inst_id))) ++ body, true⟩) := by
  have hf := fromInsertionPt_phi_head phi n tail hop hn
  have hb := beforeInsertionPt_phi_head phi n tail hop hn
  have hne2 : fromInsertionPt (phi :: n :: tail) ≠ [] := by
    rw [hf]
    split_ifs with he
    · exact hne he
    · simp
  refine ⟨handlePhiNodes_two_operands S t phi n tail op0 op1 hop hn hne2 hops h0 h1 hv hm ht,
    ?_, ?_⟩
  · simp [tracedIds_append, tracedIds_loggingCall]
  · rw [runOnBasicBlock_phi_head S uninit t phi (n :: tail) hop,
      handlePhiNodes_two_operands S _ phi n tail op0 op1 hop hn hne2 hops h0 h1 hv hm ht, hf, hb]
    simp only
    have hu : untouched (if isEHPad n = true then [phi, n] else [phi]) =
        (if isEHPad n = true then [Item.orig phi, Item.orig n] else [Item.orig phi]) := by
      split_ifs <;> rfl
    rw [hu]

/-- C10 amended, at the block `%p = phi i32 [%a], [%b]; ret void`, and at the
block `%p = phi i32 [%a], [%b]; %lp = landingpad ...; ret void`, where the three
calls stand after the landing pad. -/
theorem C10_phi_two_operands_witness :
    (exPhi.opcode = .phi ∧ isPhi exRet = false ∧ (isEHPad exRet = true → ([] : List Instr) ≠ []) ∧
      exPhi.operands = [exArgA, exArgB] ∧
      PhiLogged exArgA ∧ PhiLogged exArgB ∧ exPhi.ty ≠ .void ∧ exPhi.ty ≠ .metadata ∧
      exPhi.isTerminator = false) ∧
    handlePhiNodes 65536 ⟨0, []⟩ (exPhi :: exRet :: []) =
      .ok (⟨nextId 65536 (nextId 65536 (nextId 65536 0)),
            [] ++ [.id 0, .id (nextId 65536 0), .id (nextId 65536 (nextId 65536 0))]⟩,
           loggingCall exArgB 0 ++ loggingCall exArgA (nextId 65536 0) ++
             loggingCall exPhi.asValue (nextId 65536 (nextId 65536 0))) ∧
    ∃ r, runOnBasicBlock 65536 0 ⟨0, []⟩ [exPhi, exLandingPad, exRet] = .ok r ∧
      r.items =
        [.orig exPhi, .orig exLandingPad,
          .cast .zext exArgB, .trace exArgB 0, .cast .zext exArgA, .trace exArgA 1,
          .cast .zext exPhi.asValue, .trace exPhi.asValue 2,
          .orig exRet] :=
  ⟨⟨by decide, by decide, by decide, by decide, by decide, by decide, by decide, by decide,
      by decide⟩,
    (C10_phi_two_operands 65536 0 ⟨0, []⟩ exPhi exRet [] exArgA exArgB (by decide) (by decide)
      (by decide) (by decide) (by decide) (by decide) (by decide) (by decide) (by decide)).1,
    _, rfl, by decide⟩

/-- C11 (code defect). For an instruction without debug metadata `getDebugLoc`
returns its output parameters as it received them: after the instruction
`ret void` at `src/foo.c:10:3` the addition without metadata is resolved to
`src/foo.c`, line 10, column 3, not to `""`, 0, 0; and with the target list
`[foo.c:10, foo.c:10]` the scan of `runOnFunction` matches the addition against
the target list and selects its block. -/
theorem C11_resolver_keeps_previous_location :
    exAdd.dbg = none ∧
    (∀ v : LocVars, getDebugLoc exAdd v = v) ∧
    (∀ column : Nat, getDebugLocColumn exAdd column = column) ∧
    getDebugLoc exAdd (getDebugLoc exRetAt ⟨[], 0⟩) = ⟨"src/foo.c".toList, 10⟩ ∧
    getDebugLocColumn exAdd (getDebugLocColumn exRetAt 0) = 3 ∧
    (scanBlock [exKey] (scanBlock [exKey, exKey] ⟨[], 0⟩ [exRetAt]).1 [exAdd, exRet]).2 =
      some exKey ∧
    ∃ r, runOnFunction 65536 0 ⟨0, []⟩ [[exRetAt], [exAdd, exRet]] [exKey, exKey] = .ok r ∧
      r.matched = [some exKey, some exKey] ∧ r.target = [] :=
  ⟨rfl, fun _ => rfl, fun _ => rfl, by decide, by decide, by decide, _, rfl, by decide, by decide⟩

/-- C12. Whenever `runOnBasicBlock` returns, the calls `trace_value` of the
block it leaves carry, read in program order, the identifiers in the order of
their assignment: the counter at the start, then each time the counter after
one more step; and the bare identifier lines added to the trace-id log are
exactly the identifiers of those calls, in the same order, one per call.  On a
well-formed block `runOnBasicBlock` does return. -/
theorem C12_log_alignment (S uninit : Nat) (t : Tracer) (BB : BasicBlock) :
    (∀ r, runOnBasicBlock S uninit t BB = .ok r →
      tracedIds r.items = List.iterate (nextId S) t.inst_id (tracedIds r.items).length ∧
      r.tracer.inst_id = (nextId S)^[(tracedIds r.items).length] t.inst_id ∧
      logIds r.tracer.log = logIds t.log ++ tracedIds r.items ∧
      (tracedIds r.items).length = (tracedValues r.items).length) ∧
    (WellFormed BB → ∃ r, runOnBasicBlock S uninit t BB = .ok r) := by
  refine ⟨?_, fun hwf => runOnBasicBlock_ok S uninit t BB hwf⟩
  intro r hr
  obtain ⟨h1, h2, h3⟩ := runOnBasicBlock_consecutive hr
  exact ⟨h1, h2, h3, tracedIds_length _⟩

/-- C12, at the block `%s = add i32 %a, %b; ret void`: the run returns, the
calls carry 7, 8 and 9 and these are the identifier lines of the log. -/
theorem C12_log_alignment_witness :
    WellFormed [exAdd, exRet] ∧
    ∃ r, runOnBasicBlock 65536 0 ⟨7, []⟩ [exAdd, exRet] = .ok r ∧
      tracedIds r.items = [7, 8, 9] ∧ logIds r.tracer.log = [7, 8, 9] ∧
      tracedIds r.items = List.iterate (nextId 65536) 7 (tracedIds r.items).length ∧
      r.tracer.inst_id = (nextId 65536)^[(tracedIds r.items).length] 7 ∧
      logIds r.tracer.log = logIds [] ++ tracedIds r.items ∧
      (tracedIds r.items).length = (tracedValues r.items).length :=
  ⟨by decide, _, rfl, by decide, by decide,
    (C12_log_alignment 65536 0 ⟨7, []⟩ [exAdd, exRet]).1 _ rfl⟩

/-- C13, refuted.  In the block `%q = phi ...; %p = phi ...; invoke ...` selected
through `foo.c:10`, the scan has visited one instruction, phi handling two phi
nodes and the loop one instruction, yet the log gets a single `filename:line`
line (written for the first phi node) ahead of the six identifier lines; and
for the function `br label %next` with an empty target list the scan visits the
branch and the log stays empty. -/
theorem C13_counterexample :
    (∃ r, runOnFunction 65536 0 ⟨0, []⟩ [[exPhiAt, exPhi, exInvoke]] [exKey] = .ok r ∧
      r.matched = [some exKey] ∧
      r.tracer.log = [.loc "src/foo.c".toList 10, .id 0, .id 1, .id 2, .id 3, .id 4, .id 5]) ∧
    scanKeys [] ⟨[], 0⟩ [exBr] = [exKey] ∧
    ∃ r, runOnFunction 65536 0 ⟨0, []⟩ [[exBr]] [] = .ok r ∧ r.tracer.log = [] :=
  ⟨⟨_, rfl, by decide, by decide⟩, by decide, _, rfl, by decide⟩

/-- C13 amended.  Whenever `runOnFunction` returns, there are, for every selected
block, the instructions that phi handling has inserted and, for every
instruction from the first insertion point of the block on, the instructions
that the turn of the loop has inserted before and after it, such that the
blocks are the original ones with these insertions in place and the trace-id
log is the former log followed by exactly these lines: for every selected
block in traversal order, when the block begins with a phi node the
`filename:line` line of that first phi node and then the identifiers of the
logging calls of phi handling; then, for every instruction from the first
insertion point on, its `filename:line` line (none for an invoke) followed by
the identifiers of the logging calls inserted before and after it.  An
exception-handling pad ahead of the first insertion point gets no line.  The
`filename:line` lines and the identifier lines among the new lines are those
of `selectedLocs` and the identifiers of the logging calls in program order.
The scan writes nothing.  One turn of the loop writes its `filename:line` line
(none for an invoke) and then the identifiers of the calls it emits, and phi
handling writes the identifiers of the calls it emits and nothing else.  On a
function whose blocks are well formed `runOnFunction` does return. -/
theorem C13_log_lines (S uninit : Nat) (t : Tracer) (F : Function) (T : List Str) :
    (∀ r, runOnFunction S uninit t F T = .ok r →
      (∃ ds, SelectedData F r.matched ds ∧
        r.blocks = functionItems F r.matched ds ∧
        r.tracer.log = t.log ++ functionLines uninit F r.matched ds ∧
        logLocs (functionLines uninit F r.matched ds) = selectedLocs uninit F r.matched ∧
        logIds (functionLines uninit F r.matched ds) = tracedIds r.blocks.flatten ∧
        (functionLines uninit F r.matched ds).length =
          (selectedLocs uninit F r.matched).length + (tracedIds r.blocks.flatten).length) ∧
      ((∀ k, some k ∉ r.matched) → r.tracer.log = t.log)) ∧
    (∀ (t1 : Tracer) (BB : BasicBlock) (r : BlockOut),
      runOnBasicBlock S uninit t1 BB = .ok r →
      ∃ d, BlockData BB d ∧ r.items = blockItems BB d ∧
        r.tracer.log = t1.log ++ blockLines uninit BB d) ∧
    (∀ (v : LocVars) (t1 : Tracer) (I : Instr) (next : Option Instr) (r : Visit),
      visitInstruction S v t1 I next = .ok r →
      r.tracer.log =
        t1.log ++ (if I.opcode = .invoke then [] else [LogLine.loc v.filename v.line]) ++
          (tracedIds (r.before ++ r.after)).map LogLine.id) ∧
    (∀ (t1 : Tracer) (BB : BasicBlock) (r : Tracer × List Item),
      handlePhiNodes S t1 BB = .ok r → r.1.log = t1.log ++ (tracedIds r.2).map LogLine.id) ∧
    ((∀ bb ∈ F, WellFormed bb) → ∃ r, runOnFunction S uninit t F T = .ok r) := by
  refine ⟨?_, fun t1 BB r h => runOnBasicBlock_lines h,
    fun v t1 I next r h => visitInstruction_log h,
    fun t1 BB r h => logged_no_locs (handlePhiNodes_logged h),
    fun hwf => functionLoop_ok S uninit F ⟨[], uninit⟩ t T false hwf⟩
  intro r hr
  have hl := functionLoop_logged S uninit F _ _ _ _ r hr
  have hlen := logged_length hl
  obtain ⟨added, h1, h2, h3⟩ := hl
  obtain ⟨ds, d1, d2, d3⟩ := functionLoop_lines S uninit F _ _ _ _ r hr
  have he : added = functionLines uninit F r.matched ds := by
    rw [h1] at d3
    exact List.append_cancel_left d3
  subst he
  refine ⟨⟨ds, d1, d2, d3, h2, h3, ?_⟩, ?_⟩
  · rw [h1, List.length_append] at hlen
    omega
  · intro hno
    have := (functionLoop_none_selected S uninit F _ _ _ _ r hr hno).2
    rw [this.2]

/-- C13 amended, at a function of two blocks the second of which is selected:
the run returns and appends the lines `src/foo.c:10`, 0, 1, 2,
`src/foo.c:10`; and at a selected block that begins with a landing pad, for
which no line is written. -/
theorem C13_log_lines_witness :
    (∀ bb ∈ [[exRet], [exAddAt, exRet]], WellFormed bb) ∧
    (∃ r, runOnFunction 65536 0 ⟨0, []⟩ [[exRet], [exAddAt, exRet]] [exKey] = .ok r ∧
      r.tracer.log =
        [.loc "src/foo.c".toList 10, .id 0, .id 1, .id 2, .loc "src/foo.c".toList 10] ∧
      (∃ ds, SelectedData [[exRet], [exAddAt, exRet]] r.matched ds ∧
        r.blocks = functionItems [[exRet], [exAddAt, exRet]] r.matched ds ∧
        r.tracer.log = [] ++ functionLines 0 [[exRet], [exAddAt, exRet]] r.matched ds ∧
        logLocs (functionLines 0 [[exRet], [exAddAt, exRet]] r.matched ds) =
          selectedLocs 0 [[exRet], [exAddAt, exRet]] r.matched ∧
        logIds (functionLines 0 [[exRet], [exAddAt, exRet]] r.matched ds) =
          tracedIds r.blocks.flatten ∧
        (functionLines 0 [[exRet], [exAddAt, exRet]] r.matched ds).length =
          (selectedLocs 0 [[exRet], [exAddAt, exRet]] r.matched).length +
            (tracedIds r.blocks.flatten).length) ∧
      ((∀ k, some k ∉ r.matched) → r.tracer.log = [])) ∧
    ∃ r, runOnFunction 65536 0 ⟨0, []⟩ [[exLandingPad, exRetAt]] [exKey] = .ok r ∧
      r.matched = [some exKey] ∧ r.blocks = [[.orig exLandingPad, .orig exRetAt]] ∧
      r.tracer.log = [.loc "src/foo.c".toList 10] :=
  ⟨by decide,
    ⟨_, rfl, by decide,
      (C13_log_lines 65536 0 ⟨0, []⟩ [[exRet], [exAddAt, exRet]] [exKey]).1 _ rfl⟩,
    _, rfl, by decide, by decide, by decide⟩

/-- C14 as stated fails: in the block `%p = phi i32 [%a], [%b]; %lp = landingpad
...; ret void` the first insertion point is after the landing pad, so the
logging calls of phi handling stand after the first instruction that is not a
phi node, not before it. -/
theorem C14_counterexample :
    isPhi exLandingPad = false ∧
    ∃ r, runOnBasicBlock 65536 0 ⟨0, []⟩ [exPhi, exLandingPad, exRet] = .ok r ∧
      r.items =
        [.orig exPhi, .orig exLandingPad,
          .cast .zext exArgB, .trace exArgB 0, .cast .zext exArgA, .trace exArgA 1,
          .cast .zext exPhi.asValue, .trace exPhi.asValue 2,
          .orig exRet] :=
  ⟨by decide, _, rfl, by decide⟩

/-- C14, amended. Whenever `runOnBasicBlock` returns, the block it leaves is the
instructions ahead of the first insertion point, untouched (the leading phi
nodes and, when the first instruction after them is an exception-handling pad,
that pad), then what phi handling has inserted, then the rest of the block as
the loop has instrumented it.  Deleting the inserted casts and calls gives
back the instructions of the block in their order; the leading phi nodes are
still a prefix of the block and the instruction right after them is not an
original phi node; what phi handling inserts holds no original instruction and
stands at the first insertion point, after the last leading phi node and after
the pad when there is one, before the next original instruction.  Every
inserted cast or call works on an operand or on the result of an original
instruction of the block: the loop runs over the original instructions from
the first insertion point on only.  On a well-formed block `runOnBasicBlock`
does return. -/
theorem C14_structure_preservation (S uninit : Nat) (t : Tracer) (BB : BasicBlock) :
    (∀ r, runOnBasicBlock S uninit t BB = .ok r →
      originals r.items = BB ∧
      (∀ x ∈ insertedValues r.items, ∃ i ∈ BB, x ∈ i.operands ∨ x = i.asValue) ∧
      (∃ afterPhis, r.items = untouched (leadingPhis BB) ++ afterPhis ∧
        originals afterPhis = BB.dropWhile isPhi ∧
        ∀ i, afterPhis.head? = some (Item.orig i) → isPhi i = false) ∧
      ∃ (phiItems body : List Item) (v : LocVars) (t1 : Tracer),
        r.items = untouched (beforeInsertionPt BB) ++ phiItems ++ body ∧
        blockLoop S v t1 (fromInsertionPt BB) = .ok (r.tracer, body) ∧
        (∀ first ∈ BB.head?,
          if isPhi first then
            v = getDebugLoc first ⟨[], uninit⟩ ∧
            handlePhiNodes S ⟨t.inst_id, t.log ++
              [.loc (getDebugLoc first ⟨[], uninit⟩).filename
                (getDebugLoc first ⟨[], uninit⟩).line]⟩ BB = .ok (t1, phiItems)
          else v = ⟨[], uninit⟩ ∧ phiItems = [] ∧ t1 = t) ∧
        originals phiItems = [] ∧
        originals body = fromInsertionPt BB ∧
        (∀ x ∈ insertedValues phiItems, ∃ i ∈ leadingPhis BB, x ∈ i.operands ∨ x = i.asValue) ∧
        (∀ x ∈ insertedValues body, ∃ i ∈ fromInsertionPt BB, x ∈ i.operands ∨ x = i.asValue)) ∧
    (∀ i ∈ leadingPhis BB, isPhi i = true) ∧
    beforeInsertionPt BB ++ fromInsertionPt BB = BB ∧
    (∀ (n : Instr) (rest : List Instr), BB.dropWhile isPhi = n :: rest →
      if isEHPad n then beforeInsertionPt BB = leadingPhis BB ++ [n] ∧ fromInsertionPt BB = rest
      else beforeInsertionPt BB = leadingPhis BB ∧ fromInsertionPt BB = n :: rest) ∧
    (WellFormed BB → ∃ r, runOnBasicBlock S uninit t BB = .ok r) := by
  refine ⟨?_, fun i hi => (mem_leadingPhis hi).2, beforeInsertionPt_append BB, ?_,
    fun hwf => runOnBasicBlock_ok S uninit t BB hwf⟩
  · intro r hr
    obtain ⟨phiItems, body, v, t1, h1, h2, h3, h4⟩ := runOnBasicBlock_shape hr
    have h5 := blockLoop_built S _ _ _ _ h2
    have hBB := beforeInsertionPt_append BB
    have horig : originals r.items = BB := by
      rw [h1, originals_append, originals_append, originals_untouched, h4.1, h5.1,
        List.append_nil, hBB]
    refine ⟨horig, ?_, ?_, phiItems, body, v, t1, h1, h2, h3, h4.1, h5.1,
      built_insertedValues h4, built_insertedValues h5⟩
    · intro x hx
      have hall : Built (fun x => ∃ i ∈ BB, x ∈ i.operands ∨ x = i.asValue)
          (beforeInsertionPt BB ++ [] ++ fromInsertionPt BB) r.items := by
        rw [h1]
        refine built_append (built_append (built_untouched _ _) ?_) ?_
        · exact built_mono (fun y ⟨i, hi, hy⟩ => ⟨i, (mem_leadingPhis hi).1, hy⟩) h4
        · exact built_mono (fun y ⟨i, hi, hy⟩ => ⟨i, mem_fromInsertionPt hi, hy⟩) h5
      exact built_insertedValues hall x hx
    · have hsplit : untouched (beforeInsertionPt BB) =
          untouched (leadingPhis BB) ++
            untouched (List.drop (leadingPhis BB).length (beforeInsertionPt BB)) := by
        have : beforeInsertionPt BB =
            leadingPhis BB ++ List.drop (leadingPhis BB).length (beforeInsertionPt BB) := by
          unfold beforeInsertionPt
          simp
        conv_lhs => rw [this]
        simp [untouched]
      refine ⟨untouched (List.drop (leadingPhis BB).length (beforeInsertionPt BB)) ++
        phiItems ++ body, ?_, ?_, ?_⟩
      · rw [h1, hsplit]
        simp only [List.append_assoc]
      · have h6 : originals r.items = leadingPhis BB ++ BB.dropWhile isPhi := by
          rw [horig]
          exact (List.takeWhile_append_dropWhile isPhi BB).symm
        rw [h1, hsplit] at h6
        simp only [List.append_assoc, originals_append, originals_untouched] at h6 ⊢
        exact List.append_cancel_left h6
      · intro i hi
        have h6 : originals r.items = leadingPhis BB ++ BB.dropWhile isPhi := by
          rw [horig]
          exact (List.takeWhile_append_dropWhile isPhi BB).symm
        rw [h1, hsplit] at h6
        simp only [List.append_assoc, originals_append, originals_untouched] at h6
        have h7 := List.append_cancel_left h6
        have h8 := originals_head hi
        simp only [List.append_assoc, originals_append, originals_untouched] at h8
        rw [h7] at h8
        exact dropWhile_isPhi_head h8
  · intro n rest hd
    unfold beforeInsertionPt fromInsertionPt
    rw [hd]
    by_cases he : isEHPad n = true
    · simp [he]
    · simp [he]

/-- C14 amended, at the block `%p = phi ...; %s = add i32 %a, %b; ret void`: the
run returns, the phi node is still the first instruction and the six inserted
calls with their casts follow it. -/
theorem C14_structure_preservation_witness :
    WellFormed [exPhi, exAddAt, exRet] ∧
    ∃ r, runOnBasicBlock 65536 0 ⟨0, []⟩ [exPhi, exAddAt, exRet] = .ok r ∧
      r.items =
        [.orig exPhi,
          .cast .zext exArgB, .trace exArgB 0, .cast .zext exArgA, .trace exArgA 1,
          .cast .zext exPhi.asValue, .trace exPhi.asValue 2,
          .cast .zext exArgB, .trace exArgB 3, .cast .zext exArgA, .trace exArgA 4,
          .orig exAddAt,
          .cast .zext exAddAt.asValue, .trace exAddAt.asValue 5,
          .orig exRet] ∧
      originals r.items = [exPhi, exAddAt, exRet] ∧
      (∀ x ∈ insertedValues r.items,
        ∃ i ∈ [exPhi, exAddAt, exRet], x ∈ i.operands ∨ x = i.asValue) :=
  ⟨by decide, _, rfl, by decide,
    ((C14_structure_preservation 65536 0 ⟨0, []⟩ [exPhi, exAddAt, exRet]).1 _ rfl).1,
    ((C14_structure_preservation 65536 0 ⟨0, []⟩ [exPhi, exAddAt, exRet]).1 _ rfl).2.1⟩

/-- C18. For an invoke, a zero extension, an indirect call and a call of an
intrinsic, the step of the loop of `runOnBasicBlock` returns without
inserting anything before or after the instruction, so no logging call is
emitted for its operands or its result, and it leaves the counter and the
identifier lines of the log unchanged; in the block that the loop leaves, the
instruction is followed at once by what the rest of the block gives rise
to. -/
theorem C18_skipped_instructions (S : Nat) (v : LocVars) (t : Tracer) (I : Instr)
    (rest : List Instr) (h : Skipped I) :
    (∃ r, visitInstruction S v t I rest.head? = .ok r ∧ r.before = [] ∧ r.after = [] ∧
      r.tracer.inst_id = t.inst_id ∧ logIds r.tracer.log = logIds t.log) ∧
    (∀ r2, blockLoop S v t (I :: rest) = .ok r2 →
      ∃ t1 more, t1.inst_id = t.inst_id ∧
        blockLoop S (getDebugLoc I v) t1 rest = .ok (r2.1, more) ∧
        r2.2 = Item.orig I :: more) := by
  refine ⟨visitInstruction_skipped S v t I rest.head? h, ?_⟩
  intro r2 h2
  obtain ⟨vis, more, h3, h4, h5⟩ := blockLoop_cons h2
  obtain ⟨r, hr, hb, ha, hid, _⟩ := visitInstruction_skipped S (getDebugLoc I v) t I rest.head? h
  have e : r = vis := by
    rw [hr] at h3
    exact Except.ok.inj h3
  rw [e] at hb ha hid
  refine ⟨vis.tracer, more, hid, h4, ?_⟩
  rw [h5, hb, ha]
  rfl

/-- C18, at the zero extension `%z = zext i32 %s to i64`. -/
theorem C18_skipped_instructions_witness :
    Skipped exZExt ∧
    (∃ r, visitInstruction 65536 ⟨[], 0⟩ ⟨3, []⟩ exZExt [exRet].head? = .ok r ∧ r.before = [] ∧
      r.after = [] ∧ r.tracer.inst_id = (⟨3, []⟩ : Tracer).inst_id ∧
      logIds r.tracer.log = logIds (⟨3, []⟩ : Tracer).log) :=
  ⟨Or.inr (Or.inl rfl),
    (C18_skipped_instructions 65536 ⟨[], 0⟩ ⟨3, []⟩ exZExt [exRet] (Or.inr (Or.inl rfl))).1⟩

/-- C20. In a block whose last instruction is a terminator, in which every
terminator other than an invoke has type void, no phi node is a terminator and
an exception-handling pad that is a terminator does not have type void (as
`catchswitch`, the one such pad, which produces a token), `runOnBasicBlock`
never dereferences the position after the last instruction and never reaches
the assertion of `handleInstructionResult`, from whatever state it is started;
the same holds of its loop alone.  Every instruction the loop can pass to
result handling (not an invoke, not of type void) is not a terminator and has
a successor in the block, and for it the result step returns. -/
theorem C20_result_handling_is_safe (S uninit : Nat) (t : Tracer) (BB : BasicBlock)
    (hlast : ∃ l ∈ BB.getLast?, l.isTerminator = true)
    (hterm : ∀ i ∈ BB, i.isTerminator = true → i.opcode ≠ .invoke → i.ty = .void)
    (hphi : ∀ i ∈ BB, isPhi i = true → i.isTerminator = false)
    (hpad : ∀ i ∈ BB, isEHPad i = true → i.isTerminator = true → i.ty ≠ .void) :
    runOnBasicBlock S uninit t BB ≠ .error .pastEnd ∧
    runOnBasicBlock S uninit t BB ≠ .error .assertion ∧
    (∀ (v : LocVars) (t1 : Tracer),
      blockLoop S v t1 (fromInsertionPt BB) ≠ .error .pastEnd ∧
      blockLoop S v t1 (fromInsertionPt BB) ≠ .error .assertion) ∧
    (∀ (pre : List Instr) (currInst : Instr) (rest : List Instr),
      fromInsertionPt BB = pre ++ currInst :: rest →
      currInst.opcode ≠ .invoke → currInst.ty ≠ .void →
      currInst.isTerminator = false ∧ (∃ nextInst, rest.head? = some nextInst) ∧
      ∀ t1 : Tracer, ∃ r, resultStep S t1 currInst rest.head? = .ok r) := by
  obtain ⟨l, hl, hlt⟩ := hlast
  have hl1 : BB.getLast? = some l := hl
  have hlast2 : ∀ l2, (fromInsertionPt BB).getLast? = some l2 → l2.isTerminator = true := by
    intro l2 hl2
    have := getLast?_fromInsertionPt BB l2 hl2
    rw [hl1] at this
    cases this
    exact hlt
  have hterm2 : ∀ i ∈ fromInsertionPt BB, i.isTerminator = true → i.opcode ≠ .invoke →
      i.ty = .void := fun i hi => hterm i (mem_fromInsertionPt hi)
  refine ⟨?_, ?_, ?_, ?_⟩
  · intro h
    have := runOnBasicBlock_error S uninit t BB _ ⟨l, hl, hlt⟩ hterm hphi hpad h
    cases this
  · intro h
    have := runOnBasicBlock_error S uninit t BB _ ⟨l, hl, hlt⟩ hterm hphi hpad h
    cases this
  · intro v t1
    constructor
    · intro h
      have := blockLoop_error S _ v t1 _ hlast2 hterm2 h
      cases this
    · intro h
      have := blockLoop_error S _ v t1 _ hlast2 hterm2 h
      cases this
  · intro pre I rest hL hop hv
    obtain ⟨h1, n, hn⟩ := result_handling_safe _ hlast2 hterm2 pre I rest hL hop hv
    refine ⟨h1, ⟨n, hn⟩, fun t1 => ?_⟩
    exact resultStep_ok S t1 I rest.head? (fun _ => ⟨h1, by rw [hn]; rfl⟩)

/-- C20, at the block `%s = add i32 %a, %b; ret void` and at the block
`%p = phi ...; %lp = landingpad ...; ret void`. -/
theorem C20_result_handling_is_safe_witness :
    ((∃ l ∈ [exAdd, exRet].getLast?, l.isTerminator = true) ∧
      (∀ i ∈ [exAdd, exRet], i.isTerminator = true → i.opcode ≠ .invoke → i.ty = .void) ∧
      (∀ i ∈ [exAdd, exRet], isPhi i = true → i.isTerminator = false) ∧
      (∀ i ∈ [exAdd, exRet], isEHPad i = true → i.isTerminator = true → i.ty ≠ .void)) ∧
    runOnBasicBlock 65536 0 ⟨0, []⟩ [exAdd, exRet] ≠ .error .pastEnd ∧
    runOnBasicBlock 65536 0 ⟨0, []⟩ [exAdd, exRet] ≠ .error .assertion ∧
    runOnBasicBlock 65536 0 ⟨0, []⟩ [exPhi, exLandingPad, exRet] ≠ .error .pastEnd :=
  ⟨⟨by decide, by decide, by decide, by decide⟩,
    (C20_result_handling_is_safe 65536 0 ⟨0, []⟩ [exAdd, exRet] (by decide) (by decide)
      (by decide) (by decide)).1,
    (C20_result_handling_is_safe 65536 0 ⟨0, []⟩ [exAdd, exRet] (by decide) (by decide)
      (by decide) (by decide)).2.1,
    (C20_result_handling_is_safe 65536 0 ⟨0, []⟩ [exPhi, exLandingPad, exRet] (by decide)
      (by decide) (by decide) (by decide)).1⟩

end Racing
